import Mathlib

/-!
Verification of the goreasoner reasoning kernel against its specification.

The definitions below are a shallow embedding of the Go sources:
`pkg/reasoner` (triple store, rules, fixed-point driver, Turtle parser,
Datalog parser/evaluator).  Go strings are modelled as Lean `String`
(byte-level indexing in Go coincides with character indexing for the ASCII
inputs all claims are about); Go maps used as sets are modelled as lists
used only through membership; Go `map[string][]int` indices are modelled as
functions `String → List Nat`, with unspecified Go map iteration order
modelled by a canonical (deduplicated) order where a rule iterates a map.
-/

set_option maxHeartbeats 1000000
set_option linter.unusedVariables false

namespace GoReasoner

/-- Triple is the atomic ground fact: three strings (pkg/reasoner, README). -/
structure Triple where
  Subject : String
  Predicate : String
  Object : String
deriving DecidableEq, Repr

/-- Default triple used to model Go slice indexing `tripleList[idx]`
(the well-formedness invariant keeps every stored index in range). -/
def defaultTriple : Triple := ⟨"", "", ""⟩

/-- tripleKey generates a unique key for a triple
(`t.Subject + "|" + t.Predicate + "|" + t.Object`). -/
def tripleKey (t : Triple) : String :=
  t.Subject ++ "|" ++ t.Predicate ++ "|" ++ t.Object

/-- TripleStore is an in-memory store for RDF triples: the key set
(`triples map[string]bool`), the insertion-ordered list, and the three
lookup indices holding positions into the list. -/
structure TripleStore where
  triples : List String
  tripleList : List Triple
  bySubject : String → List Nat
  byPredicate : String → List Nat
  byObject : String → List Nat

/-- NewTripleStore creates a new empty triple store. -/
def NewTripleStore : TripleStore :=
  { triples := []
    tripleList := []
    bySubject := fun _ => []
    byPredicate := fun _ => []
    byObject := fun _ => [] }

/-- Add adds a triple to the store, returns true if it was new. -/
def TripleStore.Add (ts : TripleStore) (t : Triple) : TripleStore × Bool :=
  let key := tripleKey t
  if key ∈ ts.triples then (ts, false)
  else
    let idx := ts.tripleList.length
    ({ triples := ts.triples ++ [key]
       tripleList := ts.tripleList ++ [t]
       bySubject := fun x => if x = t.Subject then ts.bySubject x ++ [idx] else ts.bySubject x
       byPredicate := fun x => if x = t.Predicate then ts.byPredicate x ++ [idx] else ts.byPredicate x
       byObject := fun x => if x = t.Object then ts.byObject x ++ [idx] else ts.byObject x },
     true)

/-- Contains checks if a triple exists in the store (key-set lookup). -/
def TripleStore.Contains (ts : TripleStore) (t : Triple) : Bool :=
  decide (tripleKey t ∈ ts.triples)

/-- FindBySubject returns all triples with the given subject. -/
def TripleStore.FindBySubject (ts : TripleStore) (subject : String) : List Triple :=
  (ts.bySubject subject).map (fun idx => ts.tripleList.getD idx defaultTriple)

/-- FindByPredicate returns all triples with the given predicate. -/
def TripleStore.FindByPredicate (ts : TripleStore) (predicate : String) : List Triple :=
  (ts.byPredicate predicate).map (fun idx => ts.tripleList.getD idx defaultTriple)

/-- FindByObject returns all triples with the given object. -/
def TripleStore.FindByObject (ts : TripleStore) (object : String) : List Triple :=
  (ts.byObject object).map (fun idx => ts.tripleList.getD idx defaultTriple)

/-- FindBySubjectPredicate returns all triples matching subject and predicate
(subject-index scan with a linear filter on the predicate). -/
def TripleStore.FindBySubjectPredicate (ts : TripleStore) (subject predicate : String) : List Triple :=
  ((ts.bySubject subject).map (fun idx => ts.tripleList.getD idx defaultTriple)).filter
    (fun t => t.Predicate = predicate)

/-- FindByPredicateObject returns all triples matching predicate and object. -/
def TripleStore.FindByPredicateObject (ts : TripleStore) (predicate object : String) : List Triple :=
  ((ts.byPredicate predicate).map (fun idx => ts.tripleList.getD idx defaultTriple)).filter
    (fun t => t.Object = object)

/-- All returns all triples in the store (insertion order). -/
def TripleStore.All (ts : TripleStore) : List Triple :=
  ts.tripleList

/-- Size returns the number of triples in the store. -/
def TripleStore.Size (ts : TripleStore) : Nat :=
  ts.tripleList.length

/-- Well-formedness invariant tying the key set and the three indices to the
insertion-ordered list; it holds for every store reachable through `Add`. -/
structure TripleStore.WF (ts : TripleStore) : Prop where
  keys : ∀ k, k ∈ ts.triples ↔ ∃ t ∈ ts.tripleList, tripleKey t = k
  nodupKeys : (ts.tripleList.map tripleKey).Nodup
  subj : ∀ x, ts.bySubject x =
    (List.range ts.tripleList.length).filter
      (fun i => (ts.tripleList.getD i defaultTriple).Subject = x)
  pred : ∀ x, ts.byPredicate x =
    (List.range ts.tripleList.length).filter
      (fun i => (ts.tripleList.getD i defaultTriple).Predicate = x)
  obj : ∀ x, ts.byObject x =
    (List.range ts.tripleList.length).filter
      (fun i => (ts.tripleList.getD i defaultTriple).Object = x)

theorem NewTripleStore_wf : NewTripleStore.WF := by
  constructor <;> simp [NewTripleStore]

theorem range_filter_map_getD (l : List Triple) (p : Triple → Bool) :
    ((List.range l.length).filter (fun i => p (l.getD i defaultTriple))).map
      (fun i => l.getD i defaultTriple) = l.filter p := by
  induction l with
  | nil => simp
  | cons a tl ih =>
    have hcomp : ((fun i => p ((a :: tl).getD i defaultTriple)) ∘ Nat.succ)
        = (fun i => p (tl.getD i defaultTriple)) := by
      funext i
      simp [Function.comp, List.getD_cons_succ]
    have hcomp2 : ((fun i => (a :: tl).getD i defaultTriple) ∘ Nat.succ)
        = (fun i => tl.getD i defaultTriple) := by
      funext i
      simp [Function.comp, List.getD_cons_succ]
    rw [List.length_cons, List.range_succ_eq_map, List.filter_cons]
    by_cases hpa : p a
    · simp only [List.getD_cons_zero, hpa, if_true]
      rw [List.filter_map, hcomp, List.map_cons, List.map_map, hcomp2, ih,
        List.filter_cons, List.getD_cons_zero, hpa]
      simp
    · have hpa' : p a = false := Bool.not_eq_true _ |>.mp hpa
      simp only [List.getD_cons_zero, hpa', if_neg, Bool.false_eq_true, not_false_iff]
      rw [List.filter_map, hcomp, List.map_map, hcomp2, ih, List.filter_cons, hpa']
      simp

theorem TripleStore.WF.findBySubject_eq {ts : TripleStore} (h : ts.WF) (x : String) :
    ts.FindBySubject x = ts.tripleList.filter (fun t => t.Subject = x) := by
  rw [TripleStore.FindBySubject, h.subj x]
  exact range_filter_map_getD ts.tripleList (fun t => t.Subject = x)

theorem TripleStore.WF.findByPredicate_eq {ts : TripleStore} (h : ts.WF) (x : String) :
    ts.FindByPredicate x = ts.tripleList.filter (fun t => t.Predicate = x) := by
  rw [TripleStore.FindByPredicate, h.pred x]
  exact range_filter_map_getD ts.tripleList (fun t => t.Predicate = x)

theorem TripleStore.WF.findByObject_eq {ts : TripleStore} (h : ts.WF) (x : String) :
    ts.FindByObject x = ts.tripleList.filter (fun t => t.Object = x) := by
  rw [TripleStore.FindByObject, h.obj x]
  exact range_filter_map_getD ts.tripleList (fun t => t.Object = x)

theorem TripleStore.WF.findBySubjectPredicate_eq {ts : TripleStore} (h : ts.WF) (x y : String) :
    ts.FindBySubjectPredicate x y =
      ts.tripleList.filter (fun t => t.Subject = x ∧ t.Predicate = y) := by
  rw [TripleStore.FindBySubjectPredicate, h.subj x]
  rw [range_filter_map_getD ts.tripleList (fun t => t.Subject = x), List.filter_filter]
  apply List.filter_congr
  intro t _
  by_cases h1 : t.Subject = x <;> by_cases h2 : t.Predicate = y <;> simp [h1, h2]

theorem TripleStore.WF.findByPredicateObject_eq {ts : TripleStore} (h : ts.WF) (x y : String) :
    ts.FindByPredicateObject x y =
      ts.tripleList.filter (fun t => t.Predicate = x ∧ t.Object = y) := by
  rw [TripleStore.FindByPredicateObject, h.pred x]
  rw [range_filter_map_getD ts.tripleList (fun t => t.Predicate = x), List.filter_filter]
  apply List.filter_congr
  intro t _
  by_cases h1 : t.Predicate = x <;> by_cases h2 : t.Object = y <;> simp [h1, h2]

theorem Add_of_mem {ts : TripleStore} {t : Triple} (h : tripleKey t ∈ ts.triples) :
    ts.Add t = (ts, false) := by
  simp [TripleStore.Add, h]

theorem Add_of_not_mem {ts : TripleStore} {t : Triple} (h : tripleKey t ∉ ts.triples) :
    (ts.Add t).2 = true ∧ (ts.Add t).1.tripleList = ts.tripleList ++ [t] ∧
      (ts.Add t).1.triples = ts.triples ++ [tripleKey t] := by
  simp [TripleStore.Add, h]

theorem getD_append_last (l : List Triple) (t : Triple) :
    (l ++ [t]).getD l.length defaultTriple = t := by
  induction l with
  | nil => rfl
  | cons a tl ih => simp [ih]

theorem index_wf_step (l : List Triple) (t : Triple) (f : Triple → String)
    (idx : String → List Nat)
    (h : ∀ x, idx x = (List.range l.length).filter
      (fun i => f (l.getD i defaultTriple) = x)) (x : String) :
    (if x = f t then idx x ++ [l.length] else idx x) =
      (List.range (l ++ [t]).length).filter
        (fun i => f ((l ++ [t]).getD i defaultTriple) = x) := by
  rw [List.length_append, List.length_singleton, List.range_succ, List.filter_append]
  have hfix : ∀ i ∈ List.range l.length,
      (decide (f ((l ++ [t]).getD i defaultTriple) = x) : Bool) =
        decide (f (l.getD i defaultTriple) = x) := by
    intro i hi
    rw [List.getD_append _ _ _ _ (List.mem_range.mp hi)]
  rw [List.filter_congr hfix, ← h x]
  have hlast : (l ++ [t]).getD l.length defaultTriple = t := getD_append_last l t
  by_cases hx : x = f t
  · subst hx
    simp [hlast]
  · have : ¬ (f t = x) := fun hh => hx hh.symm
    simp [hx, hlast, this]

theorem Add_fields {ts : TripleStore} {t : Triple} (hmem : tripleKey t ∉ ts.triples) :
    (ts.Add t).1.triples = ts.triples ++ [tripleKey t] ∧
    (ts.Add t).1.tripleList = ts.tripleList ++ [t] ∧
    (ts.Add t).1.bySubject = (fun x => if x = t.Subject
      then ts.bySubject x ++ [ts.tripleList.length] else ts.bySubject x) ∧
    (ts.Add t).1.byPredicate = (fun x => if x = t.Predicate
      then ts.byPredicate x ++ [ts.tripleList.length] else ts.byPredicate x) ∧
    (ts.Add t).1.byObject = (fun x => if x = t.Object
      then ts.byObject x ++ [ts.tripleList.length] else ts.byObject x) := by
  simp [TripleStore.Add, hmem]

theorem Add_wf {ts : TripleStore} (h : ts.WF) (t : Triple) : (ts.Add t).1.WF := by
  by_cases hmem : tripleKey t ∈ ts.triples
  · rw [Add_of_mem hmem]; exact h
  · obtain ⟨hkeys, hlist, hsub, hpred, hobj⟩ := Add_fields hmem
    constructor
    · intro k
      rw [hkeys, hlist]
      constructor
      · intro hk
        rcases List.mem_append.mp hk with hk | hk
        · rcases (h.keys k).mp hk with ⟨u, hu, hku⟩
          exact ⟨u, List.mem_append_left _ hu, hku⟩
        · exact ⟨t, List.mem_append_right _ (List.mem_singleton_self t),
            (List.mem_singleton.mp hk).symm⟩
      · rintro ⟨u, hu, rfl⟩
        rcases List.mem_append.mp hu with hu | hu
        · exact List.mem_append_left _ ((h.keys _).mpr ⟨u, hu, rfl⟩)
        · rw [List.mem_singleton.mp hu]
          exact List.mem_append_right _ (List.mem_singleton_self _)
    · rw [hlist, List.map_append, List.map_singleton]
      apply List.Nodup.append h.nodupKeys (List.nodup_singleton _)
      intro k hk hk'
      rw [List.mem_singleton] at hk'
      subst hk'
      rcases List.mem_map.mp hk with ⟨u, hu, hku⟩
      exact hmem ((h.keys (tripleKey t)).mpr ⟨u, hu, hku⟩)
    · intro x
      rw [hlist, hsub]
      exact index_wf_step ts.tripleList t Triple.Subject ts.bySubject h.subj x
    · intro x
      rw [hlist, hpred]
      exact index_wf_step ts.tripleList t Triple.Predicate ts.byPredicate h.pred x
    · intro x
      rw [hlist, hobj]
      exact index_wf_step ts.tripleList t Triple.Object ts.byObject h.obj x

/-- A triple none of whose components contains the `|` key separator; the
spec's equality-key argument is only valid for such triples. -/
def PipeFree (t : Triple) : Prop :=
  '|' ∉ t.Subject.data ∧ '|' ∉ t.Predicate.data ∧ '|' ∉ t.Object.data

instance (t : Triple) : Decidable (PipeFree t) := by
  unfold PipeFree; infer_instance

theorem append_pipe_inj {a c b d : List Char} (ha : '|' ∉ a) (hc : '|' ∉ c)
    (h : a ++ '|' :: b = c ++ '|' :: d) : a = c ∧ b = d := by
  induction a generalizing c with
  | nil =>
    cases c with
    | nil => simpa using h
    | cons y ys =>
      exfalso
      rw [List.nil_append] at h
      have hy : '|' = y := (List.cons.injEq _ _ _ _ ▸ h).1
      exact hc (hy ▸ List.mem_cons_self y ys)
  | cons x xs ih =>
    cases c with
    | nil =>
      exfalso
      rw [List.nil_append] at h
      have hx : x = '|' := (List.cons.injEq _ _ _ _ ▸ h).1
      exact ha (hx ▸ List.mem_cons_self x xs)
    | cons y ys =>
      rw [List.cons_append, List.cons_append] at h
      have hxy := (List.cons.injEq _ _ _ _ ▸ h).1
      have htl := (List.cons.injEq _ _ _ _ ▸ h).2
      have ha' : '|' ∉ xs := fun hm => ha (List.mem_cons_of_mem _ hm)
      have hc' : '|' ∉ ys := fun hm => hc (List.mem_cons_of_mem _ hm)
      obtain ⟨h1, h2⟩ := ih ha' hc' htl
      exact ⟨by rw [hxy, h1], h2⟩

theorem tripleKey_data (t : Triple) :
    (tripleKey t).data =
      t.Subject.data ++ '|' :: (t.Predicate.data ++ '|' :: t.Object.data) := by
  simp [tripleKey, String.data_append, List.append_assoc]

theorem tripleKey_inj {t u : Triple} (ht : PipeFree t) (hu : PipeFree u)
    (h : tripleKey t = tripleKey u) : t = u := by
  have hd := congrArg String.data h
  rw [tripleKey_data, tripleKey_data] at hd
  obtain ⟨h1, h23⟩ := append_pipe_inj ht.1 hu.1 hd
  obtain ⟨h2, h3⟩ := append_pipe_inj ht.2.1 hu.2.1 h23
  cases t with
  | mk a b c =>
    cases u with
    | mk a' b' c' =>
      simp only at h1 h2 h3
      rw [Triple.mk.injEq]
      exact ⟨String.ext h1, String.ext h2, String.ext h3⟩

theorem contains_iff_mem {ts : TripleStore} (h : ts.WF)
    (hstore : ∀ u ∈ ts.tripleList, PipeFree u) {t : Triple} (ht : PipeFree t) :
    ts.Contains t = true ↔ t ∈ ts.tripleList := by
  rw [TripleStore.Contains, decide_eq_true_eq, h.keys]
  constructor
  · rintro ⟨u, hu, hku⟩
    rwa [tripleKey_inj (hstore u hu) ht hku] at hu
  · intro hmem
    exact ⟨t, hmem, rfl⟩

/-- The sequence of `(triple, reported-new)` results of a sequence of Add
calls against a store. -/
def addTrace : TripleStore → List Triple → List (Triple × Bool)
  | _, [] => []
  | ts, t :: rest =>
    let r := ts.Add t
    (t, r.2) :: addTrace r.1 rest

/-- Number of times the given triple was reported `new=true` in a trace. -/
def newCount (trace : List (Triple × Bool)) (t : Triple) : Nat :=
  (trace.filter (fun p => decide (p.1 = t) && p.2)).length

theorem addTrace_newCount (ops : List Triple) (t : Triple) :
    ∀ ts : TripleStore, ts.WF → (∀ u ∈ ts.tripleList, PipeFree u) →
      (∀ u ∈ ops, PipeFree u) → PipeFree t →
      newCount (addTrace ts ops) t =
        if t ∈ ts.tripleList then 0 else if t ∈ ops then 1 else 0 := by
  induction ops with
  | nil =>
    intro ts _ _ _ _
    simp [addTrace, newCount]
  | cons u rest ih =>
    intro ts hwf hstore hops ht
    have hu : PipeFree u := hops u (List.mem_cons_self u rest)
    have hrest : ∀ v ∈ rest, PipeFree v := fun v hv => hops v (List.mem_cons_of_mem _ hv)
    by_cases hcu : tripleKey u ∈ ts.triples
    · have hadd : ts.Add u = (ts, false) := Add_of_mem hcu
      have humem : u ∈ ts.tripleList := by
        rcases (hwf.keys _).mp hcu with ⟨v, hv, hkv⟩
        rwa [← tripleKey_inj (hstore v hv) hu hkv]
      rw [addTrace]
      have hcount : newCount ((u, (ts.Add u).2) :: addTrace (ts.Add u).1 rest) t
          = newCount (addTrace ts rest) t := by
        rw [hadd]
        simp [newCount, List.filter_cons]
      rw [hcount, ih ts hwf hstore hrest ht]
      by_cases hmem : t ∈ ts.tripleList
      · rw [if_pos hmem, if_pos hmem]
      · rw [if_neg hmem, if_neg hmem]
        have hiff : (t ∈ u :: rest) ↔ t ∈ rest := by
          constructor
          · intro hh
            rcases List.mem_cons.mp hh with rfl | hh
            · exact absurd humem hmem
            · exact hh
          · exact fun hh => List.mem_cons_of_mem _ hh
        by_cases hr : t ∈ rest
        · rw [if_pos hr, if_pos (hiff.mpr hr)]
        · rw [if_neg hr, if_neg (fun hh => hr (hiff.mp hh))]
    · obtain ⟨hb2, hlist, _⟩ := Add_of_not_mem hcu
      have hwf' := Add_wf hwf u
      have hstore' : ∀ v ∈ (ts.Add u).1.tripleList, PipeFree v := by
        rw [hlist]
        intro v hv
        rcases List.mem_append.mp hv with hv | hv
        · exact hstore v hv
        · rw [List.mem_singleton.mp hv]; exact hu
      have hunotmem : u ∉ ts.tripleList := fun hm => hcu ((hwf.keys _).mpr ⟨u, hm, rfl⟩)
      rw [addTrace]
      have hih := ih (ts.Add u).1 hwf' hstore' hrest ht
      by_cases hut : u = t
      · subst hut
        have hmem' : u ∈ (ts.Add u).1.tripleList := by
          rw [hlist]
          exact List.mem_append_right _ (List.mem_singleton_self u)
        have hcount : newCount ((u, (ts.Add u).2) :: addTrace (ts.Add u).1 rest) u
            = newCount (addTrace (ts.Add u).1 rest) u + 1 := by
          rw [hb2]
          simp [newCount, List.filter_cons]
        rw [hcount, hih, if_pos hmem', if_neg hunotmem,
          if_pos (List.mem_cons_self u rest)]
      · have hcount : newCount ((u, (ts.Add u).2) :: addTrace (ts.Add u).1 rest) t
            = newCount (addTrace (ts.Add u).1 rest) t := by
          simp [newCount, List.filter_cons, hut]
        have hmemiff : t ∈ (ts.Add u).1.tripleList ↔ t ∈ ts.tripleList := by
          rw [hlist, List.mem_append, List.mem_singleton]
          constructor
          · rintro (hh | rfl)
            · exact hh
            · exact absurd rfl hut
          · exact Or.inl
        rw [hcount, hih]
        by_cases hmem : t ∈ ts.tripleList
        · rw [if_pos (hmemiff.mpr hmem), if_pos hmem]
        · rw [if_neg (fun hh => hmem (hmemiff.mp hh)), if_neg hmem]
          have hiff : (t ∈ u :: rest) ↔ t ∈ rest := by
            constructor
            · intro hh
              rcases List.mem_cons.mp hh with rfl | hh
              · exact absurd rfl hut
              · exact hh
            · exact fun hh => List.mem_cons_of_mem _ hh
          by_cases hr : t ∈ rest
          · rw [if_pos hr, if_pos (hiff.mpr hr)]
          · rw [if_neg hr, if_neg (fun hh => hr (hiff.mp hh))]

/-- Claim C3 (amended): over triples whose components are free of the `|`
key separator, every sequence of Add calls on a fresh store reports
`new=true` for an inserted triple exactly once across the store's lifetime,
and adding a triple the store already contains is a no-op reported as not
new.  (The unamended claim fails for triples containing `|`: the store
keys by the `|`-joined string, which conflates distinct such triples.) -/
theorem tripleStore_add_new_exactly_once (ops : List Triple) (t : Triple)
    (hops : ∀ u ∈ ops, PipeFree u) (ht : t ∈ ops) :
    newCount (addTrace NewTripleStore ops) t = 1 ∧
    ∀ (ts : TripleStore) (u : Triple), ts.Contains u = true → ts.Add u = (ts, false) := by
  constructor
  · have hpf : PipeFree t := hops t ht
    rw [addTrace_newCount ops t NewTripleStore NewTripleStore_wf
      (by intro u hu; simp [NewTripleStore] at hu) hops hpf]
    simp [NewTripleStore, ht]
  · intro ts u hc
    exact Add_of_mem (of_decide_eq_true hc)

/-- Witness for C3's amended theorem at a concrete run: adding the same
triple twice reports `new=true` exactly once. -/
theorem tripleStore_add_new_exactly_once_witness :
    newCount (addTrace NewTripleStore
      [⟨"a", "b", "c"⟩, ⟨"a", "b", "c"⟩]) ⟨"a", "b", "c"⟩ = 1 ∧
    ∀ (ts : TripleStore) (u : Triple), ts.Contains u = true → ts.Add u = (ts, false) :=
  tripleStore_add_new_exactly_once [⟨"a", "b", "c"⟩, ⟨"a", "b", "c"⟩]
    ⟨"a", "b", "c"⟩ (by decide) (by decide)

/-- Counterexample to claim C3 as stated: the two triples below are
distinct records, both are inserted, yet the second is never reported
`new=true` (its `|`-joined key collides with the first's). -/
theorem tripleStore_add_counterexample :
    (⟨"a|b", "c", "d"⟩ : Triple) ≠ ⟨"a", "b|c", "d"⟩ ∧
    (⟨"a", "b|c", "d"⟩ : Triple) ∈ ([⟨"a|b", "c", "d"⟩, ⟨"a", "b|c", "d"⟩] : List Triple) ∧
    newCount (addTrace NewTripleStore [⟨"a|b", "c", "d"⟩, ⟨"a", "b|c", "d"⟩])
      ⟨"a", "b|c", "d"⟩ = 0 := by
  decide

/-! Common RDF/RDFS/OWL URIs (pkg/reasoner/rules.go). -/

def RDFType : String := "http://www.w3.org/1999/02/22-rdf-syntax-ns#type"

def RDFSSubClassOf : String := "http://www.w3.org/2000/01/rdf-schema#subClassOf"

def RDFSSubPropertyOf : String := "http://www.w3.org/2000/01/rdf-schema#subPropertyOf"

def RDFSDomain : String := "http://www.w3.org/2000/01/rdf-schema#domain"

def RDFSRange : String := "http://www.w3.org/2000/01/rdf-schema#range"

def OWLClass : String := "http://www.w3.org/2002/07/owl#Class"

def OWLThing : String := "http://www.w3.org/2002/07/owl#Thing"

def OWLEquivalentClass : String := "http://www.w3.org/2002/07/owl#equivalentClass"

def OWLSameAs : String := "http://www.w3.org/2002/07/owl#sameAs"

def OWLInverseOf : String := "http://www.w3.org/2002/07/owl#inverseOf"

def OWLTransitiveProperty : String := "http://www.w3.org/2002/07/owl#TransitiveProperty"

def OWLSymmetricProperty : String := "http://www.w3.org/2002/07/owl#SymmetricProperty"

/-- Shared shape of the four transitivity rules (rules.go writes each out;
they differ only in the predicate constant).  The Go nested `for` loops
appending to `inferred` are the bind/filterMap below. -/
def transViaPredicate (pred : String) (store : TripleStore) : List Triple :=
  (store.FindByPredicate pred).flatMap (fun t1 =>
    (store.FindBySubjectPredicate t1.Object pred).filterMap (fun t2 =>
      let newTriple : Triple := ⟨t1.Subject, pred, t2.Object⟩
      if store.Contains newTriple = false ∧ t1.Subject ≠ t2.Object
      then some newTriple else none))

/-- Shared shape of the two symmetry rules. -/
def symViaPredicate (pred : String) (store : TripleStore) : List Triple :=
  (store.FindByPredicate pred).filterMap (fun t =>
    let newTriple : Triple := ⟨t.Object, pred, t.Subject⟩
    if store.Contains newTriple = false then some newTriple else none)

/-- SubClassTransitivity: A subClassOf B, B subClassOf C ⟹ A subClassOf C
(reflexive A=C suppressed). -/
def SubClassTransitivity.Apply (store : TripleStore) : List Triple :=
  transViaPredicate RDFSSubClassOf store

/-- TypeInheritance: X type A, A subClassOf B ⟹ X type B. -/
def TypeInheritance.Apply (store : TripleStore) : List Triple :=
  (store.FindByPredicate RDFType).flatMap (fun t =>
    (store.FindBySubjectPredicate t.Object RDFSSubClassOf).filterMap (fun sc =>
      let newTriple : Triple := ⟨t.Subject, RDFType, sc.Object⟩
      if store.Contains newTriple = false then some newTriple else none))

/-- DomainInference: P domain C, X P Y ⟹ X type C. -/
def DomainInference.Apply (store : TripleStore) : List Triple :=
  (store.FindByPredicate RDFSDomain).flatMap (fun dt =>
    (store.FindByPredicate dt.Subject).filterMap (fun t =>
      let newTriple : Triple := ⟨t.Subject, RDFType, dt.Object⟩
      if store.Contains newTriple = false then some newTriple else none))

/-- RangeInference: P range C, X P Y ⟹ Y type C, skipping literal Y
(first character a double quote). -/
def RangeInference.Apply (store : TripleStore) : List Triple :=
  (store.FindByPredicate RDFSRange).flatMap (fun rt =>
    (store.FindByPredicate rt.Subject).filterMap (fun t =>
      if t.Object.data ≠ [] ∧ t.Object.data.headD ' ' = '"' then none
      else
        let newTriple : Triple := ⟨t.Object, RDFType, rt.Object⟩
        if store.Contains newTriple = false then some newTriple else none))

/-- SubPropertyTransitivity: P1 subPropertyOf P2, P2 subPropertyOf P3 ⟹
P1 subPropertyOf P3 (reflexive suppressed). -/
def SubPropertyTransitivity.Apply (store : TripleStore) : List Triple :=
  transViaPredicate RDFSSubPropertyOf store

/-- SubPropertyInheritance: P1 subPropertyOf P2, X P1 Y ⟹ X P2 Y. -/
def SubPropertyInheritance.Apply (store : TripleStore) : List Triple :=
  (store.FindByPredicate RDFSSubPropertyOf).flatMap (fun sp =>
    (store.FindByPredicate sp.Subject).filterMap (fun t =>
      let newTriple : Triple := ⟨t.Subject, sp.Object, t.Object⟩
      if store.Contains newTriple = false then some newTriple else none))

/-- EquivalentClassSymmetry: A equivalentClass B ⟹ B equivalentClass A. -/
def EquivalentClassSymmetry.Apply (store : TripleStore) : List Triple :=
  symViaPredicate OWLEquivalentClass store

/-- EquivalentClassTransitivity (reflexive suppressed). -/
def EquivalentClassTransitivity.Apply (store : TripleStore) : List Triple :=
  transViaPredicate OWLEquivalentClass store

/-- SameAsSymmetry: A sameAs B ⟹ B sameAs A. -/
def SameAsSymmetry.Apply (store : TripleStore) : List Triple :=
  symViaPredicate OWLSameAs store

/-- SameAsTransitivity (reflexive suppressed). -/
def SameAsTransitivity.Apply (store : TripleStore) : List Triple :=
  transViaPredicate OWLSameAs store

/-- InversePropertyInference: P1 inverseOf P2: X P1 Y ⟹ Y P2 X and
X P2 Y ⟹ Y P1 X. -/
def InversePropertyInference.Apply (store : TripleStore) : List Triple :=
  (store.FindByPredicate OWLInverseOf).flatMap (fun inv =>
    (store.FindByPredicate inv.Subject).filterMap (fun t =>
      let newTriple : Triple := ⟨t.Object, inv.Object, t.Subject⟩
      if store.Contains newTriple = false then some newTriple else none)
    ++ (store.FindByPredicate inv.Object).filterMap (fun t =>
      let newTriple : Triple := ⟨t.Object, inv.Subject, t.Subject⟩
      if store.Contains newTriple = false then some newTriple else none))

/-- TransitivePropertyInference: P type TransitiveProperty: X P Y, Y P Z ⟹
X P Z (reflexive suppressed).  The Go `transitiveProps` set (map iterated
in unspecified order) is modelled as the deduplicated subject list. -/
def TransitivePropertyInference.Apply (store : TripleStore) : List Triple :=
  (((store.FindByPredicateObject RDFType OWLTransitiveProperty).map
      (fun t => t.Subject)).dedup).flatMap (fun prop =>
    transViaPredicate prop store)

/-- SymmetricPropertyInference: P type SymmetricProperty: X P Y ⟹ Y P X. -/
def SymmetricPropertyInference.Apply (store : TripleStore) : List Triple :=
  (((store.FindByPredicateObject RDFType OWLSymmetricProperty).map
      (fun t => t.Subject)).dedup).flatMap (fun prop =>
    symViaPredicate prop store)

/-- DefaultRules: the default rule list, in declaration order. -/
def DefaultRules : List (TripleStore → List Triple) :=
  [SubClassTransitivity.Apply, TypeInheritance.Apply, DomainInference.Apply,
   RangeInference.Apply, SubPropertyTransitivity.Apply, SubPropertyInheritance.Apply,
   EquivalentClassSymmetry.Apply, EquivalentClassTransitivity.Apply,
   SameAsSymmetry.Apply, SameAsTransitivity.Apply, InversePropertyInference.Apply,
   TransitivePropertyInference.Apply, SymmetricPropertyInference.Apply]

/-- Inner insertion loop of the driver: add each proposed triple in order,
counting the ones that were actually new. -/
def addAll (ts : TripleStore) : List Triple → TripleStore × Nat
  | [] => (ts, 0)
  | t :: rest =>
    let r := ts.Add t
    let q := addAll r.1 rest
    (q.1, (if r.2 then 1 else 0) + q.2)

/-- Apply each rule of the list in order to the evolving store, inserting
its proposals and summing the new-counts. -/
def applyRulesAux (ts : TripleStore) : List (TripleStore → List Triple) → TripleStore × Nat
  | [] => (ts, 0)
  | rule :: rest =>
    let r := addAll ts (rule ts)
    let q := applyRulesAux r.1 rest
    (q.1, r.2 + q.2)

/-- One round of the fixed-point loop: apply every rule in declaration
order, returning the store and `newInThisRound`. -/
def applyRules (ts : TripleStore) : TripleStore × Nat :=
  applyRulesAux ts DefaultRules

/-- The fixed-point loop of RunForwardReasoning, with explicit fuel (the Go
loop is unbounded; `runForwardReasoning_terminates` shows the fuel used by
`RunForwardReasoning` suffices to reach the fixed point). -/
def loop : Nat → TripleStore → TripleStore × Nat
  | 0, ts => (ts, 0)
  | fuel + 1, ts =>
    let r := applyRules ts
    if r.2 = 0 then (r.1, 0)
    else
      let q := loop fuel r.1
      (q.1, r.2 + q.2)

/-- All term occurrences of the store. -/
def storeTerms (ts : TripleStore) : List String :=
  ts.tripleList.flatMap (fun t => [t.Subject, t.Predicate, t.Object])

/-- Fuel that provably suffices for the loop: one productive round per
possible triple over the store's terms plus `rdf:type`, plus one final
unproductive round. -/
def fuelBound (ts : TripleStore) : Nat :=
  ((storeTerms ts ++ [RDFType]).dedup.length) ^ 3 + 1

/-- RunForwardReasoning applies all rules until no new facts are derived;
returns the final store and the total number of new triples inferred. -/
def RunForwardReasoning (ts : TripleStore) : TripleStore × Nat :=
  loop (fuelBound ts) ts

/-- LoadTurtle's insertion loop: add every parsed triple to the store. -/
def loadTriples (ts : TripleStore) (l : List Triple) : TripleStore :=
  l.foldl (fun s t => (s.Add t).1) ts

/-- Claim C5 (amended): no triple emitted by the range-inference rule has a
SUBJECT whose first character is a double quote: the rule infers (Y type C)
from (P range C) and (X P Y) except when Y is a literal.  (As stated the
claim guards the object; but the emitted triple is (Y type C) whose object
is the class C, which the rule does not test — see the counterexample.) -/
theorem rangeInference_no_literal_subject (store : TripleStore) (t : Triple)
    (ht : t ∈ RangeInference.Apply store) :
    t.Subject.data.head? ≠ some '"' := by
  rcases List.mem_flatMap.mp ht with ⟨rt, hrt, hmem⟩
  rcases List.mem_filterMap.mp hmem with ⟨u, hu, heq⟩
  simp only at heq
  by_cases hlit : u.Object.data ≠ [] ∧ u.Object.data.headD ' ' = '"'
  · rw [if_pos hlit] at heq
    exact absurd heq (by simp)
  · rw [if_neg hlit] at heq
    by_cases hc : store.Contains ⟨u.Object, RDFType, rt.Object⟩ = false
    · rw [if_pos hc] at heq
      have hteq := Option.some.inj heq
      rw [← hteq]
      push_neg at hlit
      cases hd : u.Object.data with
      | nil => simp [hd]
      | cons c cs =>
        have hne : u.Object.data ≠ [] := by rw [hd]; simp
        have hcq := hlit hne
        rw [hd] at hcq
        simp only [List.headD_cons] at hcq
        simp [hd, hcq]
    · rw [if_neg hc] at heq
      exact absurd heq (by simp)

set_option maxHeartbeats 10000000 in
/-- Witness for C5's amended theorem: a concrete range inference whose
emitted triple has a non-literal subject. -/
theorem rangeInference_no_literal_subject_witness :
    (⟨"Y", RDFType, "C"⟩ : Triple) ∈ RangeInference.Apply
      (loadTriples NewTripleStore [⟨"P", RDFSRange, "C"⟩, ⟨"X", "P", "Y"⟩]) ∧
    ("Y" : String).data.head? ≠ some '"' :=
  ⟨by decide,
   rangeInference_no_literal_subject
     (loadTriples NewTripleStore [⟨"P", RDFSRange, "C"⟩, ⟨"X", "P", "Y"⟩])
     ⟨"Y", RDFType, "C"⟩ (by decide)⟩

set_option maxHeartbeats 10000000 in
/-- Counterexample to claim C5 as stated: with a literal class
(P range "v") and a fact (X P Y), the range rule emits (Y type "v"),
whose OBJECT begins with a double quote. -/
theorem rangeInference_literal_object_counterexample :
    (⟨"Y", RDFType, "\"v\""⟩ : Triple) ∈ RangeInference.Apply
      (loadTriples NewTripleStore [⟨"P", RDFSRange, "\"v\""⟩, ⟨"X", "P", "Y"⟩]) ∧
    ("\"v\"" : String).data.head? = some '"' := by
  decide

/-!  Bookkeeping lemmas for the fixed-point driver. -/

theorem addAll_wf : ∀ (l : List Triple) (ts : TripleStore), ts.WF → (addAll ts l).1.WF := by
  intro l
  induction l with
  | nil => intro ts h; exact h
  | cons t rest ih => intro ts h; exact ih _ (Add_wf h t)

theorem addAll_list : ∀ (l : List Triple) (ts : TripleStore),
    ∃ ext, (addAll ts l).1.tripleList = ts.tripleList ++ ext ∧
      (addAll ts l).2 = ext.length ∧ ∀ u ∈ ext, u ∈ l := by
  intro l
  induction l with
  | nil =>
    intro ts
    exact ⟨[], by simp [addAll], by simp [addAll], by simp⟩
  | cons t rest ih =>
    intro ts
    obtain ⟨ext, h1, h2, h3⟩ := ih (ts.Add t).1
    by_cases hm : tripleKey t ∈ ts.triples
    · have hAdd := Add_of_mem hm
      have hAdd1 : (ts.Add t).1 = ts := by rw [hAdd]
      have hAdd2 : (ts.Add t).2 = false := by rw [hAdd]
      refine ⟨ext, ?_, ?_, fun u hu => List.mem_cons_of_mem _ (h3 u hu)⟩
      · show (addAll (ts.Add t).1 rest).1.tripleList = _
        rw [h1, hAdd1]
      · show (if (ts.Add t).2 then 1 else 0) + (addAll (ts.Add t).1 rest).2 = _
        rw [hAdd2, h2]
        simp
    · obtain ⟨hb, hlist, _⟩ := Add_of_not_mem hm
      refine ⟨t :: ext, ?_, ?_, ?_⟩
      · show (addAll (ts.Add t).1 rest).1.tripleList = _
        rw [h1, hlist, List.append_assoc, List.singleton_append]
      · show (if (ts.Add t).2 then 1 else 0) + (addAll (ts.Add t).1 rest).2 = _
        rw [hb, h2]
        simp [Nat.add_comm]
      · intro u hu
        rcases List.mem_cons.mp hu with rfl | hu
        · exact List.mem_cons_self _ _
        · exact List.mem_cons_of_mem _ (h3 u hu)

theorem addAll_inv (P : Triple → Prop) (l : List Triple) (ts : TripleStore)
    (hts : ∀ u ∈ ts.tripleList, P u) (hl : ∀ u ∈ l, P u) :
    ∀ u ∈ (addAll ts l).1.tripleList, P u := by
  obtain ⟨ext, h1, _, h3⟩ := addAll_list l ts
  rw [h1]
  intro u hu
  rcases List.mem_append.mp hu with hu | hu
  · exact hts u hu
  · exact hl u (h3 u hu)

theorem applyRulesAux_wf : ∀ (rules : List (TripleStore → List Triple)) (ts : TripleStore),
    ts.WF → (applyRulesAux ts rules).1.WF := by
  intro rules
  induction rules with
  | nil => intro ts h; exact h
  | cons rule rest ih => intro ts h; exact ih _ (addAll_wf _ _ h)

theorem applyRulesAux_list : ∀ (rules : List (TripleStore → List Triple)) (ts : TripleStore),
    ∃ ext, (applyRulesAux ts rules).1.tripleList = ts.tripleList ++ ext ∧
      (applyRulesAux ts rules).2 = ext.length := by
  intro rules
  induction rules with
  | nil =>
    intro ts
    exact ⟨[], by simp [applyRulesAux], by simp [applyRulesAux]⟩
  | cons rule rest ih =>
    intro ts
    obtain ⟨e1, ha1, ha2, _⟩ := addAll_list (rule ts) ts
    obtain ⟨e2, hb1, hb2⟩ := ih (addAll ts (rule ts)).1
    refine ⟨e1 ++ e2, ?_, ?_⟩
    · show (applyRulesAux (addAll ts (rule ts)).1 rest).1.tripleList = _
      rw [hb1, ha1, List.append_assoc]
    · show (addAll ts (rule ts)).2 + (applyRulesAux (addAll ts (rule ts)).1 rest).2 = _
      rw [ha2, hb2, List.length_append]

theorem applyRulesAux_inv (P : Triple → Prop) :
    ∀ (rules : List (TripleStore → List Triple)),
      (∀ rule ∈ rules, ∀ s : TripleStore, s.WF → (∀ u ∈ s.tripleList, P u) →
        ∀ u ∈ rule s, P u) →
      ∀ ts : TripleStore, ts.WF → (∀ u ∈ ts.tripleList, P u) →
        ∀ u ∈ (applyRulesAux ts rules).1.tripleList, P u := by
  intro rules
  induction rules with
  | nil => intro _ ts _ h; exact h
  | cons rule rest ih =>
    intro hrules ts hwf hP
    have h1 : ∀ u ∈ (addAll ts (rule ts)).1.tripleList, P u :=
      addAll_inv P _ ts hP (hrules rule (List.mem_cons_self _ _) ts hwf hP)
    exact ih (fun r hr => hrules r (List.mem_cons_of_mem _ hr))
      (addAll ts (rule ts)).1 (addAll_wf _ _ hwf) h1

theorem applyRules_wf {ts : TripleStore} (h : ts.WF) : (applyRules ts).1.WF :=
  applyRulesAux_wf DefaultRules ts h

theorem applyRules_list (ts : TripleStore) :
    ∃ ext, (applyRules ts).1.tripleList = ts.tripleList ++ ext ∧
      (applyRules ts).2 = ext.length :=
  applyRulesAux_list DefaultRules ts

theorem applyRules_zero_eq {ts : TripleStore} (h : (applyRules ts).2 = 0) :
    (applyRules ts).1.tripleList = ts.tripleList := by
  obtain ⟨ext, h1, h2⟩ := applyRules_list ts
  rw [h] at h2
  have : ext = [] := List.length_eq_zero.mp h2.symm
  rw [h1, this, List.append_nil]

theorem loop_succ (n : Nat) (ts : TripleStore) :
    loop (n + 1) ts =
      (if (applyRules ts).2 = 0 then ((applyRules ts).1, 0)
       else ((loop n (applyRules ts).1).1,
             (applyRules ts).2 + (loop n (applyRules ts).1).2)) := rfl

theorem loop_succ_stop {n : Nat} {ts : TripleStore} (hz : (applyRules ts).2 = 0) :
    loop (n + 1) ts = ((applyRules ts).1, 0) := by
  rw [loop_succ, if_pos hz]

theorem loop_succ_go {n : Nat} {ts : TripleStore} (hz : ¬ (applyRules ts).2 = 0) :
    loop (n + 1) ts = ((loop n (applyRules ts).1).1,
      (applyRules ts).2 + (loop n (applyRules ts).1).2) := by
  rw [loop_succ, if_neg hz]

theorem loop_fst_stop {n : Nat} {ts : TripleStore} (hz : (applyRules ts).2 = 0) :
    (loop (n + 1) ts).1 = (applyRules ts).1 := by
  rw [loop_succ_stop hz]

theorem loop_snd_stop {n : Nat} {ts : TripleStore} (hz : (applyRules ts).2 = 0) :
    (loop (n + 1) ts).2 = 0 := by
  rw [loop_succ_stop hz]

theorem loop_fst_go {n : Nat} {ts : TripleStore} (hz : ¬ (applyRules ts).2 = 0) :
    (loop (n + 1) ts).1 = (loop n (applyRules ts).1).1 := by
  rw [loop_succ_go hz]

theorem loop_snd_go {n : Nat} {ts : TripleStore} (hz : ¬ (applyRules ts).2 = 0) :
    (loop (n + 1) ts).2 = (applyRules ts).2 + (loop n (applyRules ts).1).2 := by
  rw [loop_succ_go hz]

theorem loop_zero (ts : TripleStore) : loop 0 ts = (ts, 0) := rfl

theorem loop_wf : ∀ (fuel : Nat) (ts : TripleStore), ts.WF → (loop fuel ts).1.WF := by
  intro fuel
  induction fuel with
  | zero => intro ts h; exact h
  | succ n ih =>
    intro ts h
    by_cases hz : (applyRules ts).2 = 0
    · rw [loop_fst_stop hz]
      exact applyRules_wf h
    · rw [loop_fst_go hz]
      exact ih _ (applyRules_wf h)

theorem loop_list : ∀ (fuel : Nat) (ts : TripleStore),
    ∃ ext, (loop fuel ts).1.tripleList = ts.tripleList ++ ext ∧
      (loop fuel ts).2 = ext.length := by
  intro fuel
  induction fuel with
  | zero =>
    intro ts
    refine ⟨[], ?_, ?_⟩
    · rw [loop_zero, List.append_nil]
    · rfl
  | succ n ih =>
    intro ts
    obtain ⟨e1, ha1, ha2⟩ := applyRules_list ts
    by_cases hz : (applyRules ts).2 = 0
    · rw [loop_fst_stop hz]
      refine ⟨e1, ha1, ?_⟩
      rw [loop_snd_stop hz]
      rw [hz] at ha2
      exact ha2
    · obtain ⟨e2, hb1, hb2⟩ := ih (applyRules ts).1
      refine ⟨e1 ++ e2, ?_, ?_⟩
      · rw [loop_fst_go hz, hb1, ha1, List.append_assoc]
      · rw [loop_snd_go hz, ha2, hb2, List.length_append]

/-- The loop's running total equals the growth of the store: the key size
identity behind claim C10. -/
theorem loop_size (fuel : Nat) (ts : TripleStore) :
    (loop fuel ts).1.Size = ts.Size + (loop fuel ts).2 := by
  obtain ⟨ext, h1, h2⟩ := loop_list fuel ts
  rw [TripleStore.Size, TripleStore.Size, h1, h2, List.length_append]

/-!  Membership characterizations of the rule outputs (on WF stores). -/

theorem transViaPredicate_mem {s : TripleStore} (hwf : s.WF) (pred : String) (c : Triple) :
    c ∈ transViaPredicate pred s ↔
      ∃ t1 ∈ s.tripleList, ∃ t2 ∈ s.tripleList,
        t1.Predicate = pred ∧ t2.Subject = t1.Object ∧ t2.Predicate = pred ∧
        s.Contains ⟨t1.Subject, pred, t2.Object⟩ = false ∧ t1.Subject ≠ t2.Object ∧
        c = ⟨t1.Subject, pred, t2.Object⟩ := by
  unfold transViaPredicate
  rw [hwf.findByPredicate_eq]
  constructor
  · intro hc
    rcases List.mem_flatMap.mp hc with ⟨t1, ht1, hin⟩
    rcases List.mem_filter.mp ht1 with ⟨ht1mem, ht1pred⟩
    rw [hwf.findBySubjectPredicate_eq] at hin
    rcases List.mem_filterMap.mp hin with ⟨t2, ht2, heq⟩
    rcases List.mem_filter.mp ht2 with ⟨ht2mem, ht2cond⟩
    have ht2c := of_decide_eq_true ht2cond
    simp only at heq
    by_cases hcond : s.Contains ⟨t1.Subject, pred, t2.Object⟩ = false ∧
        t1.Subject ≠ t2.Object
    · rw [if_pos hcond] at heq
      exact ⟨t1, ht1mem, t2, ht2mem, of_decide_eq_true ht1pred, ht2c.1, ht2c.2,
        hcond.1, hcond.2, (Option.some.inj heq).symm⟩
    · rw [if_neg hcond] at heq
      exact absurd heq (by simp)
  · rintro ⟨t1, ht1, t2, ht2, hp1, hsub, hp2, hcont, hne, rfl⟩
    apply List.mem_flatMap.mpr
    refine ⟨t1, List.mem_filter.mpr ⟨ht1, by simp [hp1]⟩, ?_⟩
    rw [hwf.findBySubjectPredicate_eq]
    apply List.mem_filterMap.mpr
    refine ⟨t2, List.mem_filter.mpr ⟨ht2, by simp [hsub, hp2]⟩, ?_⟩
    simp only
    rw [if_pos ⟨hcont, hne⟩]

theorem symViaPredicate_mem {s : TripleStore} (hwf : s.WF) (pred : String) (c : Triple) :
    c ∈ symViaPredicate pred s ↔
      ∃ t ∈ s.tripleList, t.Predicate = pred ∧
        s.Contains ⟨t.Object, pred, t.Subject⟩ = false ∧
        c = ⟨t.Object, pred, t.Subject⟩ := by
  unfold symViaPredicate
  rw [hwf.findByPredicate_eq]
  constructor
  · intro hc
    rcases List.mem_filterMap.mp hc with ⟨t, ht, heq⟩
    rcases List.mem_filter.mp ht with ⟨htm, htp⟩
    simp only at heq
    by_cases hcont : s.Contains ⟨t.Object, pred, t.Subject⟩ = false
    · rw [if_pos hcont] at heq
      exact ⟨t, htm, of_decide_eq_true htp, hcont, (Option.some.inj heq).symm⟩
    · rw [if_neg hcont] at heq
      exact absurd heq (by simp)
  · rintro ⟨t, htm, htp, hcont, rfl⟩
    apply List.mem_filterMap.mpr
    refine ⟨t, List.mem_filter.mpr ⟨htm, by simp [htp]⟩, ?_⟩
    simp only
    rw [if_pos hcont]

theorem typeInheritance_mem {s : TripleStore} (hwf : s.WF) (c : Triple) :
    c ∈ TypeInheritance.Apply s ↔
      ∃ t ∈ s.tripleList, ∃ sc ∈ s.tripleList,
        t.Predicate = RDFType ∧ sc.Subject = t.Object ∧ sc.Predicate = RDFSSubClassOf ∧
        s.Contains ⟨t.Subject, RDFType, sc.Object⟩ = false ∧
        c = ⟨t.Subject, RDFType, sc.Object⟩ := by
  unfold TypeInheritance.Apply
  rw [hwf.findByPredicate_eq]
  constructor
  · intro hc
    rcases List.mem_flatMap.mp hc with ⟨t, ht, hin⟩
    rcases List.mem_filter.mp ht with ⟨htm, htp⟩
    rw [hwf.findBySubjectPredicate_eq] at hin
    rcases List.mem_filterMap.mp hin with ⟨sc, hsc, heq⟩
    rcases List.mem_filter.mp hsc with ⟨hscm, hsccond⟩
    have hscc := of_decide_eq_true hsccond
    simp only at heq
    by_cases hcont : s.Contains ⟨t.Subject, RDFType, sc.Object⟩ = false
    · rw [if_pos hcont] at heq
      exact ⟨t, htm, sc, hscm, of_decide_eq_true htp, hscc.1, hscc.2, hcont,
        (Option.some.inj heq).symm⟩
    · rw [if_neg hcont] at heq
      exact absurd heq (by simp)
  · rintro ⟨t, htm, sc, hscm, htp, hsub, hsp, hcont, rfl⟩
    apply List.mem_flatMap.mpr
    refine ⟨t, List.mem_filter.mpr ⟨htm, by simp [htp]⟩, ?_⟩
    rw [hwf.findBySubjectPredicate_eq]
    apply List.mem_filterMap.mpr
    refine ⟨sc, List.mem_filter.mpr ⟨hscm, by simp [hsub, hsp]⟩, ?_⟩
    simp only
    rw [if_pos hcont]

theorem domainInference_mem {s : TripleStore} (hwf : s.WF) (c : Triple) :
    c ∈ DomainInference.Apply s ↔
      ∃ dt ∈ s.tripleList, ∃ t ∈ s.tripleList,
        dt.Predicate = RDFSDomain ∧ t.Predicate = dt.Subject ∧
        s.Contains ⟨t.Subject, RDFType, dt.Object⟩ = false ∧
        c = ⟨t.Subject, RDFType, dt.Object⟩ := by
  unfold DomainInference.Apply
  rw [hwf.findByPredicate_eq]
  constructor
  · intro hc
    rcases List.mem_flatMap.mp hc with ⟨dt, hdt, hin⟩
    rcases List.mem_filter.mp hdt with ⟨hdtm, hdtp⟩
    rw [hwf.findByPredicate_eq] at hin
    rcases List.mem_filterMap.mp hin with ⟨t, ht, heq⟩
    rcases List.mem_filter.mp ht with ⟨htm, htp⟩
    simp only at heq
    by_cases hcont : s.Contains ⟨t.Subject, RDFType, dt.Object⟩ = false
    · rw [if_pos hcont] at heq
      exact ⟨dt, hdtm, t, htm, of_decide_eq_true hdtp, of_decide_eq_true htp,
        hcont, (Option.some.inj heq).symm⟩
    · rw [if_neg hcont] at heq
      exact absurd heq (by simp)
  · rintro ⟨dt, hdtm, t, htm, hdtp, htp, hcont, rfl⟩
    apply List.mem_flatMap.mpr
    refine ⟨dt, List.mem_filter.mpr ⟨hdtm, by simp [hdtp]⟩, ?_⟩
    rw [hwf.findByPredicate_eq]
    apply List.mem_filterMap.mpr
    refine ⟨t, List.mem_filter.mpr ⟨htm, by simp [htp]⟩, ?_⟩
    simp only
    rw [if_pos hcont]

theorem rangeInference_mem {s : TripleStore} (hwf : s.WF) (c : Triple) :
    c ∈ RangeInference.Apply s ↔
      ∃ rt ∈ s.tripleList, ∃ t ∈ s.tripleList,
        rt.Predicate = RDFSRange ∧ t.Predicate = rt.Subject ∧
        ¬(t.Object.data ≠ [] ∧ t.Object.data.headD ' ' = '"') ∧
        s.Contains ⟨t.Object, RDFType, rt.Object⟩ = false ∧
        c = ⟨t.Object, RDFType, rt.Object⟩ := by
  unfold RangeInference.Apply
  rw [hwf.findByPredicate_eq]
  constructor
  · intro hc
    rcases List.mem_flatMap.mp hc with ⟨rt, hrt, hin⟩
    rcases List.mem_filter.mp hrt with ⟨hrtm, hrtp⟩
    rw [hwf.findByPredicate_eq] at hin
    rcases List.mem_filterMap.mp hin with ⟨t, ht, heq⟩
    rcases List.mem_filter.mp ht with ⟨htm, htp⟩
    simp only at heq
    by_cases hlit : t.Object.data ≠ [] ∧ t.Object.data.headD ' ' = '"'
    · rw [if_pos hlit] at heq
      exact absurd heq (by simp)
    · rw [if_neg hlit] at heq
      by_cases hcont : s.Contains ⟨t.Object, RDFType, rt.Object⟩ = false
      · rw [if_pos hcont] at heq
        exact ⟨rt, hrtm, t, htm, of_decide_eq_true hrtp, of_decide_eq_true htp,
          hlit, hcont, (Option.some.inj heq).symm⟩
      · rw [if_neg hcont] at heq
        exact absurd heq (by simp)
  · rintro ⟨rt, hrtm, t, htm, hrtp, htp, hlit, hcont, rfl⟩
    apply List.mem_flatMap.mpr
    refine ⟨rt, List.mem_filter.mpr ⟨hrtm, by simp [hrtp]⟩, ?_⟩
    rw [hwf.findByPredicate_eq]
    apply List.mem_filterMap.mpr
    refine ⟨t, List.mem_filter.mpr ⟨htm, by simp [htp]⟩, ?_⟩
    simp only
    rw [if_neg hlit, if_pos hcont]

theorem subPropertyInheritance_mem {s : TripleStore} (hwf : s.WF) (c : Triple) :
    c ∈ SubPropertyInheritance.Apply s ↔
      ∃ sp ∈ s.tripleList, ∃ t ∈ s.tripleList,
        sp.Predicate = RDFSSubPropertyOf ∧ t.Predicate = sp.Subject ∧
        s.Contains ⟨t.Subject, sp.Object, t.Object⟩ = false ∧
        c = ⟨t.Subject, sp.Object, t.Object⟩ := by
  unfold SubPropertyInheritance.Apply
  rw [hwf.findByPredicate_eq]
  constructor
  · intro hc
    rcases List.mem_flatMap.mp hc with ⟨sp, hsp, hin⟩
    rcases List.mem_filter.mp hsp with ⟨hspm, hspp⟩
    rw [hwf.findByPredicate_eq] at hin
    rcases List.mem_filterMap.mp hin with ⟨t, ht, heq⟩
    rcases List.mem_filter.mp ht with ⟨htm, htp⟩
    simp only at heq
    by_cases hcont : s.Contains ⟨t.Subject, sp.Object, t.Object⟩ = false
    · rw [if_pos hcont] at heq
      exact ⟨sp, hspm, t, htm, of_decide_eq_true hspp, of_decide_eq_true htp,
        hcont, (Option.some.inj heq).symm⟩
    · rw [if_neg hcont] at heq
      exact absurd heq (by simp)
  · rintro ⟨sp, hspm, t, htm, hspp, htp, hcont, rfl⟩
    apply List.mem_flatMap.mpr
    refine ⟨sp, List.mem_filter.mpr ⟨hspm, by simp [hspp]⟩, ?_⟩
    rw [hwf.findByPredicate_eq]
    apply List.mem_filterMap.mpr
    refine ⟨t, List.mem_filter.mpr ⟨htm, by simp [htp]⟩, ?_⟩
    simp only
    rw [if_pos hcont]

theorem inversePropertyInference_mem {s : TripleStore} (hwf : s.WF) (c : Triple) :
    c ∈ InversePropertyInference.Apply s ↔
      ∃ inv ∈ s.tripleList, inv.Predicate = OWLInverseOf ∧
        ((∃ t ∈ s.tripleList, t.Predicate = inv.Subject ∧
            s.Contains ⟨t.Object, inv.Object, t.Subject⟩ = false ∧
            c = ⟨t.Object, inv.Object, t.Subject⟩) ∨
         (∃ t ∈ s.tripleList, t.Predicate = inv.Object ∧
            s.Contains ⟨t.Object, inv.Subject, t.Subject⟩ = false ∧
            c = ⟨t.Object, inv.Subject, t.Subject⟩)) := by
  unfold InversePropertyInference.Apply
  rw [hwf.findByPredicate_eq]
  constructor
  · intro hc
    rcases List.mem_flatMap.mp hc with ⟨inv, hinv, hin⟩
    rcases List.mem_filter.mp hinv with ⟨hinvm, hinvp⟩
    rcases List.mem_append.mp hin with hin | hin
    · rw [hwf.findByPredicate_eq] at hin
      rcases List.mem_filterMap.mp hin with ⟨t, ht, heq⟩
      rcases List.mem_filter.mp ht with ⟨htm, htp⟩
      simp only at heq
      by_cases hcont : s.Contains ⟨t.Object, inv.Object, t.Subject⟩ = false
      · rw [if_pos hcont] at heq
        exact ⟨inv, hinvm, of_decide_eq_true hinvp,
          Or.inl ⟨t, htm, of_decide_eq_true htp, hcont, (Option.some.inj heq).symm⟩⟩
      · rw [if_neg hcont] at heq
        exact absurd heq (by simp)
    · rw [hwf.findByPredicate_eq] at hin
      rcases List.mem_filterMap.mp hin with ⟨t, ht, heq⟩
      rcases List.mem_filter.mp ht with ⟨htm, htp⟩
      simp only at heq
      by_cases hcont : s.Contains ⟨t.Object, inv.Subject, t.Subject⟩ = false
      · rw [if_pos hcont] at heq
        exact ⟨inv, hinvm, of_decide_eq_true hinvp,
          Or.inr ⟨t, htm, of_decide_eq_true htp, hcont, (Option.some.inj heq).symm⟩⟩
      · rw [if_neg hcont] at heq
        exact absurd heq (by simp)
  · rintro ⟨inv, hinvm, hinvp, hcase⟩
    apply List.mem_flatMap.mpr
    refine ⟨inv, List.mem_filter.mpr ⟨hinvm, by simp [hinvp]⟩, ?_⟩
    rcases hcase with ⟨t, htm, htp, hcont, rfl⟩ | ⟨t, htm, htp, hcont, rfl⟩
    · apply List.mem_append.mpr
      left
      rw [hwf.findByPredicate_eq]
      apply List.mem_filterMap.mpr
      refine ⟨t, List.mem_filter.mpr ⟨htm, by simp [htp]⟩, ?_⟩
      simp only
      rw [if_pos hcont]
    · apply List.mem_append.mpr
      right
      rw [hwf.findByPredicate_eq]
      apply List.mem_filterMap.mpr
      refine ⟨t, List.mem_filter.mpr ⟨htm, by simp [htp]⟩, ?_⟩
      simp only
      rw [if_pos hcont]

theorem transitivePropertyInference_mem {s : TripleStore} (hwf : s.WF) (c : Triple) :
    c ∈ TransitivePropertyInference.Apply s ↔
      ∃ tp ∈ s.tripleList, tp.Predicate = RDFType ∧ tp.Object = OWLTransitiveProperty ∧
        ∃ t1 ∈ s.tripleList, ∃ t2 ∈ s.tripleList,
          t1.Predicate = tp.Subject ∧ t2.Subject = t1.Object ∧ t2.Predicate = tp.Subject ∧
          s.Contains ⟨t1.Subject, tp.Subject, t2.Object⟩ = false ∧
          t1.Subject ≠ t2.Object ∧
          c = ⟨t1.Subject, tp.Subject, t2.Object⟩ := by
  unfold TransitivePropertyInference.Apply
  constructor
  · intro hc
    rcases List.mem_flatMap.mp hc with ⟨prop, hprop, hin⟩
    rw [List.mem_dedup] at hprop
    rcases List.mem_map.mp hprop with ⟨tp, htp, rfl⟩
    rw [hwf.findByPredicateObject_eq] at htp
    rcases List.mem_filter.mp htp with ⟨htpm, htpc⟩
    have htpc' := of_decide_eq_true htpc
    rcases (transViaPredicate_mem hwf tp.Subject c).mp hin with
      ⟨t1, h1, t2, h2, hq1, hq2, hq3, hcont, hne, hceq⟩
    exact ⟨tp, htpm, htpc'.1, htpc'.2, t1, h1, t2, h2, hq1, hq2, hq3, hcont, hne, hceq⟩
  · rintro ⟨tp, htpm, hp, ho, t1, h1, t2, h2, hq1, hq2, hq3, hcont, hne, rfl⟩
    apply List.mem_flatMap.mpr
    refine ⟨tp.Subject, ?_, ?_⟩
    · rw [List.mem_dedup]
      apply List.mem_map.mpr
      refine ⟨tp, ?_, rfl⟩
      rw [hwf.findByPredicateObject_eq]
      exact List.mem_filter.mpr ⟨htpm, by simp [hp, ho]⟩
    · exact (transViaPredicate_mem hwf tp.Subject _).mpr
        ⟨t1, h1, t2, h2, hq1, hq2, hq3, hcont, hne, rfl⟩

theorem symmetricPropertyInference_mem {s : TripleStore} (hwf : s.WF) (c : Triple) :
    c ∈ SymmetricPropertyInference.Apply s ↔
      ∃ tp ∈ s.tripleList, tp.Predicate = RDFType ∧ tp.Object = OWLSymmetricProperty ∧
        ∃ t ∈ s.tripleList, t.Predicate = tp.Subject ∧
          s.Contains ⟨t.Object, tp.Subject, t.Subject⟩ = false ∧
          c = ⟨t.Object, tp.Subject, t.Subject⟩ := by
  unfold SymmetricPropertyInference.Apply
  constructor
  · intro hc
    rcases List.mem_flatMap.mp hc with ⟨prop, hprop, hin⟩
    rw [List.mem_dedup] at hprop
    rcases List.mem_map.mp hprop with ⟨tp, htp, rfl⟩
    rw [hwf.findByPredicateObject_eq] at htp
    rcases List.mem_filter.mp htp with ⟨htpm, htpc⟩
    have htpc' := of_decide_eq_true htpc
    rcases (symViaPredicate_mem hwf tp.Subject c).mp hin with ⟨t, htm, hq, hcont, hceq⟩
    exact ⟨tp, htpm, htpc'.1, htpc'.2, t, htm, hq, hcont, hceq⟩
  · rintro ⟨tp, htpm, hp, ho, t, htm, hq, hcont, rfl⟩
    apply List.mem_flatMap.mpr
    refine ⟨tp.Subject, ?_, ?_⟩
    · rw [List.mem_dedup]
      apply List.mem_map.mpr
      refine ⟨tp, ?_, rfl⟩
      rw [hwf.findByPredicateObject_eq]
      exact List.mem_filter.mpr ⟨htpm, by simp [hp, ho]⟩
    · exact (symViaPredicate_mem hwf tp.Subject _).mpr ⟨t, htm, hq, hcont, rfl⟩

/-- Closure of a set of triples under the 13 Horn rules of the rule
catalogue (spec §4.4), with the reflexivity suppressions and the literal
exclusion exactly as the catalogue states them.  Rule 11 (inverseOf)
contributes its two directions as two fields. -/
structure ClosedUnderRules (S : Triple → Prop) : Prop where
  subClassTrans : ∀ a b c, S ⟨a, RDFSSubClassOf, b⟩ → S ⟨b, RDFSSubClassOf, c⟩ →
    a ≠ c → S ⟨a, RDFSSubClassOf, c⟩
  typeInherit : ∀ x a b, S ⟨x, RDFType, a⟩ → S ⟨a, RDFSSubClassOf, b⟩ → S ⟨x, RDFType, b⟩
  domainInf : ∀ p c x y, S ⟨p, RDFSDomain, c⟩ → S ⟨x, p, y⟩ → S ⟨x, RDFType, c⟩
  rangeInf : ∀ p c x y, S ⟨p, RDFSRange, c⟩ → S ⟨x, p, y⟩ →
    ¬(y.data ≠ [] ∧ y.data.headD ' ' = '"') → S ⟨y, RDFType, c⟩
  subPropTrans : ∀ p1 p2 p3, S ⟨p1, RDFSSubPropertyOf, p2⟩ → S ⟨p2, RDFSSubPropertyOf, p3⟩ →
    p1 ≠ p3 → S ⟨p1, RDFSSubPropertyOf, p3⟩
  subPropInherit : ∀ p1 p2 x y, S ⟨p1, RDFSSubPropertyOf, p2⟩ → S ⟨x, p1, y⟩ → S ⟨x, p2, y⟩
  eqClassSym : ∀ a b, S ⟨a, OWLEquivalentClass, b⟩ → S ⟨b, OWLEquivalentClass, a⟩
  eqClassTrans : ∀ a b c, S ⟨a, OWLEquivalentClass, b⟩ → S ⟨b, OWLEquivalentClass, c⟩ →
    a ≠ c → S ⟨a, OWLEquivalentClass, c⟩
  sameAsSym : ∀ a b, S ⟨a, OWLSameAs, b⟩ → S ⟨b, OWLSameAs, a⟩
  sameAsTrans : ∀ a b c, S ⟨a, OWLSameAs, b⟩ → S ⟨b, OWLSameAs, c⟩ →
    a ≠ c → S ⟨a, OWLSameAs, c⟩
  inverseOf : ∀ p1 p2 x y, S ⟨p1, OWLInverseOf, p2⟩ → S ⟨x, p1, y⟩ → S ⟨y, p2, x⟩
  inverseOf2 : ∀ p1 p2 x y, S ⟨p1, OWLInverseOf, p2⟩ → S ⟨x, p2, y⟩ → S ⟨y, p1, x⟩
  transProp : ∀ p x y z, S ⟨p, RDFType, OWLTransitiveProperty⟩ → S ⟨x, p, y⟩ →
    S ⟨y, p, z⟩ → x ≠ z → S ⟨x, p, z⟩
  symProp : ∀ p x y, S ⟨p, RDFType, OWLSymmetricProperty⟩ → S ⟨x, p, y⟩ → S ⟨y, p, x⟩

/-- `S` is the least model: the smallest superset of `I` closed under the
13 rules of the catalogue. -/
def LeastModelSpec (I : List Triple) (S : Triple → Prop) : Prop :=
  (∀ t ∈ I, S t) ∧ ClosedUnderRules S ∧
    (∀ T : Triple → Prop, (∀ t ∈ I, T t) → ClosedUnderRules T → ∀ t, S t → T t)

/-- Any output of any default rule on a WF store all of whose triples lie in
a rule-closed set `T` lies in `T` as well. -/
theorem defaultRules_preserve (T : Triple → Prop) (hT : ClosedUnderRules T) :
    ∀ rule ∈ DefaultRules, ∀ s : TripleStore, s.WF →
      (∀ u ∈ s.tripleList, T u) → ∀ u ∈ rule s, T u := by
  intro rule hrule s hwf hS u hu
  simp only [DefaultRules, List.mem_cons, List.not_mem_nil, or_false] at hrule
  rcases hrule with rfl | rfl | rfl | rfl | rfl | rfl | rfl | rfl | rfl | rfl | rfl | rfl | rfl
  · unfold SubClassTransitivity.Apply at hu
    rcases (transViaPredicate_mem hwf _ u).mp hu with
      ⟨t1, h1, t2, h2, hp1, hsub, hp2, _, hne, rfl⟩
    have ht1 : T ⟨t1.Subject, RDFSSubClassOf, t1.Object⟩ := by
      rw [← hp1]; exact hS t1 h1
    have ht2 : T ⟨t1.Object, RDFSSubClassOf, t2.Object⟩ := by
      rw [← hsub, ← hp2]; exact hS t2 h2
    exact hT.subClassTrans t1.Subject t1.Object t2.Object ht1 ht2 hne
  · rcases (typeInheritance_mem hwf u).mp hu with
      ⟨t, htm, sc, hscm, htp, hsub, hsp, _, rfl⟩
    have h1 : T ⟨t.Subject, RDFType, t.Object⟩ := by
      rw [← htp]; exact hS t htm
    have h2 : T ⟨t.Object, RDFSSubClassOf, sc.Object⟩ := by
      rw [← hsub, ← hsp]; exact hS sc hscm
    exact hT.typeInherit t.Subject t.Object sc.Object h1 h2
  · rcases (domainInference_mem hwf u).mp hu with
      ⟨dt, hdtm, t, htm, hdtp, htp, _, rfl⟩
    have h1 : T ⟨dt.Subject, RDFSDomain, dt.Object⟩ := by
      rw [← hdtp]; exact hS dt hdtm
    have h2 : T ⟨t.Subject, dt.Subject, t.Object⟩ := by
      rw [← htp]; exact hS t htm
    exact hT.domainInf dt.Subject dt.Object t.Subject t.Object h1 h2
  · rcases (rangeInference_mem hwf u).mp hu with
      ⟨rt, hrtm, t, htm, hrtp, htp, hlit, _, rfl⟩
    have h1 : T ⟨rt.Subject, RDFSRange, rt.Object⟩ := by
      rw [← hrtp]; exact hS rt hrtm
    have h2 : T ⟨t.Subject, rt.Subject, t.Object⟩ := by
      rw [← htp]; exact hS t htm
    exact hT.rangeInf rt.Subject rt.Object t.Subject t.Object h1 h2 hlit
  · unfold SubPropertyTransitivity.Apply at hu
    rcases (transViaPredicate_mem hwf _ u).mp hu with
      ⟨t1, h1, t2, h2, hp1, hsub, hp2, _, hne, rfl⟩
    have ht1 : T ⟨t1.Subject, RDFSSubPropertyOf, t1.Object⟩ := by
      rw [← hp1]; exact hS t1 h1
    have ht2 : T ⟨t1.Object, RDFSSubPropertyOf, t2.Object⟩ := by
      rw [← hsub, ← hp2]; exact hS t2 h2
    exact hT.subPropTrans t1.Subject t1.Object t2.Object ht1 ht2 hne
  · rcases (subPropertyInheritance_mem hwf u).mp hu with
      ⟨sp, hspm, t, htm, hspp, htp, _, rfl⟩
    have h1 : T ⟨sp.Subject, RDFSSubPropertyOf, sp.Object⟩ := by
      rw [← hspp]; exact hS sp hspm
    have h2 : T ⟨t.Subject, sp.Subject, t.Object⟩ := by
      rw [← htp]; exact hS t htm
    exact hT.subPropInherit sp.Subject sp.Object t.Subject t.Object h1 h2
  · unfold EquivalentClassSymmetry.Apply at hu
    rcases (symViaPredicate_mem hwf _ u).mp hu with ⟨t, htm, htp, _, rfl⟩
    have h1 : T ⟨t.Subject, OWLEquivalentClass, t.Object⟩ := by
      rw [← htp]; exact hS t htm
    exact hT.eqClassSym t.Subject t.Object h1
  · unfold EquivalentClassTransitivity.Apply at hu
    rcases (transViaPredicate_mem hwf _ u).mp hu with
      ⟨t1, h1, t2, h2, hp1, hsub, hp2, _, hne, rfl⟩
    have ht1 : T ⟨t1.Subject, OWLEquivalentClass, t1.Object⟩ := by
      rw [← hp1]; exact hS t1 h1
    have ht2 : T ⟨t1.Object, OWLEquivalentClass, t2.Object⟩ := by
      rw [← hsub, ← hp2]; exact hS t2 h2
    exact hT.eqClassTrans t1.Subject t1.Object t2.Object ht1 ht2 hne
  · unfold SameAsSymmetry.Apply at hu
    rcases (symViaPredicate_mem hwf _ u).mp hu with ⟨t, htm, htp, _, rfl⟩
    have h1 : T ⟨t.Subject, OWLSameAs, t.Object⟩ := by
      rw [← htp]; exact hS t htm
    exact hT.sameAsSym t.Subject t.Object h1
  · unfold SameAsTransitivity.Apply at hu
    rcases (transViaPredicate_mem hwf _ u).mp hu with
      ⟨t1, h1, t2, h2, hp1, hsub, hp2, _, hne, rfl⟩
    have ht1 : T ⟨t1.Subject, OWLSameAs, t1.Object⟩ := by
      rw [← hp1]; exact hS t1 h1
    have ht2 : T ⟨t1.Object, OWLSameAs, t2.Object⟩ := by
      rw [← hsub, ← hp2]; exact hS t2 h2
    exact hT.sameAsTrans t1.Subject t1.Object t2.Object ht1 ht2 hne
  · rcases (inversePropertyInference_mem hwf u).mp hu with ⟨inv, hinvm, hinvp, hcase⟩
    have h1 : T ⟨inv.Subject, OWLInverseOf, inv.Object⟩ := by
      rw [← hinvp]; exact hS inv hinvm
    rcases hcase with ⟨t, htm, htp, _, rfl⟩ | ⟨t, htm, htp, _, rfl⟩
    · have h2 : T ⟨t.Subject, inv.Subject, t.Object⟩ := by
        rw [← htp]; exact hS t htm
      exact hT.inverseOf inv.Subject inv.Object t.Subject t.Object h1 h2
    · have h2 : T ⟨t.Subject, inv.Object, t.Object⟩ := by
        rw [← htp]; exact hS t htm
      exact hT.inverseOf2 inv.Subject inv.Object t.Subject t.Object h1 h2
  · rcases (transitivePropertyInference_mem hwf u).mp hu with
      ⟨tp, htpm, hp, ho, t1, h1, t2, h2, hq1, hq2, hq3, _, hne, rfl⟩
    have h0 : T ⟨tp.Subject, RDFType, OWLTransitiveProperty⟩ := by
      rw [← hp, ← ho]; exact hS tp htpm
    have ht1 : T ⟨t1.Subject, tp.Subject, t1.Object⟩ := by
      rw [← hq1]; exact hS t1 h1
    have ht2 : T ⟨t1.Object, tp.Subject, t2.Object⟩ := by
      rw [← hq2, ← hq3]; exact hS t2 h2
    exact hT.transProp tp.Subject t1.Subject t1.Object t2.Object h0 ht1 ht2 hne
  · rcases (symmetricPropertyInference_mem hwf u).mp hu with
      ⟨tp, htpm, hp, ho, t, htm, hq, _, rfl⟩
    have h0 : T ⟨tp.Subject, RDFType, OWLSymmetricProperty⟩ := by
      rw [← hp, ← ho]; exact hS tp htpm
    have h1 : T ⟨t.Subject, tp.Subject, t.Object⟩ := by
      rw [← hq]; exact hS t htm
    exact hT.symProp tp.Subject t.Subject t.Object h0 h1

/-- Pipe-freeness is preserved by every rule of the catalogue (every
conclusion component is a premise component or a pipe-free constant IRI). -/
theorem closedUnderRules_pipeFree : ClosedUnderRules PipeFree := by
  have hty : '|' ∉ RDFType.data := by decide
  constructor
  · intro a b c h1 h2 _
    exact ⟨h1.1, h1.2.1, h2.2.2⟩
  · intro x a b h1 h2
    exact ⟨h1.1, h1.2.1, h2.2.2⟩
  · intro p c x y h1 h2
    exact ⟨h2.1, hty, h1.2.2⟩
  · intro p c x y h1 h2 _
    exact ⟨h2.2.2, hty, h1.2.2⟩
  · intro p1 p2 p3 h1 h2 _
    exact ⟨h1.1, h1.2.1, h2.2.2⟩
  · intro p1 p2 x y h1 h2
    exact ⟨h2.1, h1.2.2, h2.2.2⟩
  · intro a b h1
    exact ⟨h1.2.2, h1.2.1, h1.1⟩
  · intro a b c h1 h2 _
    exact ⟨h1.1, h1.2.1, h2.2.2⟩
  · intro a b h1
    exact ⟨h1.2.2, h1.2.1, h1.1⟩
  · intro a b c h1 h2 _
    exact ⟨h1.1, h1.2.1, h2.2.2⟩
  · intro p1 p2 x y h1 h2
    exact ⟨h2.2.2, h1.2.2, h2.1⟩
  · intro p1 p2 x y h1 h2
    exact ⟨h2.2.2, h1.1, h2.1⟩
  · intro p x y z h0 h1 h2 _
    exact ⟨h1.1, h1.2.1, h2.2.2⟩
  · intro p x y h0 h1
    exact ⟨h1.2.2, h1.2.1, h1.1⟩

/-- All three components lie in the term universe `U`. -/
def TermsIn (U : List String) (t : Triple) : Prop :=
  t.Subject ∈ U ∧ t.Predicate ∈ U ∧ t.Object ∈ U

/-- Every rule keeps all terms inside a universe containing `rdf:type`
(the only constant a conclusion can introduce that no premise carries). -/
theorem closedUnderRules_termsIn (U : List String) (hU : RDFType ∈ U) :
    ClosedUnderRules (TermsIn U) := by
  constructor
  · intro a b c h1 h2 _
    exact ⟨h1.1, h1.2.1, h2.2.2⟩
  · intro x a b h1 h2
    exact ⟨h1.1, h1.2.1, h2.2.2⟩
  · intro p c x y h1 h2
    exact ⟨h2.1, hU, h1.2.2⟩
  · intro p c x y h1 h2 _
    exact ⟨h2.2.2, hU, h1.2.2⟩
  · intro p1 p2 p3 h1 h2 _
    exact ⟨h1.1, h1.2.1, h2.2.2⟩
  · intro p1 p2 x y h1 h2
    exact ⟨h2.1, h1.2.2, h2.2.2⟩
  · intro a b h1
    exact ⟨h1.2.2, h1.2.1, h1.1⟩
  · intro a b c h1 h2 _
    exact ⟨h1.1, h1.2.1, h2.2.2⟩
  · intro a b h1
    exact ⟨h1.2.2, h1.2.1, h1.1⟩
  · intro a b c h1 h2 _
    exact ⟨h1.1, h1.2.1, h2.2.2⟩
  · intro p1 p2 x y h1 h2
    exact ⟨h2.2.2, h1.2.2, h2.1⟩
  · intro p1 p2 x y h1 h2
    exact ⟨h2.2.2, h1.1, h2.1⟩
  · intro p x y z h0 h1 h2 _
    exact ⟨h1.1, h1.2.1, h2.2.2⟩
  · intro p x y h0 h1
    exact ⟨h1.2.2, h1.2.1, h1.1⟩

theorem applyRules_inv (T : Triple → Prop) (hT : ClosedUnderRules T) {ts : TripleStore}
    (hwf : ts.WF) (hS : ∀ u ∈ ts.tripleList, T u) :
    ∀ u ∈ (applyRules ts).1.tripleList, T u :=
  applyRulesAux_inv T DefaultRules (defaultRules_preserve T hT) ts hwf hS

theorem loop_inv (T : Triple → Prop) (hT : ClosedUnderRules T) :
    ∀ (fuel : Nat) {ts : TripleStore}, ts.WF → (∀ u ∈ ts.tripleList, T u) →
      ∀ u ∈ (loop fuel ts).1.tripleList, T u := by
  intro fuel
  induction fuel with
  | zero => intro ts _ hS; exact hS
  | succ n ih =>
    intro ts hwf hS
    by_cases hz : (applyRules ts).2 = 0
    · rw [loop_fst_stop hz]
      exact applyRules_inv T hT hwf hS
    · rw [loop_fst_go hz]
      exact ih (applyRules_wf hwf) (applyRules_inv T hT hwf hS)

/-!  The unproductive round leaves the store untouched, and at such a round
every rule proposal's key is already present. -/

theorem Add_snd_false {ts : TripleStore} {t : Triple} (h : (ts.Add t).2 = false) :
    tripleKey t ∈ ts.triples ∧ (ts.Add t).1 = ts := by
  by_cases hm : tripleKey t ∈ ts.triples
  · exact ⟨hm, by rw [Add_of_mem hm]⟩
  · exact absurd (Add_of_not_mem hm).1 (by simp [h])

theorem addAll_zero : ∀ (l : List Triple) (ts : TripleStore), (addAll ts l).2 = 0 →
    (addAll ts l).1 = ts ∧ ∀ u ∈ l, tripleKey u ∈ ts.triples := by
  intro l
  induction l with
  | nil =>
    intro ts _
    exact ⟨rfl, by simp⟩
  | cons t rest ih =>
    intro ts h
    have h' : (if (ts.Add t).2 then 1 else 0) + (addAll (ts.Add t).1 rest).2 = 0 := h
    have hb : (ts.Add t).2 = false := by
      cases hbb : (ts.Add t).2
      · rfl
      · rw [if_pos hbb] at h'
        omega
    have hrest : (addAll (ts.Add t).1 rest).2 = 0 := by
      rw [if_neg (by simp [hb])] at h'
      omega
    obtain ⟨hkey, heq⟩ := Add_snd_false hb
    obtain ⟨h1, h2⟩ := ih (ts.Add t).1 hrest
    constructor
    · show (addAll (ts.Add t).1 rest).1 = ts
      rw [h1, heq]
    · intro u hu
      rcases List.mem_cons.mp hu with rfl | hu
      · exact hkey
      · have := h2 u hu
        rwa [heq] at this

theorem applyRulesAux_zero : ∀ (rules : List (TripleStore → List Triple)) (ts : TripleStore),
    (applyRulesAux ts rules).2 = 0 →
    (applyRulesAux ts rules).1 = ts ∧
      ∀ rule ∈ rules, ∀ u ∈ rule ts, tripleKey u ∈ ts.triples := by
  intro rules
  induction rules with
  | nil =>
    intro ts _
    exact ⟨rfl, by simp⟩
  | cons rule rest ih =>
    intro ts h
    have h' : (addAll ts (rule ts)).2 + (applyRulesAux (addAll ts (rule ts)).1 rest).2 = 0 := h
    have ha : (addAll ts (rule ts)).2 = 0 := by omega
    have hb : (applyRulesAux (addAll ts (rule ts)).1 rest).2 = 0 := by omega
    obtain ⟨haeq, hakeys⟩ := addAll_zero (rule ts) ts ha
    rw [haeq] at hb
    obtain ⟨h1, h2⟩ := ih ts hb
    constructor
    · show (applyRulesAux (addAll ts (rule ts)).1 rest).1 = ts
      rw [haeq, h1]
    · intro r hr u hu
      rcases List.mem_cons.mp hr with rfl | hr
      · exact hakeys u hu
      · exact h2 r hr u hu

theorem applyRules_zero_store {ts : TripleStore} (h : (applyRules ts).2 = 0) :
    (applyRules ts).1 = ts :=
  (applyRulesAux_zero DefaultRules ts h).1

theorem applyRules_zero_keys {ts : TripleStore} (h : (applyRules ts).2 = 0) :
    ∀ rule ∈ DefaultRules, ∀ u ∈ rule ts, tripleKey u ∈ ts.triples :=
  (applyRulesAux_zero DefaultRules ts h).2

/-!  Loading and its basic properties. -/

theorem loadTriples_eq_addAll : ∀ (l : List Triple) (ts : TripleStore),
    loadTriples ts l = (addAll ts l).1 := by
  intro l
  induction l with
  | nil => intro ts; rfl
  | cons t rest ih =>
    intro ts
    show loadTriples (ts.Add t).1 rest = _
    exact ih (ts.Add t).1

theorem loadTriples_wf {ts : TripleStore} (h : ts.WF) (l : List Triple) :
    (loadTriples ts l).WF := by
  rw [loadTriples_eq_addAll]
  exact addAll_wf l ts h

theorem loadTriples_list (l : List Triple) (ts : TripleStore) :
    ∃ ext, (loadTriples ts l).tripleList = ts.tripleList ++ ext ∧ ∀ u ∈ ext, u ∈ l := by
  rw [loadTriples_eq_addAll]
  obtain ⟨ext, h1, _, h3⟩ := addAll_list l ts
  exact ⟨ext, h1, h3⟩

theorem loadTriples_mem_of : ∀ (l : List Triple) (ts : TripleStore), ts.WF →
    (∀ v ∈ ts.tripleList, PipeFree v) → (∀ v ∈ l, PipeFree v) →
    ∀ t ∈ l, t ∈ (loadTriples ts l).tripleList := by
  intro l
  induction l with
  | nil =>
    intro ts _ _ _ t ht
    exact absurd ht (List.not_mem_nil t)
  | cons u rest ih =>
    intro ts hwf hpfs hpfl t ht
    have hpfu : PipeFree u := hpfl u (List.mem_cons_self u rest)
    have hwf' := Add_wf hwf u
    have hlist' : u ∈ (ts.Add u).1.tripleList ∧
        ∀ v ∈ (ts.Add u).1.tripleList, PipeFree v := by
      by_cases hm : tripleKey u ∈ ts.triples
      · have heq : (ts.Add u).1 = ts := by rw [Add_of_mem hm]
        rw [heq]
        refine ⟨?_, hpfs⟩
        rcases (hwf.keys _).mp hm with ⟨v, hv, hkv⟩
        rwa [← tripleKey_inj (hpfs v hv) hpfu hkv]
      · obtain ⟨_, hl, _⟩ := Add_of_not_mem hm
        rw [hl]
        constructor
        · exact List.mem_append_right _ (List.mem_singleton_self u)
        · intro v hv
          rcases List.mem_append.mp hv with hv | hv
          · exact hpfs v hv
          · rw [List.mem_singleton.mp hv]
            exact hpfu
    rcases List.mem_cons.mp ht with rfl | ht
    · show t ∈ (loadTriples (ts.Add t).1 rest).tripleList
      obtain ⟨ext, he, _⟩ := loadTriples_list rest (ts.Add t).1
      rw [he]
      exact List.mem_append_left _ hlist'.1
    · show t ∈ (loadTriples (ts.Add u).1 rest).tripleList
      exact ih (ts.Add u).1 hwf' hlist'.2
        (fun v hv => hpfl v (List.mem_cons_of_mem _ hv)) t ht

theorem storeTerms_mem {ts : TripleStore} {t : Triple} (h : t ∈ ts.tripleList) :
    t.Subject ∈ storeTerms ts ∧ t.Predicate ∈ storeTerms ts ∧ t.Object ∈ storeTerms ts := by
  refine ⟨?_, ?_, ?_⟩ <;> exact List.mem_flatMap.mpr ⟨t, h, by simp⟩

/-!  Size bound: a WF store over a finite term universe is finite. -/

/-- All triples over a term universe. -/
def allTriplesOver (u : List String) : List Triple :=
  u.flatMap (fun a => u.flatMap (fun b => u.map (fun c => ⟨a, b, c⟩)))

theorem mem_allTriplesOver {u : List String} {t : Triple} :
    t ∈ allTriplesOver u ↔ t.Subject ∈ u ∧ t.Predicate ∈ u ∧ t.Object ∈ u := by
  constructor
  · intro h
    rcases List.mem_flatMap.mp h with ⟨a, ha, h⟩
    rcases List.mem_flatMap.mp h with ⟨b, hb, h⟩
    rcases List.mem_map.mp h with ⟨c, hc, rfl⟩
    exact ⟨ha, hb, hc⟩
  · rintro ⟨h1, h2, h3⟩
    exact List.mem_flatMap.mpr ⟨t.Subject, h1,
      List.mem_flatMap.mpr ⟨t.Predicate, h2, List.mem_map.mpr ⟨t.Object, h3, rfl⟩⟩⟩

theorem sum_map_const {α : Type} (l : List α) (c : Nat) :
    (l.map (fun _ => c)).sum = l.length * c := by
  induction l with
  | nil => simp
  | cons a tl ih =>
    simp only [List.map_cons, List.sum_cons, ih, List.length_cons]
    ring

theorem length_allTriplesOver (u : List String) :
    (allTriplesOver u).length = u.length * (u.length * u.length) := by
  unfold allTriplesOver
  rw [List.length_flatMap]
  have hinner : ∀ a : String,
      (u.flatMap (fun b => u.map (fun c => (⟨a, b, c⟩ : Triple)))).length
        = u.length * u.length := by
    intro a
    rw [List.length_flatMap]
    simp only [Function.comp_def]
    have : (List.map (fun b => (List.map (fun c => (⟨a, b, c⟩ : Triple)) u).length) u)
        = u.map (fun _ => u.length) := by
      apply List.map_congr_left
      intro b _
      rw [List.length_map]
    rw [this, sum_map_const]
  simp only [Function.comp_def]
  have : (List.map (fun a =>
      (u.flatMap (fun b => u.map (fun c => (⟨a, b, c⟩ : Triple)))).length) u)
      = u.map (fun _ => u.length * u.length) := by
    apply List.map_congr_left
    intro a _
    rw [hinner]
  rw [this, sum_map_const]

theorem size_bound {U : List String} {ts : TripleStore} (hwf : ts.WF)
    (hterms : ∀ u ∈ ts.tripleList, TermsIn U u) :
    ts.Size ≤ (U.dedup.length) ^ 3 := by
  have hnodup : ts.tripleList.Nodup := List.Nodup.of_map tripleKey hwf.nodupKeys
  have hsub' : ts.tripleList.toFinset ⊆ (allTriplesOver U.dedup).toFinset := by
    intro t ht
    rw [List.mem_toFinset] at ht ⊢
    rcases hterms t ht with ⟨h1, h2, h3⟩
    exact mem_allTriplesOver.mpr
      ⟨List.mem_dedup.mpr h1, List.mem_dedup.mpr h2, List.mem_dedup.mpr h3⟩
  have h1 : ts.tripleList.toFinset.card = ts.tripleList.length :=
    List.toFinset_card_of_nodup hnodup
  have h3 := Finset.card_le_card hsub'
  have h4 : (allTriplesOver U.dedup).toFinset.card ≤ (allTriplesOver U.dedup).length :=
    List.toFinset_card_le _
  have h5 := length_allTriplesOver U.dedup
  have hpow : (U.dedup.length) ^ 3 = U.dedup.length * (U.dedup.length * U.dedup.length) := by
    ring
  rw [TripleStore.Size, ← h1, hpow, ← h5]
  omega

/-- With enough fuel relative to the size bound, the loop reaches the store
at which one more round adds nothing. -/
theorem loop_fix (U : List String) (hU : RDFType ∈ U) :
    ∀ (fuel : Nat) (s : TripleStore), s.WF → (∀ u ∈ s.tripleList, TermsIn U u) →
      (U.dedup.length) ^ 3 < s.Size + fuel → (applyRules (loop fuel s).1).2 = 0 := by
  intro fuel
  induction fuel with
  | zero =>
    intro s hwf hterms hlt
    have := size_bound hwf hterms
    omega
  | succ n ih =>
    intro s hwf hterms hlt
    by_cases hz : (applyRules s).2 = 0
    · rw [loop_fst_stop hz, applyRules_zero_store hz]
      exact hz
    · rw [loop_fst_go hz]
      apply ih (applyRules s).1 (applyRules_wf hwf)
        (applyRules_inv (TermsIn U) (closedUnderRules_termsIn U hU) hwf hterms)
      obtain ⟨ext, h1, h2⟩ := applyRules_list s
      have hsz : (applyRules s).1.Size = s.Size + (applyRules s).2 := by
        rw [TripleStore.Size, TripleStore.Size, h1, h2, List.length_append]
      omega

theorem runForwardReasoning_def (ts : TripleStore) :
    RunForwardReasoning ts = loop (fuelBound ts) ts := rfl

theorem runForwardReasoning_wf {ts : TripleStore} (h : ts.WF) :
    (RunForwardReasoning ts).1.WF := by
  rw [runForwardReasoning_def]
  exact loop_wf _ _ h

/-- The fuel chosen by `RunForwardReasoning` suffices: after it returns, one
more round of all rules inserts nothing new. -/
theorem runForwardReasoning_fix {ts : TripleStore} (hwf : ts.WF) :
    (applyRules (RunForwardReasoning ts).1).2 = 0 := by
  rw [runForwardReasoning_def]
  apply loop_fix (storeTerms ts ++ [RDFType])
    (List.mem_append_right _ (List.mem_singleton_self _)) (fuelBound ts) ts hwf
  · intro u hu
    rcases storeTerms_mem hu with ⟨h1, h2, h3⟩
    exact ⟨List.mem_append_left _ h1, List.mem_append_left _ h2, List.mem_append_left _ h3⟩
  · rw [fuelBound]
    omega

theorem mem_dr_subClassTrans : SubClassTransitivity.Apply ∈ DefaultRules := by
  simp [DefaultRules]

theorem mem_dr_typeInherit : TypeInheritance.Apply ∈ DefaultRules := by
  simp [DefaultRules]

theorem mem_dr_domain : DomainInference.Apply ∈ DefaultRules := by
  simp [DefaultRules]

theorem mem_dr_range : RangeInference.Apply ∈ DefaultRules := by
  simp [DefaultRules]

theorem mem_dr_subPropTrans : SubPropertyTransitivity.Apply ∈ DefaultRules := by
  simp [DefaultRules]

theorem mem_dr_subPropInherit : SubPropertyInheritance.Apply ∈ DefaultRules := by
  simp [DefaultRules]

theorem mem_dr_eqClassSym : EquivalentClassSymmetry.Apply ∈ DefaultRules := by
  simp [DefaultRules]

theorem mem_dr_eqClassTrans : EquivalentClassTransitivity.Apply ∈ DefaultRules := by
  simp [DefaultRules]

theorem mem_dr_sameAsSym : SameAsSymmetry.Apply ∈ DefaultRules := by
  simp [DefaultRules]

theorem mem_dr_sameAsTrans : SameAsTransitivity.Apply ∈ DefaultRules := by
  simp [DefaultRules]

theorem mem_dr_inverse : InversePropertyInference.Apply ∈ DefaultRules := by
  simp [DefaultRules]

theorem mem_dr_transProp : TransitivePropertyInference.Apply ∈ DefaultRules := by
  simp [DefaultRules]

theorem mem_dr_symProp : SymmetricPropertyInference.Apply ∈ DefaultRules := by
  simp [DefaultRules]

theorem pipe_not_mem_RDFType : '|' ∉ RDFType.data := by decide

theorem pipe_not_mem_subClassOf : '|' ∉ RDFSSubClassOf.data := by decide

theorem pipe_not_mem_subPropertyOf : '|' ∉ RDFSSubPropertyOf.data := by decide

theorem pipe_not_mem_eqClass : '|' ∉ OWLEquivalentClass.data := by decide

theorem pipe_not_mem_sameAs : '|' ∉ OWLSameAs.data := by decide

/-- At a store where a full round adds nothing (and whose triples are
pipe-free), the stored set is closed under all 13 catalogue rules. -/
theorem fixpoint_closed {s : TripleStore} (hwf : s.WF)
    (hpf : ∀ u ∈ s.tripleList, PipeFree u) (hz : (applyRules s).2 = 0) :
    ClosedUnderRules (fun t => t ∈ s.tripleList) := by
  have hkeys := applyRules_zero_keys hz
  have hmem : ∀ t : Triple, PipeFree t → tripleKey t ∈ s.triples → t ∈ s.tripleList := by
    intro t hpt hk
    rcases (hwf.keys _).mp hk with ⟨v, hv, hkv⟩
    rwa [← tripleKey_inj (hpf v hv) hpt hkv]
  have hfin : ∀ rule ∈ DefaultRules, ∀ t : Triple, PipeFree t →
      (s.Contains t = false → t ∈ rule s) → t ∈ s.tripleList := by
    intro rule hr t hpt himp
    by_cases hc : s.Contains t = false
    · exact hmem t hpt (hkeys rule hr t (himp hc))
    · have hct : s.Contains t = true := by
        cases hcc : s.Contains t
        · exact absurd hcc hc
        · rfl
      exact hmem t hpt (of_decide_eq_true hct)
  constructor
  · intro a b c h1 h2 hne
    refine hfin SubClassTransitivity.Apply mem_dr_subClassTrans ⟨a, RDFSSubClassOf, c⟩
      ⟨(hpf _ h1).1, pipe_not_mem_subClassOf, (hpf _ h2).2.2⟩ ?_
    intro hc
    unfold SubClassTransitivity.Apply
    exact (transViaPredicate_mem hwf _ _).mpr
      ⟨⟨a, RDFSSubClassOf, b⟩, h1, ⟨b, RDFSSubClassOf, c⟩, h2, rfl, rfl, rfl, hc, hne, rfl⟩
  · intro x a b h1 h2
    refine hfin TypeInheritance.Apply mem_dr_typeInherit ⟨x, RDFType, b⟩
      ⟨(hpf _ h1).1, pipe_not_mem_RDFType, (hpf _ h2).2.2⟩ ?_
    intro hc
    exact (typeInheritance_mem hwf _).mpr
      ⟨⟨x, RDFType, a⟩, h1, ⟨a, RDFSSubClassOf, b⟩, h2, rfl, rfl, rfl, hc, rfl⟩
  · intro p c x y h1 h2
    refine hfin DomainInference.Apply mem_dr_domain ⟨x, RDFType, c⟩
      ⟨(hpf _ h2).1, pipe_not_mem_RDFType, (hpf _ h1).2.2⟩ ?_
    intro hc
    exact (domainInference_mem hwf _).mpr
      ⟨⟨p, RDFSDomain, c⟩, h1, ⟨x, p, y⟩, h2, rfl, rfl, hc, rfl⟩
  · intro p c x y h1 h2 hlit
    refine hfin RangeInference.Apply mem_dr_range ⟨y, RDFType, c⟩
      ⟨(hpf _ h2).2.2, pipe_not_mem_RDFType, (hpf _ h1).2.2⟩ ?_
    intro hc
    exact (rangeInference_mem hwf _).mpr
      ⟨⟨p, RDFSRange, c⟩, h1, ⟨x, p, y⟩, h2, rfl, rfl, hlit, hc, rfl⟩
  · intro p1 p2 p3 h1 h2 hne
    refine hfin SubPropertyTransitivity.Apply mem_dr_subPropTrans ⟨p1, RDFSSubPropertyOf, p3⟩
      ⟨(hpf _ h1).1, pipe_not_mem_subPropertyOf, (hpf _ h2).2.2⟩ ?_
    intro hc
    unfold SubPropertyTransitivity.Apply
    exact (transViaPredicate_mem hwf _ _).mpr
      ⟨⟨p1, RDFSSubPropertyOf, p2⟩, h1, ⟨p2, RDFSSubPropertyOf, p3⟩, h2, rfl, rfl, rfl,
        hc, hne, rfl⟩
  · intro p1 p2 x y h1 h2
    refine hfin SubPropertyInheritance.Apply mem_dr_subPropInherit ⟨x, p2, y⟩
      ⟨(hpf _ h2).1, (hpf _ h1).2.2, (hpf _ h2).2.2⟩ ?_
    intro hc
    exact (subPropertyInheritance_mem hwf _).mpr
      ⟨⟨p1, RDFSSubPropertyOf, p2⟩, h1, ⟨x, p1, y⟩, h2, rfl, rfl, hc, rfl⟩
  · intro a b h1
    refine hfin EquivalentClassSymmetry.Apply mem_dr_eqClassSym ⟨b, OWLEquivalentClass, a⟩
      ⟨(hpf _ h1).2.2, pipe_not_mem_eqClass, (hpf _ h1).1⟩ ?_
    intro hc
    unfold EquivalentClassSymmetry.Apply
    exact (symViaPredicate_mem hwf _ _).mpr ⟨⟨a, OWLEquivalentClass, b⟩, h1, rfl, hc, rfl⟩
  · intro a b c h1 h2 hne
    refine hfin EquivalentClassTransitivity.Apply mem_dr_eqClassTrans
      ⟨a, OWLEquivalentClass, c⟩ ⟨(hpf _ h1).1, pipe_not_mem_eqClass, (hpf _ h2).2.2⟩ ?_
    intro hc
    unfold EquivalentClassTransitivity.Apply
    exact (transViaPredicate_mem hwf _ _).mpr
      ⟨⟨a, OWLEquivalentClass, b⟩, h1, ⟨b, OWLEquivalentClass, c⟩, h2, rfl, rfl, rfl,
        hc, hne, rfl⟩
  · intro a b h1
    refine hfin SameAsSymmetry.Apply mem_dr_sameAsSym ⟨b, OWLSameAs, a⟩
      ⟨(hpf _ h1).2.2, pipe_not_mem_sameAs, (hpf _ h1).1⟩ ?_
    intro hc
    unfold SameAsSymmetry.Apply
    exact (symViaPredicate_mem hwf _ _).mpr ⟨⟨a, OWLSameAs, b⟩, h1, rfl, hc, rfl⟩
  · intro a b c h1 h2 hne
    refine hfin SameAsTransitivity.Apply mem_dr_sameAsTrans ⟨a, OWLSameAs, c⟩
      ⟨(hpf _ h1).1, pipe_not_mem_sameAs, (hpf _ h2).2.2⟩ ?_
    intro hc
    unfold SameAsTransitivity.Apply
    exact (transViaPredicate_mem hwf _ _).mpr
      ⟨⟨a, OWLSameAs, b⟩, h1, ⟨b, OWLSameAs, c⟩, h2, rfl, rfl, rfl, hc, hne, rfl⟩
  · intro p1 p2 x y h1 h2
    refine hfin InversePropertyInference.Apply mem_dr_inverse ⟨y, p2, x⟩
      ⟨(hpf _ h2).2.2, (hpf _ h1).2.2, (hpf _ h2).1⟩ ?_
    intro hc
    exact (inversePropertyInference_mem hwf _).mpr
      ⟨⟨p1, OWLInverseOf, p2⟩, h1, rfl, Or.inl ⟨⟨x, p1, y⟩, h2, rfl, hc, rfl⟩⟩
  · intro p1 p2 x y h1 h2
    refine hfin InversePropertyInference.Apply mem_dr_inverse ⟨y, p1, x⟩
      ⟨(hpf _ h2).2.2, (hpf _ h1).1, (hpf _ h2).1⟩ ?_
    intro hc
    exact (inversePropertyInference_mem hwf _).mpr
      ⟨⟨p1, OWLInverseOf, p2⟩, h1, rfl, Or.inr ⟨⟨x, p2, y⟩, h2, rfl, hc, rfl⟩⟩
  · intro p x y z h0 h1 h2 hne
    refine hfin TransitivePropertyInference.Apply mem_dr_transProp ⟨x, p, z⟩
      ⟨(hpf _ h1).1, (hpf _ h1).2.1, (hpf _ h2).2.2⟩ ?_
    intro hc
    exact (transitivePropertyInference_mem hwf _).mpr
      ⟨⟨p, RDFType, OWLTransitiveProperty⟩, h0, rfl, rfl, ⟨x, p, y⟩, h1, ⟨y, p, z⟩, h2,
        rfl, rfl, rfl, hc, hne, rfl⟩
  · intro p x y h0 h1
    refine hfin SymmetricPropertyInference.Apply mem_dr_symProp ⟨y, p, x⟩
      ⟨(hpf _ h1).2.2, (hpf _ h1).2.1, (hpf _ h1).1⟩ ?_
    intro hc
    exact (symmetricPropertyInference_mem hwf _).mpr
      ⟨⟨p, RDFType, OWLSymmetricProperty⟩, h0, rfl, rfl, ⟨x, p, y⟩, h1, rfl, hc, rfl⟩

theorem runForwardReasoning_of_fix {ts : TripleStore} (h : (applyRules ts).2 = 0) :
    RunForwardReasoning ts = (ts, 0) := by
  rw [runForwardReasoning_def, fuelBound, loop_succ_stop h, applyRules_zero_store h]

/-- Claim C1 (amended): for every pipe-free input fact list loaded into the
store, the set of triples present after RunForwardReasoning returns equals
the least model of the 13 catalogue rules over the input facts: it contains
the input, is closed under all 13 rules, and is contained in every
rule-closed superset of the input.  (The unamended claim fails for inputs
whose terms contain `|`, which the store's key encoding conflates — see the
counterexample.) -/
theorem runForwardReasoning_least_model (I : List Triple) (hI : ∀ t ∈ I, PipeFree t) :
    LeastModelSpec I (fun t =>
      t ∈ (RunForwardReasoning (loadTriples NewTripleStore I)).1.tripleList) := by
  have hwf0 : (loadTriples NewTripleStore I).WF := loadTriples_wf NewTripleStore_wf I
  have hpf0 : ∀ u ∈ (loadTriples NewTripleStore I).tripleList, PipeFree u := by
    obtain ⟨ext, he, hsub⟩ := loadTriples_list I NewTripleStore
    rw [he]
    intro u hu
    rcases List.mem_append.mp hu with hu | hu
    · exact absurd hu (by simp [NewTripleStore])
    · exact hI u (hsub u hu)
  have hwfF := runForwardReasoning_wf hwf0
  have hpfF : ∀ u ∈ (RunForwardReasoning (loadTriples NewTripleStore I)).1.tripleList,
      PipeFree u := by
    rw [runForwardReasoning_def]
    exact loop_inv PipeFree closedUnderRules_pipeFree _ hwf0 hpf0
  have hfix := runForwardReasoning_fix hwf0
  refine ⟨?_, ?_, ?_⟩
  · intro t ht
    have h1 := loadTriples_mem_of I NewTripleStore NewTripleStore_wf
      (by intro v hv; exact absurd hv (by simp [NewTripleStore])) hI t ht
    show t ∈ _
    rw [runForwardReasoning_def]
    obtain ⟨ext, he, _⟩ := loop_list (fuelBound (loadTriples NewTripleStore I))
      (loadTriples NewTripleStore I)
    rw [he]
    exact List.mem_append_left _ h1
  · exact fixpoint_closed hwfF hpfF hfix
  · intro T hTI hTc t htF
    have hTs0 : ∀ u ∈ (loadTriples NewTripleStore I).tripleList, T u := by
      obtain ⟨ext, he, hsub⟩ := loadTriples_list I NewTripleStore
      rw [he]
      intro u hu
      rcases List.mem_append.mp hu with hu | hu
      · exact absurd hu (by simp [NewTripleStore])
      · exact hTI u (hsub u hu)
    rw [runForwardReasoning_def] at htF
    exact loop_inv T hTc _ hwf0 hTs0 t htF

/-- Witness for C1's amended theorem at a concrete pipe-free input. -/
theorem runForwardReasoning_least_model_witness :
    LeastModelSpec [⟨"a", OWLSameAs, "b"⟩] (fun t =>
      t ∈ (RunForwardReasoning (loadTriples NewTripleStore
        [⟨"a", OWLSameAs, "b"⟩])).1.tripleList) :=
  runForwardReasoning_least_model [⟨"a", OWLSameAs, "b"⟩] (by decide)

set_option maxHeartbeats 10000000 in
/-- Counterexample to claim C1 as stated: with the input triples
(a sameAs b|c) and (b c|sameAs a) — distinct records whose store keys
collide — the set after RunForwardReasoning is not even closed under the
sameAs-symmetry rule, hence not the least model of the catalogue. -/
theorem leastModel_counterexample :
    ¬ LeastModelSpec [⟨"a", OWLSameAs, "b|c"⟩, ⟨"b", "c|" ++ OWLSameAs, "a"⟩]
      (fun t => t ∈ (RunForwardReasoning (loadTriples NewTripleStore
        [⟨"a", OWLSameAs, "b|c"⟩, ⟨"b", "c|" ++ OWLSameAs, "a"⟩])).1.tripleList) := by
  intro h
  have h1 : (⟨"a", OWLSameAs, "b|c"⟩ : Triple) ∈
      (RunForwardReasoning (loadTriples NewTripleStore
        [⟨"a", OWLSameAs, "b|c"⟩, ⟨"b", "c|" ++ OWLSameAs, "a"⟩])).1.tripleList :=
    h.1 _ (List.mem_cons_self _ _)
  have h2 := h.2.1.sameAsSym "a" "b|c" h1
  exact absurd h2 (by decide)

/-- Claim C2 (amended): for every finite input fact list loaded into a fresh
store, RunForwardReasoning terminates at the round that adds no new triple:
no rule proposes a triple containing a term not already present in the store
OTHER THAN the constant rdf:type, so the reachable set of triples is finite
and the loop's (provably sufficient) fuel reaches the fixed point.  (As
stated, the claim asserts no rule proposes any term absent from the store;
the domain and range rules can propose the absent term rdf:type — see the
counterexample.) -/
theorem runForwardReasoning_terminates (I : List Triple) :
    (∀ rule ∈ DefaultRules, ∀ s : TripleStore, s.WF →
      ∀ u ∈ rule s, TermsIn (storeTerms s ++ [RDFType]) u) ∧
    (applyRules (RunForwardReasoning (loadTriples NewTripleStore I)).1).2 = 0 := by
  constructor
  · intro rule hr s hwf u hu
    refine defaultRules_preserve (TermsIn (storeTerms s ++ [RDFType]))
      (closedUnderRules_termsIn _ (List.mem_append_right _ (List.mem_singleton_self _)))
      rule hr s hwf ?_ u hu
    intro v hv
    rcases storeTerms_mem hv with ⟨h1, h2, h3⟩
    exact ⟨List.mem_append_left _ h1, List.mem_append_left _ h2, List.mem_append_left _ h3⟩
  · exact runForwardReasoning_fix (loadTriples_wf NewTripleStore_wf I)

set_option maxHeartbeats 10000000 in
/-- Counterexample to C2's clause that no rule proposes a triple containing
a term not already present in the store: from (P domain C) and (X P Y) the
domain rule proposes (X rdf:type C), and rdf:type occurs nowhere in the
store. -/
theorem domainInference_fresh_term_counterexample :
    (⟨"X", RDFType, "C"⟩ : Triple) ∈ DomainInference.Apply
      (loadTriples NewTripleStore [⟨"P", RDFSDomain, "C"⟩, ⟨"X", "P", "Y"⟩]) ∧
    RDFType ∉ storeTerms (loadTriples NewTripleStore
      [⟨"P", RDFSDomain, "C"⟩, ⟨"X", "P", "Y"⟩]) := by
  decide

/-- Claim C4: RunForwardReasoning is idempotent: immediately after it
returns, applying all rules once more yields zero new triples, and a second
call on the same reasoner returns zero (leaving the store unchanged). -/
theorem runForwardReasoning_idempotent (I : List Triple) :
    (applyRules (RunForwardReasoning (loadTriples NewTripleStore I)).1).2 = 0 ∧
    RunForwardReasoning (RunForwardReasoning (loadTriples NewTripleStore I)).1 =
      ((RunForwardReasoning (loadTriples NewTripleStore I)).1, 0) := by
  have hfix := runForwardReasoning_fix (loadTriples_wf NewTripleStore_wf I)
  exact ⟨hfix, runForwardReasoning_of_fix hfix⟩

/-!  Datalog model (pkg/reasoner datalog source).  Go's `unicode` class
tests and byte-length tests coincide with Lean's ASCII `Char` tests and
character length on the ASCII terms the Datalog parser produces. -/

/-- DLTerm represents a Datalog term (either a constant or a variable). -/
structure DLTerm where
  Value : String
  IsVariable : Bool
deriving DecidableEq, Repr

/-- DLAtom represents a Datalog atom: Predicate(Term1, Term2, ...). -/
structure DLAtom where
  Predicate : String
  Terms : List DLTerm
deriving DecidableEq, Repr

/-- Inner position-by-position loop of EvaluateQuery: fails at the first
position where a non-variable query term differs from the fact term.
(The mismatched-length case cannot arise below the arity check.) -/
def termsMatch : List DLTerm → List DLTerm → Bool
  | [], _ => true
  | qt :: qs, ft :: fs =>
    if qt.IsVariable = false ∧ qt.Value ≠ ft.Value then false else termsMatch qs fs
  | _ :: _, [] => true

/-- EvaluateQuery checks if a query matches any derived facts.  (The Go
method's DatalogProgram receiver is unused.) -/
def EvaluateQuery (query : DLAtom) (derivedFacts : List DLAtom) : Bool :=
  derivedFacts.any (fun f =>
    if f.Predicate ≠ query.Predicate ∨ f.Terms.length ≠ query.Terms.length then false
    else termsMatch query.Terms f.Terms)

theorem termsMatch_iff : ∀ (qs fs : List DLTerm), qs.length = fs.length →
    (termsMatch qs fs = true ↔
      ∀ i (hq : i < qs.length) (hf : i < fs.length),
        (qs.get ⟨i, hq⟩).IsVariable = false →
        (qs.get ⟨i, hq⟩).Value = (fs.get ⟨i, hf⟩).Value) := by
  intro qs
  induction qs with
  | nil =>
    intro fs _
    simp [termsMatch]
  | cons q qs ih =>
    intro fs hlen
    cases fs with
    | nil => exact absurd hlen (by simp)
    | cons f fs =>
      have hlen' : qs.length = fs.length := by
        simpa using hlen
      rw [termsMatch]
      by_cases hbad : q.IsVariable = false ∧ q.Value ≠ f.Value
      · rw [if_pos hbad]
        constructor
        · intro h
          exact absurd h (by simp)
        · intro hR
          exfalso
          exact hbad.2 (hR 0 (by simp) (by simp) hbad.1)
      · rw [if_neg hbad]
        push_neg at hbad
        rw [ih fs hlen']
        constructor
        · intro h i hq hf hvar
          cases i with
          | zero => exact hbad hvar
          | succ n =>
            exact h n (by simpa using hq) (by simpa using hf) (by simpa using hvar)
        · intro h i hq hf hvar
          have := h (i + 1) (by simpa using hq) (by simpa using hf) (by simpa using hvar)
          simpa using this

/-- Claim C7: EvaluateQuery returns true iff some derived fact has the same
predicate and the same arity as the query and agrees with the query at every
non-variable position (variables in the query are wildcards); in particular
a query whose predicate occurs in no derived fact yields false (the function
is total — never an error). -/
theorem evaluateQuery_iff (query : DLAtom) (facts : List DLAtom) :
    (EvaluateQuery query facts = true ↔
      ∃ f ∈ facts, f.Predicate = query.Predicate ∧
        f.Terms.length = query.Terms.length ∧
        ∀ i (hq : i < query.Terms.length) (hf : i < f.Terms.length),
          (query.Terms.get ⟨i, hq⟩).IsVariable = false →
          (query.Terms.get ⟨i, hq⟩).Value = (f.Terms.get ⟨i, hf⟩).Value) ∧
    ((∀ f ∈ facts, f.Predicate ≠ query.Predicate) → EvaluateQuery query facts = false) := by
  have hmain : EvaluateQuery query facts = true ↔
      ∃ f ∈ facts, f.Predicate = query.Predicate ∧
        f.Terms.length = query.Terms.length ∧
        ∀ i (hq : i < query.Terms.length) (hf : i < f.Terms.length),
          (query.Terms.get ⟨i, hq⟩).IsVariable = false →
          (query.Terms.get ⟨i, hq⟩).Value = (f.Terms.get ⟨i, hf⟩).Value := by
    rw [EvaluateQuery, List.any_eq_true]
    constructor
    · rintro ⟨f, hf, hcond⟩
      by_cases hskip : f.Predicate ≠ query.Predicate ∨ f.Terms.length ≠ query.Terms.length
      · rw [if_pos hskip] at hcond
        exact absurd hcond (by simp)
      · rw [if_neg hskip] at hcond
        push_neg at hskip
        have hlen : query.Terms.length = f.Terms.length := hskip.2.symm
        refine ⟨f, hf, hskip.1, hskip.2, ?_⟩
        exact (termsMatch_iff query.Terms f.Terms hlen).mp hcond
    · rintro ⟨f, hf, hp, hl, hpos⟩
      refine ⟨f, hf, ?_⟩
      have hskip : ¬ (f.Predicate ≠ query.Predicate ∨ f.Terms.length ≠ query.Terms.length) := by
        push_neg
        exact ⟨hp, hl⟩
      rw [if_neg hskip]
      exact (termsMatch_iff query.Terms f.Terms hl.symm).mpr hpos
  constructor
  · exact hmain
  · intro hnone
    cases hEv : EvaluateQuery query facts
    · rfl
    · rcases hmain.mp hEv with ⟨f, hf, hp, _⟩
      exact absurd hp (hnone f hf)

/-- The scan loop of isVariable: carries `hasLetter` and `allUpper`,
returning early (with allUpper=false) at the first offending character. -/
def isVarScan : List Char → Bool → Bool → Bool × Bool
  | [], hasLetter, allUpper => (hasLetter, allUpper)
  | r :: rest, hasLetter, allUpper =>
    if r.isAlpha then
      if ¬ r.isUpper then (true, false)
      else isVarScan rest true allUpper
    else if ¬ r.isDigit ∧ r ≠ '_' then (hasLetter, false)
    else isVarScan rest hasLetter allUpper

/-- isVariable: the Datalog variable-recognition heuristic (parser.go). -/
def isVariable (s : String) : Bool :=
  if s.data.length = 0 then false
  else if s.data.length = 1 ∧ 'A' ≤ s.data.headD ' ' ∧ s.data.headD ' ' ≤ 'Z' then true
  else if s.data.headD ' ' = '?' then true
  else
    let r := isVarScan s.data false true
    r.1 && r.2

theorem isVarScan_eval : ∀ (l : List Char) (hl : Bool),
    ((isVarScan l hl true).1 && (isVarScan l hl true).2) = true ↔
      ((hl = true ∨ ∃ c ∈ l, c.isAlpha = true) ∧
       ∀ c ∈ l, (c.isAlpha = true → c.isUpper = true) ∧
         (¬ c.isAlpha = true → (c.isDigit = true ∨ c = '_'))) := by
  intro l
  induction l with
  | nil =>
    intro hl
    cases hl <;> simp [isVarScan]
  | cons c rest ih =>
    intro hl
    rw [isVarScan]
    by_cases ha : c.isAlpha
    · rw [if_pos ha]
      by_cases hu : c.isUpper
      · rw [if_neg (by simp [hu])]
        rw [ih true]
        constructor
        · rintro ⟨_, htail⟩
          refine ⟨Or.inr ⟨c, List.mem_cons_self _ _, ha⟩, ?_⟩
          intro d hd
          rcases List.mem_cons.mp hd with rfl | hd
          · exact ⟨fun _ => hu, fun hna => absurd ha hna⟩
          · exact htail d hd
        · rintro ⟨_, hall⟩
          refine ⟨Or.inl rfl, ?_⟩
          intro d hd
          exact hall d (List.mem_cons_of_mem _ hd)
      · rw [if_pos (by simp [hu])]
        constructor
        · intro h
          exact absurd h (by simp)
        · rintro ⟨_, hall⟩
          exact absurd ((hall c (List.mem_cons_self _ _)).1 ha) hu
    · rw [if_neg ha]
      by_cases hd : c.isDigit ∨ c = '_'
      · rw [if_neg (by
          push_neg
          intro hnd
          rcases hd with hd | hd
          · exact absurd hd hnd
          · exact hd)]
        rw [ih hl]
        constructor
        · rintro ⟨hfst, htail⟩
          constructor
          · rcases hfst with hfst | ⟨d, hdm, hda⟩
            · exact Or.inl hfst
            · exact Or.inr ⟨d, List.mem_cons_of_mem _ hdm, hda⟩
          · intro d hdm
            rcases List.mem_cons.mp hdm with rfl | hdm
            · exact ⟨fun hda => absurd hda ha, fun _ => hd⟩
            · exact htail d hdm
        · rintro ⟨hfst, hall⟩
          constructor
          · rcases hfst with hfst | ⟨d, hdm, hda⟩
            · exact Or.inl hfst
            · rcases List.mem_cons.mp hdm with rfl | hdm
              · exact absurd hda ha
              · exact Or.inr ⟨d, hdm, hda⟩
          · intro d hdm
            exact hall d (List.mem_cons_of_mem _ hdm)
      · rw [if_pos (by
          push_neg at hd
          exact ⟨by simp [hd.1], hd.2⟩)]
        constructor
        · intro h
          exact absurd h (by simp)
        · rintro ⟨_, hall⟩
          rcases (hall c (List.mem_cons_self _ _)).2 (by simp [ha]) with hdd | hdd
          · exact absurd (Or.inl hdd) hd
          · exact absurd (Or.inr hdd) hd

/-- Claim C8: the Datalog parser classifies a term string as a variable iff
it is a single uppercase ASCII letter, or begins with '?', or contains at
least one letter with every letter uppercase and every non-letter a digit or
underscore; otherwise it is a constant. -/
theorem isVariable_iff (s : String) :
    isVariable s = true ↔
      ((∃ c : Char, s.data = [c] ∧ 'A' ≤ c ∧ c ≤ 'Z') ∨
       (∃ rest, s.data = '?' :: rest) ∨
       ((∃ c ∈ s.data, c.isAlpha = true) ∧
        (∀ c ∈ s.data, c.isAlpha = true → c.isUpper = true) ∧
        (∀ c ∈ s.data, ¬ c.isAlpha = true → (c.isDigit = true ∨ c = '_')))) := by
  rw [isVariable]
  by_cases h0 : s.data.length = 0
  · rw [if_pos h0]
    have hnil : s.data = [] := List.length_eq_zero.mp h0
    constructor
    · intro h
      exact absurd h (by simp)
    · rintro (⟨c, hc, _⟩ | ⟨rest, hr⟩ | ⟨⟨c, hc, _⟩, _⟩)
      · rw [hnil] at hc
        exact absurd hc (by simp)
      · rw [hnil] at hr
        exact absurd hr (by simp)
      · rw [hnil] at hc
        exact absurd hc (List.not_mem_nil c)
  · rw [if_neg h0]
    obtain ⟨c0, rest0, hdata⟩ : ∃ c0 rest0, s.data = c0 :: rest0 := by
      cases hd : s.data with
      | nil => exact absurd (by rw [hd]; rfl) h0
      | cons a tl => exact ⟨a, tl, rfl⟩
    by_cases h1 : s.data.length = 1 ∧ 'A' ≤ s.data.headD ' ' ∧ s.data.headD ' ' ≤ 'Z'
    · rw [if_pos h1]
      constructor
      · intro _
        refine Or.inl ⟨c0, ?_, ?_, ?_⟩
        · rw [hdata]
          have : rest0 = [] := by
            have := h1.1
            rw [hdata] at this
            simpa using this
          rw [this]
        · have := h1.2.1
          rwa [hdata] at this
        · have := h1.2.2
          rwa [hdata] at this
      · intro _
        rfl
    · rw [if_neg h1]
      by_cases h2 : s.data.headD ' ' = '?'
      · rw [if_pos h2]
        constructor
        · intro _
          refine Or.inr (Or.inl ⟨rest0, ?_⟩)
          rw [hdata]
          rw [hdata] at h2
          simp only [List.headD_cons] at h2
          rw [h2]
        · intro _
          rfl
      · rw [if_neg h2]
        rw [isVarScan_eval s.data false]
        constructor
        · rintro ⟨hfst, hall⟩
          refine Or.inr (Or.inr ⟨?_, ?_, ?_⟩)
          · rcases hfst with hfst | hfst
            · exact absurd hfst (by simp)
            · exact hfst
          · intro c hc hca
            exact (hall c hc).1 hca
          · intro c hc hca
            exact (hall c hc).2 hca
        · rintro (⟨c, hc, hA, hZ⟩ | ⟨rest, hr⟩ | ⟨hex, hup, hnl⟩)
          · exfalso
            apply h1
            rw [hc]
            exact ⟨rfl, hA, hZ⟩
          · exfalso
            apply h2
            rw [hr]
            rfl
          · exact ⟨Or.inr hex, fun c hc => ⟨hup c hc, hnl c hc⟩⟩

/-!  Turtle parser (pkg/reasoner/parser.go, primary path).  The Go parser
mutates a position into the input string; here every function takes the
input (as a character list: Go indexes bytes, which coincides with
characters on ASCII input) and the current position, and returns the new
position alongside its result — also on the error path, since Go's
position mutation persists across a failed parse. -/

/-- The whitespace class of Go's `unicode.IsSpace` (ASCII part). -/
def isSpaceGo (c : Char) : Bool :=
  c = ' ' ∨ c = '\t' ∨ c = '\n' ∨ c = '\u000B' ∨ c = '\u000C' ∨ c = '\r'

/-- Name-character class for prefixed-name bodies. -/
def isNameChar (c : Char) : Bool :=
  c.isAlpha || c.isDigit || c = '_' || c = '-' || c = '.'

def isAlphaNum (c : Char) : Bool :=
  c.isAlpha || c.isDigit

/-- Go map `prefixes[string]string` as an association list: later
declarations are prepended and shadow earlier ones. -/
def lookupPfx (prefixes : List (String × String)) (k : String) : Option String :=
  (prefixes.find? (fun kv => kv.1 = k)).map (fun kv => kv.2)

/-- First index at or after `pos` holding `c`, else the input length. -/
def findChar (inp : List Char) (c : Char) (pos : Nat) : Nat :=
  if h : pos < inp.length then
    if inp.getD pos ' ' = c then pos else findChar inp c (pos + 1)
  else inp.length
termination_by inp.length - pos

theorem findChar_ge (inp : List Char) (c : Char) :
    ∀ (n pos : Nat), inp.length - pos ≤ n → pos ≤ inp.length → pos ≤ findChar inp c pos := by
  intro n
  induction n with
  | zero =>
    intro pos hn hle
    rw [findChar]
    have : ¬ pos < inp.length := by omega
    rw [dif_neg this]
    omega
  | succ m ih =>
    intro pos hn hle
    rw [findChar]
    by_cases h : pos < inp.length
    · rw [dif_pos h]
      by_cases hc : inp.getD pos ' ' = c
      · rw [if_pos hc]
      · rw [if_neg hc]
        have := ih (pos + 1) (by omega) (by omega)
        omega
    · rw [dif_neg h]
      omega

theorem findChar_ge_of (inp : List Char) (c : Char) (pos : Nat) (hle : pos ≤ inp.length) :
    pos ≤ findChar inp c pos :=
  findChar_ge inp c (inp.length - pos) pos (le_refl _) hle

theorem findChar_gt_of_ne {inp : List Char} {c : Char} {pos : Nat}
    (h1 : pos < inp.length) (h2 : inp.getD pos ' ' ≠ c) :
    pos + 1 ≤ findChar inp c pos := by
  rw [findChar, dif_pos h1, if_neg h2]
  exact findChar_ge_of inp c (pos + 1) (by omega)

theorem findChar_le (inp : List Char) (c : Char) :
    ∀ (n pos : Nat), inp.length - pos ≤ n → findChar inp c pos ≤ inp.length := by
  intro n
  induction n with
  | zero =>
    intro pos hn
    rw [findChar]
    by_cases h : pos < inp.length
    · rw [dif_pos h]
      by_cases hc : inp.getD pos ' ' = c
      · rw [if_pos hc]; omega
      · rw [if_neg hc]
        omega
    · rw [dif_neg h]
  | succ m ih =>
    intro pos hn
    rw [findChar]
    by_cases h : pos < inp.length
    · rw [dif_pos h]
      by_cases hc : inp.getD pos ' ' = c
      · rw [if_pos hc]; omega
      · rw [if_neg hc]
        exact ih (pos + 1) (by omega)
    · rw [dif_neg h]

theorem findChar_le_of (inp : List Char) (c : Char) (pos : Nat) :
    findChar inp c pos ≤ inp.length :=
  findChar_le inp c (inp.length - pos) pos (le_refl _)

/-- skipWhitespaceAndComments: skip blanks and `#`-to-end-of-line comments. -/
def skipWS (inp : List Char) (pos : Nat) : Nat :=
  if h : pos < inp.length then
    if hws : isSpaceGo (inp.getD pos ' ') then skipWS inp (pos + 1)
    else if _hc : inp.getD pos ' ' = '#' then skipWS inp (findChar inp '\n' pos)
    else pos
  else pos
termination_by inp.length - pos
decreasing_by
  · omega
  · have h1 : inp.getD pos ' ' ≠ '\n' := by
      intro hh
      rw [hh] at hws
      exact hws (by decide)
    have := findChar_gt_of_ne h h1
    have := findChar_le_of inp '\n' pos
    omega

theorem skipWS_ge (inp : List Char) :
    ∀ (n pos : Nat), inp.length - pos ≤ n → pos ≤ skipWS inp pos := by
  intro n
  induction n with
  | zero =>
    intro pos hn
    rw [skipWS]
    by_cases h : pos < inp.length
    · omega
    · rw [dif_neg h]
  | succ m ih =>
    intro pos hn
    rw [skipWS]
    by_cases h : pos < inp.length
    · rw [dif_pos h]
      by_cases hws : isSpaceGo (inp.getD pos ' ')
      · rw [dif_pos hws]
        have := ih (pos + 1) (by omega)
        omega
      · rw [dif_neg hws]
        by_cases hcm : inp.getD pos ' ' = '#'
        · rw [dif_pos hcm]
          have h1 : inp.getD pos ' ' ≠ '\n' := by
            rw [hcm]; decide
          have h2 := findChar_gt_of_ne h h1
          have h3 := findChar_le_of inp '\n' pos
          have := ih (findChar inp '\n' pos) (by omega)
          omega
        · rw [dif_neg hcm]
    · rw [dif_neg h]

theorem skipWS_ge_of (inp : List Char) (pos : Nat) : pos ≤ skipWS inp pos :=
  skipWS_ge inp (inp.length - pos) pos (le_refl _)

/-- `p.lookingAt(s)`: the input matches `s` exactly at `pos`. -/
def lookingAt (inp : List Char) (pos : Nat) (s : String) : Bool :=
  decide ((inp.drop pos).take s.data.length = s.data)

/-- `p.lookingAtCaseInsensitive(s)` via ASCII case folding. -/
def lookingAtCI (inp : List Char) (pos : Nat) (s : String) : Bool :=
  decide (((inp.drop pos).take s.data.length).map Char.toLower = s.data.map Char.toLower)

/-- Advance over name characters. -/
def scanNameChars (inp : List Char) (pos : Nat) : Nat :=
  if h : pos < inp.length then
    if hn : isNameChar (inp.getD pos ' ') then scanNameChars inp (pos + 1)
    else pos
  else pos
termination_by inp.length - pos

theorem scanNameChars_ge (inp : List Char) :
    ∀ (n pos : Nat), inp.length - pos ≤ n → pos ≤ scanNameChars inp pos := by
  intro n
  induction n with
  | zero =>
    intro pos hn
    rw [scanNameChars]
    by_cases h : pos < inp.length
    · omega
    · rw [dif_neg h]
  | succ m ih =>
    intro pos hn
    rw [scanNameChars]
    by_cases h : pos < inp.length
    · rw [dif_pos h]
      by_cases hc : isNameChar (inp.getD pos ' ')
      · rw [dif_pos hc]
        have := ih (pos + 1) (by omega)
        omega
      · rw [dif_neg hc]
    · rw [dif_neg h]

theorem scanNameChars_ge_of (inp : List Char) (pos : Nat) : pos ≤ scanNameChars inp pos :=
  scanNameChars_ge inp (inp.length - pos) pos (le_refl _)

/-- The prefix-part scan of parsePrefixedName: stop at ':', at a
non-name character, or at end of input. -/
def scanPfxPart (inp : List Char) (pos : Nat) : Nat :=
  if h : pos < inp.length then
    if hcolon : inp.getD pos ' ' = ':' then pos
    else if hn : isNameChar (inp.getD pos ' ') then scanPfxPart inp (pos + 1)
    else pos
  else pos
termination_by inp.length - pos

theorem scanPfxPart_ge (inp : List Char) :
    ∀ (n pos : Nat), inp.length - pos ≤ n → pos ≤ scanPfxPart inp pos := by
  intro n
  induction n with
  | zero =>
    intro pos hn
    rw [scanPfxPart]
    by_cases h : pos < inp.length
    · omega
    · rw [dif_neg h]
  | succ m ih =>
    intro pos hn
    rw [scanPfxPart]
    by_cases h : pos < inp.length
    · rw [dif_pos h]
      by_cases hcolon : inp.getD pos ' ' = ':'
      · rw [dif_pos hcolon]
      · rw [dif_neg hcolon]
        by_cases hc : isNameChar (inp.getD pos ' ')
        · rw [dif_pos hc]
          have := ih (pos + 1) (by omega)
          omega
        · rw [dif_neg hc]
    · rw [dif_neg h]

theorem scanPfxPart_ge_of (inp : List Char) (pos : Nat) : pos ≤ scanPfxPart inp pos :=
  scanPfxPart_ge inp (inp.length - pos) pos (le_refl _)

/-- The substring `inp[start:stop]` as a string. -/
def sliceStr (inp : List Char) (start stop : Nat) : String :=
  String.mk ((inp.drop start).take (stop - start))

/-- parseIRI: expect `<`, scan to `>`; reaching end of input without `>` is
the "unterminated IRI" error.  Returns the new position also on error, as
the Go parser's position mutation persists. -/
def parseIRIPos (inp : List Char) (pos : Nat) : Except String String × Nat :=
  let p1 := skipWS inp pos
  if h : p1 < inp.length ∧ inp.getD p1 ' ' = '<' then
    let e := findChar inp '>' (p1 + 1)
    if he : inp.length ≤ e then (Except.error "unterminated IRI", e)
    else (Except.ok (sliceStr inp (p1 + 1) e), e + 1)
  else (Except.error ("expected < at position " ++ toString p1), p1)

theorem parseIRIPos_ge (inp : List Char) (pos : Nat) : pos ≤ (parseIRIPos inp pos).2 := by
  have hws := skipWS_ge_of inp pos
  simp only [parseIRIPos]
  split
  next h =>
    have hfc := findChar_ge_of inp '>' (skipWS inp pos + 1) (by omega)
    split
    next he =>
      simp only
      omega
    next he =>
      simp only
      omega
  next h =>
    simp only
    omega

theorem parseIRIPos_ok_gt {inp : List Char} {pos : Nat} {s : String} {p2 : Nat}
    (h : parseIRIPos inp pos = (Except.ok s, p2)) : pos < p2 ∧ p2 ≤ inp.length := by
  have hws := skipWS_ge_of inp pos
  rw [parseIRIPos] at h
  simp only at h
  split at h
  next hcond =>
    have hfc := findChar_ge_of inp '>' (skipWS inp pos + 1) (by omega)
    split at h
    next he => exact absurd h (by simp)
    next he =>
      have := (Prod.mk.injEq _ _ _ _ ▸ h).2
      omega
  next hcond => exact absurd h (by simp)

/-- parsePrefixName: read up to and including `:`, stopping early at
whitespace or end of input. -/
def parsePfxNameAux (inp : List Char) (start pos : Nat) : String × Nat :=
  if h : pos < inp.length then
    if hc : inp.getD pos ' ' = ':' then (sliceStr inp start (pos + 1), pos + 1)
    else if hs : isSpaceGo (inp.getD pos ' ') then (sliceStr inp start pos, pos)
    else parsePfxNameAux inp start (pos + 1)
  else (sliceStr inp start pos, pos)
termination_by inp.length - pos

theorem parsePfxNameAux_ge (inp : List Char) (start : Nat) :
    ∀ (n pos : Nat), inp.length - pos ≤ n → pos ≤ (parsePfxNameAux inp start pos).2 := by
  intro n
  induction n with
  | zero =>
    intro pos hn
    rw [parsePfxNameAux]
    by_cases h : pos < inp.length
    · omega
    · rw [dif_neg h]
  | succ m ih =>
    intro pos hn
    rw [parsePfxNameAux]
    by_cases h : pos < inp.length
    · rw [dif_pos h]
      by_cases hc : inp.getD pos ' ' = ':'
      · rw [dif_pos hc]
        simp only
        omega
      · rw [dif_neg hc]
        by_cases hs : isSpaceGo (inp.getD pos ' ')
        · rw [dif_pos hs]
        · rw [dif_neg hs]
          have := ih (pos + 1) (by omega)
          omega
    · rw [dif_neg h]

theorem parsePfxNameAux_ge_of (inp : List Char) (start pos : Nat) :
    pos ≤ (parsePfxNameAux inp start pos).2 :=
  parsePfxNameAux_ge inp start (inp.length - pos) pos (le_refl _)

def parsePfxNamePos (inp : List Char) (pos : Nat) : String × Nat :=
  parsePfxNameAux inp pos pos

/-- resolveIRI: prepend the base unless the IRI has a scheme separator or
starts with `#`. -/
def resolveIRI (base : String) (iri : String) : String :=
  if base ≠ "" ∧ ¬ ("://".data <:+: iri.data) ∧ iri.data.headD ' ' ≠ '#'
  then base ++ iri else iri

/-- parseBlankNode: consume `_:` and the following name characters
(called only when looking at `_:`). -/
def parseBlankNodePos (inp : List Char) (pos : Nat) : String × Nat :=
  (sliceStr inp pos (scanNameChars inp (pos + 2)), scanNameChars inp (pos + 2))

theorem parseBlankNodePos_gt (inp : List Char) (pos : Nat) :
    pos < (parseBlankNodePos inp pos).2 := by
  have := scanNameChars_ge_of inp (pos + 2)
  simp only [parseBlankNodePos]
  omega

/-- parsePrefixedName: prefix part up to `:`, then the local name; a
declared prefix resolves to `base ++ local`, otherwise the original
`pfx:local` passes through. -/
def parsePfxedNamePos (inp : List Char) (prefixes : List (String × String)) (pos : Nat) :
    Except String String × Nat :=
  let e := scanPfxPart inp pos
  if h : e < inp.length ∧ inp.getD e ' ' = ':' then
    let le' := scanNameChars inp (e + 1)
    match lookupPfx prefixes (sliceStr inp pos e) with
    | some b => (Except.ok (b ++ sliceStr inp (e + 1) le'), le')
    | none => (Except.ok (sliceStr inp pos e ++ ":" ++ sliceStr inp (e + 1) le'), le')
  else (Except.error ("expected : in prefixed name at position " ++ toString e), e)

theorem parsePfxedNamePos_ge (inp : List Char) (prefixes : List (String × String)) (pos : Nat) :
    pos ≤ (parsePfxedNamePos inp prefixes pos).2 := by
  have h1 := scanPfxPart_ge_of inp pos
  have h2 := scanNameChars_ge_of inp (scanPfxPart inp pos + 1)
  simp only [parsePfxedNamePos]
  split
  next h =>
    split <;> simp only <;> omega
  next h =>
    simp only
    omega

theorem parsePfxedNamePos_ok_gt {inp : List Char} {prefixes : List (String × String)}
    {pos : Nat} {s : String} {p2 : Nat}
    (h : parsePfxedNamePos inp prefixes pos = (Except.ok s, p2)) : pos < p2 := by
  have h1 := scanPfxPart_ge_of inp pos
  have h2 := scanNameChars_ge_of inp (scanPfxPart inp pos + 1)
  rw [parsePfxedNamePos] at h
  simp only at h
  split at h
  next hcond =>
    split at h <;>
      · have := (Prod.mk.injEq _ _ _ _ ▸ h).2
        omega
  next hcond => exact absurd h (by simp)

/-- Scan for the closing `"""` of a triple-quoted literal. -/
def findTQ (inp : List Char) (pos : Nat) : Nat :=
  if h : pos < inp.length then
    if hq : lookingAt inp pos "\"\"\"" then pos
    else findTQ inp (pos + 1)
  else pos
termination_by inp.length - pos

theorem findTQ_ge (inp : List Char) :
    ∀ (n pos : Nat), inp.length - pos ≤ n → pos ≤ findTQ inp pos := by
  intro n
  induction n with
  | zero =>
    intro pos hn
    rw [findTQ]
    by_cases h : pos < inp.length
    · omega
    · rw [dif_neg h]
  | succ m ih =>
    intro pos hn
    rw [findTQ]
    by_cases h : pos < inp.length
    · rw [dif_pos h]
      by_cases hq : lookingAt inp pos "\"\"\""
      · rw [dif_pos hq]
      · rw [dif_neg hq]
        have := ih (pos + 1) (by omega)
        omega
    · rw [dif_neg h]

theorem findTQ_ge_of (inp : List Char) (pos : Nat) : pos ≤ findTQ inp pos :=
  findTQ_ge inp (inp.length - pos) pos (le_refl _)

/-- Scan the body of a single-quoted literal, keeping escape pairs
verbatim; stops at the closing quote or end of input. -/
def scanLit (inp : List Char) (pos : Nat) : Nat :=
  if h : pos < inp.length then
    if hq : inp.getD pos ' ' = '"' then pos
    else if hesc : inp.getD pos ' ' = '\\' ∧ pos + 1 < inp.length then scanLit inp (pos + 2)
    else scanLit inp (pos + 1)
  else pos
termination_by inp.length - pos

theorem scanLit_ge (inp : List Char) :
    ∀ (n pos : Nat), inp.length - pos ≤ n → pos ≤ scanLit inp pos := by
  intro n
  induction n with
  | zero =>
    intro pos hn
    rw [scanLit]
    by_cases h : pos < inp.length
    · omega
    · rw [dif_neg h]
  | succ m ih =>
    intro pos hn
    rw [scanLit]
    by_cases h : pos < inp.length
    · rw [dif_pos h]
      by_cases hq : inp.getD pos ' ' = '"'
      · rw [dif_pos hq]
      · rw [dif_neg hq]
        by_cases hesc : inp.getD pos ' ' = '\\' ∧ pos + 1 < inp.length
        · rw [dif_pos hesc]
          have := ih (pos + 2) (by omega)
          omega
        · rw [dif_neg hesc]
          have := ih (pos + 1) (by omega)
          omega
    · rw [dif_neg h]

theorem scanLit_ge_of (inp : List Char) (pos : Nat) : pos ≤ scanLit inp pos :=
  scanLit_ge inp (inp.length - pos) pos (le_refl _)

/-- Scan a language tag (letters, digits, `-`). -/
def scanLang (inp : List Char) (pos : Nat) : Nat :=
  if h : pos < inp.length then
    if hc : (isAlphaNum (inp.getD pos ' ') || inp.getD pos ' ' = '-') then scanLang inp (pos + 1)
    else pos
  else pos
termination_by inp.length - pos

theorem scanLang_ge (inp : List Char) :
    ∀ (n pos : Nat), inp.length - pos ≤ n → pos ≤ scanLang inp pos := by
  intro n
  induction n with
  | zero =>
    intro pos hn
    rw [scanLang]
    by_cases h : pos < inp.length
    · omega
    · rw [dif_neg h]
  | succ m ih =>
    intro pos hn
    rw [scanLang]
    by_cases h : pos < inp.length
    · rw [dif_pos h]
      by_cases hc : (isAlphaNum (inp.getD pos ' ') || inp.getD pos ' ' = '-')
      · rw [dif_pos hc]
        have := ih (pos + 1) (by omega)
        omega
      · rw [dif_neg hc]
    · rw [dif_neg h]

theorem scanLang_ge_of (inp : List Char) (pos : Nat) : pos ≤ scanLang inp pos :=
  scanLang_ge inp (inp.length - pos) pos (le_refl _)

/-- The language-tag / datatype suffix of parseLiteral.  A failed datatype
IRI or prefixed name is ignored (Go discards the error), contributing the
empty string. -/
def parseLiteralSuffix (inp : List Char) (prefixes : List (String × String)) (base : String)
    (pos : Nat) (sb : String) : String × Nat :=
  if h1 : pos < inp.length ∧ inp.getD pos ' ' = '@' then
    (sb ++ "@" ++ sliceStr inp (pos + 1) (scanLang inp (pos + 1)), scanLang inp (pos + 1))
  else if h2 : lookingAt inp pos "^^" then
    if h3 : pos + 2 < inp.length ∧ inp.getD (pos + 2) ' ' = '<' then
      match parseIRIPos inp (pos + 2) with
      | (Except.ok iri, p4) => (sb ++ "^^" ++ "<" ++ resolveIRI base iri ++ ">", p4)
      | (Except.error _, p4) => (sb ++ "^^" ++ "<" ++ resolveIRI base "" ++ ">", p4)
    else
      match parsePfxedNamePos inp prefixes (pos + 2) with
      | (Except.ok dt, p4) => (sb ++ "^^" ++ "<" ++ dt ++ ">", p4)
      | (Except.error _, p4) => (sb ++ "^^" ++ "<" ++ "" ++ ">", p4)
  else (sb, pos)

theorem parseLiteralSuffix_ge (inp : List Char) (prefixes : List (String × String))
    (base : String) (pos : Nat) (sb : String) :
    pos ≤ (parseLiteralSuffix inp prefixes base pos sb).2 := by
  simp only [parseLiteralSuffix]
  split
  next h1 =>
    have := scanLang_ge_of inp (pos + 1)
    simp only
    omega
  next h1 =>
    split
    next h2 =>
      split
      next h3 =>
        have := parseIRIPos_ge inp (pos + 2)
        split
        next s p4 heq =>
          rw [heq] at this
          simp only at this ⊢
          omega
        next e p4 heq =>
          rw [heq] at this
          simp only at this ⊢
          omega
      next h3 =>
        have := parsePfxedNamePos_ge inp prefixes (pos + 2)
        split
        next s p4 heq =>
          rw [heq] at this
          simp only at this ⊢
          omega
        next e p4 heq =>
          rw [heq] at this
          simp only at this ⊢
          omega
    next h2 =>
      simp only
      omega

/-- parseLiteral: triple-quoted or single-quoted body, plus optional
language tag or datatype suffix; never fails. -/
def parseLiteralPos (inp : List Char) (prefixes : List (String × String)) (base : String)
    (pos : Nat) : String × Nat :=
  if hq3 : lookingAt inp pos "\"\"\"" then
    let e := findTQ inp (pos + 3)
    if he : e < inp.length then
      parseLiteralSuffix inp prefixes base (e + 3) ("\"" ++ sliceStr inp (pos + 3) e ++ "\"")
    else
      parseLiteralSuffix inp prefixes base e ("\"" ++ sliceStr inp (pos + 3) e)
  else
    let e := scanLit inp (pos + 1)
    if he : e < inp.length then
      parseLiteralSuffix inp prefixes base (e + 1) ("\"" ++ sliceStr inp (pos + 1) e ++ "\"")
    else
      parseLiteralSuffix inp prefixes base e ("\"" ++ sliceStr inp (pos + 1) e ++ "\"")

theorem parseLiteralPos_gt (inp : List Char) (prefixes : List (String × String))
    (base : String) (pos : Nat) : pos < (parseLiteralPos inp prefixes base pos).2 := by
  simp only [parseLiteralPos]
  split
  next hq3 =>
    have h1 := findTQ_ge_of inp (pos + 3)
    split
    next he =>
      have := parseLiteralSuffix_ge inp prefixes base (findTQ inp (pos + 3) + 3)
        ("\"" ++ sliceStr inp (pos + 3) (findTQ inp (pos + 3)) ++ "\"")
      omega
    next he =>
      have := parseLiteralSuffix_ge inp prefixes base (findTQ inp (pos + 3))
        ("\"" ++ sliceStr inp (pos + 3) (findTQ inp (pos + 3)))
      omega
  next hq3 =>
    have h1 := scanLit_ge_of inp (pos + 1)
    split
    next he =>
      have := parseLiteralSuffix_ge inp prefixes base (scanLit inp (pos + 1) + 1)
        ("\"" ++ sliceStr inp (pos + 1) (scanLit inp (pos + 1)) ++ "\"")
      omega
    next he =>
      have := parseLiteralSuffix_ge inp prefixes base (scanLit inp (pos + 1))
        ("\"" ++ sliceStr inp (pos + 1) (scanLit inp (pos + 1)) ++ "\"")
      omega

/-- parseSubject: IRI, blank node, or prefixed name. -/
def parseSubjectPos (inp : List Char) (prefixes : List (String × String)) (base : String)
    (pos : Nat) : Except String String × Nat :=
  if h : skipWS inp pos < inp.length then
    if hiri : inp.getD (skipWS inp pos) ' ' = '<' then
      match parseIRIPos inp (skipWS inp pos) with
      | (Except.ok iri, p2) => (Except.ok (resolveIRI base iri), p2)
      | (Except.error e, p2) => (Except.error e, p2)
    else if hbn : lookingAt inp (skipWS inp pos) "_:" then
      (Except.ok (parseBlankNodePos inp (skipWS inp pos)).1,
        (parseBlankNodePos inp (skipWS inp pos)).2)
    else parsePfxedNamePos inp prefixes (skipWS inp pos)
  else (Except.error "unexpected end of input", skipWS inp pos)

theorem parseSubjectPos_ge (inp : List Char) (prefixes : List (String × String)) (base : String)
    (pos : Nat) : pos ≤ (parseSubjectPos inp prefixes base pos).2 := by
  have hws := skipWS_ge_of inp pos
  rw [parseSubjectPos]
  split
  next h =>
    split
    next hiri =>
      split
      next iri p2 heq =>
        have := (parseIRIPos_ok_gt heq).1
        simp only
        omega
      next e p2 heq =>
        have := parseIRIPos_ge inp (skipWS inp pos)
        rw [heq] at this
        simp only at this ⊢
        omega
    next hiri =>
      split
      next hbn =>
        have := parseBlankNodePos_gt inp (skipWS inp pos)
        simp only
        omega
      next hbn =>
        have := parsePfxedNamePos_ge inp prefixes (skipWS inp pos)
        omega
  next h =>
    omega

theorem parseSubjectPos_ok_gt {inp : List Char} {prefixes : List (String × String)} {base : String}
    {pos : Nat} {s : String} {p' : Nat}
    (h : parseSubjectPos inp prefixes base pos = (Except.ok s, p')) : pos < p' := by
  have hws := skipWS_ge_of inp pos
  rw [parseSubjectPos] at h
  split at h
  next hlt =>
    split at h
    next hiri =>
      split at h
      next iri p2 heq =>
        have h2 := (parseIRIPos_ok_gt heq).1
        have h3 := (Prod.mk.injEq _ _ _ _ ▸ h).2
        omega
      next e p2 heq => exact absurd h (by simp)
    next hiri =>
      split at h
      next hbn =>
        have h2 := parseBlankNodePos_gt inp (skipWS inp pos)
        have h3 := (Prod.mk.injEq _ _ _ _ ▸ h).2
        omega
      next hbn =>
        have h2 := parsePfxedNamePos_ok_gt h
        omega
  next hlt => exact absurd h (by simp)

/-- parsePredicate: the standalone keyword `a` abbreviates rdf:type;
otherwise IRI or prefixed name. -/
def parsePredicatePos (inp : List Char) (prefixes : List (String × String)) (base : String)
    (pos : Nat) : Except String String × Nat :=
  if h : skipWS inp pos < inp.length then
    if ha : inp.getD (skipWS inp pos) ' ' = 'a' ∧
        (inp.length ≤ skipWS inp pos + 1 ∨
          isNameChar (inp.getD (skipWS inp pos + 1) ' ') = false) then
      (Except.ok RDFType, skipWS inp pos + 1)
    else if hiri : inp.getD (skipWS inp pos) ' ' = '<' then
      match parseIRIPos inp (skipWS inp pos) with
      | (Except.ok iri, p2) => (Except.ok (resolveIRI base iri), p2)
      | (Except.error e, p2) => (Except.error e, p2)
    else parsePfxedNamePos inp prefixes (skipWS inp pos)
  else (Except.error "unexpected end of input", skipWS inp pos)

theorem parsePredicatePos_ge (inp : List Char) (prefixes : List (String × String)) (base : String)
    (pos : Nat) : pos ≤ (parsePredicatePos inp prefixes base pos).2 := by
  have hws := skipWS_ge_of inp pos
  rw [parsePredicatePos]
  split
  next h =>
    split
    next ha =>
      simp only
      omega
    next ha =>
      split
      next hiri =>
        split
        next iri p2 heq =>
          have := (parseIRIPos_ok_gt heq).1
          simp only
          omega
        next e p2 heq =>
          have := parseIRIPos_ge inp (skipWS inp pos)
          rw [heq] at this
          simp only at this ⊢
          omega
      next hiri =>
        have := parsePfxedNamePos_ge inp prefixes (skipWS inp pos)
        omega
  next h =>
    omega

theorem parsePredicatePos_ok_gt {inp : List Char} {prefixes : List (String × String)}
    {base : String} {pos : Nat} {s : String} {p' : Nat}
    (h : parsePredicatePos inp prefixes base pos = (Except.ok s, p')) : pos < p' := by
  have hws := skipWS_ge_of inp pos
  rw [parsePredicatePos] at h
  split at h
  next hlt =>
    split at h
    next ha =>
      have h3 := (Prod.mk.injEq _ _ _ _ ▸ h).2
      omega
    next ha =>
      split at h
      next hiri =>
        split at h
        next iri p2 heq =>
          have h2 := (parseIRIPos_ok_gt heq).1
          have h3 := (Prod.mk.injEq _ _ _ _ ▸ h).2
          omega
        next e p2 heq => exact absurd h (by simp)
      next hiri =>
        have h2 := parsePfxedNamePos_ok_gt h
        omega
  next hlt => exact absurd h (by simp)

/-- parseObject: IRI, blank node, literal, or prefixed name. -/
def parseObjectPos (inp : List Char) (prefixes : List (String × String)) (base : String)
    (pos : Nat) : Except String String × Nat :=
  if h : skipWS inp pos < inp.length then
    if hiri : inp.getD (skipWS inp pos) ' ' = '<' then
      match parseIRIPos inp (skipWS inp pos) with
      | (Except.ok iri, p2) => (Except.ok (resolveIRI base iri), p2)
      | (Except.error e, p2) => (Except.error e, p2)
    else if hbn : lookingAt inp (skipWS inp pos) "_:" then
      (Except.ok (parseBlankNodePos inp (skipWS inp pos)).1,
        (parseBlankNodePos inp (skipWS inp pos)).2)
    else if hq : inp.getD (skipWS inp pos) ' ' = '"' then
      (Except.ok (parseLiteralPos inp prefixes base (skipWS inp pos)).1,
        (parseLiteralPos inp prefixes base (skipWS inp pos)).2)
    else parsePfxedNamePos inp prefixes (skipWS inp pos)
  else (Except.error "unexpected end of input", skipWS inp pos)

theorem parseObjectPos_ge (inp : List Char) (prefixes : List (String × String)) (base : String)
    (pos : Nat) : pos ≤ (parseObjectPos inp prefixes base pos).2 := by
  have hws := skipWS_ge_of inp pos
  rw [parseObjectPos]
  split
  next h =>
    split
    next hiri =>
      split
      next iri p2 heq =>
        have := (parseIRIPos_ok_gt heq).1
        simp only
        omega
      next e p2 heq =>
        have := parseIRIPos_ge inp (skipWS inp pos)
        rw [heq] at this
        simp only at this ⊢
        omega
    next hiri =>
      split
      next hbn =>
        have := parseBlankNodePos_gt inp (skipWS inp pos)
        simp only
        omega
      next hbn =>
        split
        next hq =>
          have := parseLiteralPos_gt inp prefixes base (skipWS inp pos)
          simp only
          omega
        next hq =>
          have := parsePfxedNamePos_ge inp prefixes (skipWS inp pos)
          omega
  next h =>
    omega

theorem parseObjectPos_ok_gt {inp : List Char} {prefixes : List (String × String)} {base : String}
    {pos : Nat} {s : String} {p' : Nat}
    (h : parseObjectPos inp prefixes base pos = (Except.ok s, p')) : pos < p' := by
  have hws := skipWS_ge_of inp pos
  rw [parseObjectPos] at h
  split at h
  next hlt =>
    split at h
    next hiri =>
      split at h
      next iri p2 heq =>
        have h2 := (parseIRIPos_ok_gt heq).1
        have h3 := (Prod.mk.injEq _ _ _ _ ▸ h).2
        omega
      next e p2 heq => exact absurd h (by simp)
    next hiri =>
      split at h
      next hbn =>
        have h2 := parseBlankNodePos_gt inp (skipWS inp pos)
        have h3 := (Prod.mk.injEq _ _ _ _ ▸ h).2
        omega
      next hbn =>
        split at h
        next hq =>
          have h2 := parseLiteralPos_gt inp prefixes base (skipWS inp pos)
          have h3 := (Prod.mk.injEq _ _ _ _ ▸ h).2
          omega
        next hq =>
          have h2 := parsePfxedNamePos_ok_gt h
          omega
  next hlt => exact absurd h (by simp)

theorem skipWS_eof {inp : List Char} {pos : Nat} (h : inp.length ≤ pos) :
    skipWS inp pos = pos := by
  rw [skipWS, dif_neg (by omega)]

theorem parseObjectPos_eof {inp : List Char} {prefixes : List (String × String)} {base : String}
    {pos : Nat} (h : inp.length ≤ pos) :
    parseObjectPos inp prefixes base pos =
      (Except.error "unexpected end of input", skipWS inp pos) := by
  have := skipWS_ge_of inp pos
  rw [parseObjectPos, dif_neg (by omega)]

/-- The object list of parseTriples: one object per iteration, continuing
over commas. -/
def parseObjListPos (inp : List Char) (prefixes : List (String × String)) (base : String)
    (subj pred : String) (pos : Nat) (acc : List Triple) : Except String (List Triple) × Nat :=
  match hobj : parseObjectPos inp prefixes base (skipWS inp pos) with
  | (Except.error e, p2) => (Except.error e, p2)
  | (Except.ok obj, p2) =>
    if h3 : inp.length ≤ skipWS inp p2 then
      (Except.ok (acc ++ [⟨subj, pred, obj⟩]), skipWS inp p2)
    else if hcm : inp.getD (skipWS inp p2) ' ' = ',' then
      parseObjListPos inp prefixes base subj pred (skipWS inp p2 + 1) (acc ++ [⟨subj, pred, obj⟩])
    else (Except.ok (acc ++ [⟨subj, pred, obj⟩]), skipWS inp p2)
termination_by inp.length - pos
decreasing_by
  have a1 := skipWS_ge_of inp pos
  have a2 := parseObjectPos_ok_gt hobj
  have a3 := skipWS_ge_of inp p2
  omega

theorem parseObjListPos_ge (inp : List Char) (prefixes : List (String × String)) (base : String)
    (subj pred : String) :
    ∀ (n pos : Nat) (acc : List Triple), inp.length - pos ≤ n →
      pos ≤ (parseObjListPos inp prefixes base subj pred pos acc).2 := by
  intro n
  induction n with
  | zero =>
    intro pos acc hn
    have hws := skipWS_ge_of inp pos
    rw [parseObjListPos]
    split
    next e p2 heq =>
      have := parseObjectPos_ge inp prefixes base (skipWS inp pos)
      rw [heq] at this
      simp only at this ⊢
      omega
    next obj p2 heq =>
      rw [parseObjectPos_eof (by omega : inp.length ≤ skipWS inp pos)] at heq
      exact absurd heq (by simp)
  | succ m ih =>
    intro pos acc hn
    have hws := skipWS_ge_of inp pos
    rw [parseObjListPos]
    split
    next e p2 heq =>
      have := parseObjectPos_ge inp prefixes base (skipWS inp pos)
      rw [heq] at this
      simp only at this ⊢
      omega
    next obj p2 heq =>
      have hgt := parseObjectPos_ok_gt heq
      have hws2 := skipWS_ge_of inp p2
      by_cases h3 : inp.length ≤ skipWS inp p2
      · rw [dif_pos h3]
        simp only
        omega
      · rw [dif_neg h3]
        by_cases hcm : inp.getD (skipWS inp p2) ' ' = ','
        · rw [dif_pos hcm]
          have := ih (skipWS inp p2 + 1) (acc ++ [⟨subj, pred, obj⟩]) (by omega)
          omega
        · rw [dif_neg hcm]
          simp only
          omega

theorem parseObjListPos_ge_of (inp : List Char) (prefixes : List (String × String)) (base : String)
    (subj pred : String) (pos : Nat) (acc : List Triple) :
    pos ≤ (parseObjListPos inp prefixes base subj pred pos acc).2 :=
  parseObjListPos_ge inp prefixes base subj pred (inp.length - pos) pos acc (le_refl _)

/-- The predicate-object-list loop of parseTriples, continuing over
semicolons and stopping at a dot or end of input. -/
def parsePOListPos (inp : List Char) (prefixes : List (String × String)) (base : String)
    (subj : String) (pos : Nat) (acc : List Triple) : Except String (List Triple) × Nat :=
  if h1 : inp.length ≤ skipWS inp pos then (Except.ok acc, skipWS inp pos)
  else if hdot : inp.getD (skipWS inp pos) ' ' = '.' then (Except.ok acc, skipWS inp pos + 1)
  else
    match hpred : parsePredicatePos inp prefixes base (skipWS inp pos) with
    | (Except.error e, p2) => (Except.error e, p2)
    | (Except.ok pred, p2) =>
      match hobjs : parseObjListPos inp prefixes base subj pred p2 acc with
      | (Except.error e, p3) => (Except.error e, p3)
      | (Except.ok acc2, p3) =>
        if h4 : inp.length ≤ skipWS inp p3 then (Except.ok acc2, skipWS inp p3)
        else if hsemi : inp.getD (skipWS inp p3) ' ' = ';' then
          if h5 : skipWS inp (skipWS inp p3 + 1) < inp.length ∧
              inp.getD (skipWS inp (skipWS inp p3 + 1)) ' ' = '.' then
            (Except.ok acc2, skipWS inp (skipWS inp p3 + 1) + 1)
          else parsePOListPos inp prefixes base subj (skipWS inp (skipWS inp p3 + 1)) acc2
        else if hdot2 : inp.getD (skipWS inp p3) ' ' = '.' then (Except.ok acc2, skipWS inp p3 + 1)
        else (Except.ok acc2, skipWS inp p3)
termination_by inp.length - pos
decreasing_by
  have a1 := skipWS_ge_of inp pos
  have a2 := parsePredicatePos_ok_gt hpred
  have a3 := parseObjListPos_ge_of inp prefixes base subj pred p2 acc
  rw [hobjs] at a3
  have a4 := skipWS_ge_of inp p3
  have a5 := skipWS_ge_of inp (skipWS inp p3 + 1)
  simp only at a3
  omega

theorem parsePOListPos_ge (inp : List Char) (prefixes : List (String × String)) (base : String)
    (subj : String) :
    ∀ (n pos : Nat) (acc : List Triple), inp.length - pos ≤ n →
      pos ≤ (parsePOListPos inp prefixes base subj pos acc).2 := by
  intro n
  induction n with
  | zero =>
    intro pos acc hn
    have hws := skipWS_ge_of inp pos
    rw [parsePOListPos, dif_pos (by omega : inp.length ≤ skipWS inp pos)]
    simp only
    omega
  | succ m ih =>
    intro pos acc hn
    have hws := skipWS_ge_of inp pos
    rw [parsePOListPos]
    by_cases h1 : inp.length ≤ skipWS inp pos
    · rw [dif_pos h1]
      simp only
      omega
    · rw [dif_neg h1]
      by_cases hdot : inp.getD (skipWS inp pos) ' ' = '.'
      · rw [dif_pos hdot]
        simp only
        omega
      · rw [dif_neg hdot]
        split
        next e p2 heq =>
          have := parsePredicatePos_ge inp prefixes base (skipWS inp pos)
          rw [heq] at this
          simp only at this ⊢
          omega
        next pred p2 heq =>
          have hgt := parsePredicatePos_ok_gt heq
          split
          next e p3 heq2 =>
            have := parseObjListPos_ge_of inp prefixes base subj pred p2 acc
            rw [heq2] at this
            simp only at this ⊢
            omega
          next acc2 p3 heq2 =>
            have hol := parseObjListPos_ge_of inp prefixes base subj pred p2 acc
            rw [heq2] at hol
            simp only at hol
            have hws3 := skipWS_ge_of inp p3
            by_cases h4 : inp.length ≤ skipWS inp p3
            · rw [dif_pos h4]
              simp only
              omega
            · rw [dif_neg h4]
              by_cases hsemi : inp.getD (skipWS inp p3) ' ' = ';'
              · rw [dif_pos hsemi]
                have hws4 := skipWS_ge_of inp (skipWS inp p3 + 1)
                by_cases h5 : skipWS inp (skipWS inp p3 + 1) < inp.length ∧
                    inp.getD (skipWS inp (skipWS inp p3 + 1)) ' ' = '.'
                · rw [dif_pos h5]
                  simp only
                  omega
                · rw [dif_neg h5]
                  have := ih (skipWS inp (skipWS inp p3 + 1)) acc2 (by omega)
                  omega
              · rw [dif_neg hsemi]
                by_cases hdot2 : inp.getD (skipWS inp p3) ' ' = '.'
                · rw [dif_pos hdot2]
                  simp only
                  omega
                · rw [dif_neg hdot2]
                  simp only
                  omega

theorem parsePOListPos_ge_of (inp : List Char) (prefixes : List (String × String)) (base : String)
    (subj : String) (pos : Nat) (acc : List Triple) :
    pos ≤ (parsePOListPos inp prefixes base subj pos acc).2 :=
  parsePOListPos_ge inp prefixes base subj (inp.length - pos) pos acc (le_refl _)

/-- parseTriples: a subject followed by its predicate-object list. -/
def parseTriplesPos (inp : List Char) (prefixes : List (String × String)) (base : String)
    (pos : Nat) : Except String (List Triple) × Nat :=
  match parseSubjectPos inp prefixes base pos with
  | (Except.error e, p1) => (Except.error e, p1)
  | (Except.ok subj, p1) => parsePOListPos inp prefixes base subj p1 []

theorem parseTriplesPos_ge (inp : List Char) (prefixes : List (String × String)) (base : String)
    (pos : Nat) : pos ≤ (parseTriplesPos inp prefixes base pos).2 := by
  rw [parseTriplesPos]
  split
  next e p1 heq =>
    have := parseSubjectPos_ge inp prefixes base pos
    rw [heq] at this
    simp only at this ⊢
    omega
  next subj p1 heq =>
    have h1 := parseSubjectPos_ge inp prefixes base pos
    rw [heq] at h1
    simp only at h1
    have h2 := parsePOListPos_ge_of inp prefixes base subj p1 []
    omega

theorem parseTriplesPos_ok_gt {inp : List Char} {prefixes : List (String × String)}
    {base : String} {pos : Nat} {ts : List Triple} {p' : Nat}
    (h : parseTriplesPos inp prefixes base pos = (Except.ok ts, p')) : pos < p' := by
  rw [parseTriplesPos] at h
  split at h
  next e p1 heq => exact absurd h (by simp)
  next subj p1 heq =>
    have h1 := parseSubjectPos_ok_gt heq
    have h2 := parsePOListPos_ge_of inp prefixes base subj p1 []
    rw [h] at h2
    simp only at h2
    omega

/-- skipToNextStatement: advance past the next dot, or to end of input. -/
def skipToNextPos (inp : List Char) (pos : Nat) : Nat :=
  if findChar inp '.' pos < inp.length then findChar inp '.' pos + 1 else findChar inp '.' pos

theorem findChar_eof {inp : List Char} {c : Char} {pos : Nat} (h : inp.length ≤ pos) :
    findChar inp c pos = inp.length := by
  rw [findChar, dif_neg (by omega)]

theorem skipToNextPos_progress (inp : List Char) {pos p2 : Nat} (hlt : pos < inp.length)
    (hle : pos ≤ p2) : inp.length - skipToNextPos inp p2 < inp.length - pos := by
  rw [skipToNextPos]
  have hub := findChar_le_of inp '.' p2
  by_cases hplen : p2 ≤ inp.length
  · have hge := findChar_ge_of inp '.' p2 hplen
    by_cases hd : findChar inp '.' p2 < inp.length
    · rw [if_pos hd]
      omega
    · rw [if_neg hd]
      omega
  · have heq : findChar inp '.' p2 = inp.length := findChar_eof (by omega)
    by_cases hd : findChar inp '.' p2 < inp.length
    · omega
    · rw [if_neg hd]
      omega

/-- Length of the `@prefix` / `PREFIX` keyword skipped by parsePrefix. -/
def pfxSkip (inp : List Char) (pos : Nat) : Nat :=
  if lookingAt inp pos "@prefix" then pos + 7 else pos + 6

theorem pfxSkip_gt (inp : List Char) (pos : Nat) : pos < pfxSkip inp pos := by
  rw [pfxSkip]
  split <;> omega

/-- Length of the `@base` / `BASE` keyword skipped by parseBase. -/
def baseSkip (inp : List Char) (pos : Nat) : Nat :=
  if lookingAt inp pos "@base" then pos + 5 else pos + 4

theorem baseSkip_gt (inp : List Char) (pos : Nat) : pos < baseSkip inp pos := by
  rw [baseSkip]
  split <;> omega

/-- Skip whitespace and an optional terminating dot. -/
def dotOpt (inp : List Char) (pos : Nat) : Nat :=
  if skipWS inp pos < inp.length ∧ inp.getD (skipWS inp pos) ' ' = '.' then skipWS inp pos + 1
  else skipWS inp pos

theorem dotOpt_ge (inp : List Char) (pos : Nat) : pos ≤ dotOpt inp pos := by
  have := skipWS_ge_of inp pos
  rw [dotOpt]
  split <;> omega

/-- `strings.TrimSuffix(name, ":")`. -/
def dropSuffixColon (s : String) : String :=
  if s.data.getLast? = some ':' then String.mk s.data.dropLast else s

theorem parsePfxNamePos_ge (inp : List Char) (pos : Nat) :
    pos ≤ (parsePfxNamePos inp pos).2 :=
  parsePfxNameAux_ge_of inp pos pos

/-- parsePrefix: the declaration keyword, the prefix name, the IRI, and an
optional dot; the new binding shadows an older one for the same prefix. -/
def parsePfxPos (inp : List Char) (prefixes : List (String × String)) (pos : Nat) :
    Except String (List (String × String)) × Nat :=
  if hname : (parsePfxNamePos inp (skipWS inp (pfxSkip inp pos))).1 = "" then
    (Except.error ("expected prefix name at position " ++
        toString (parsePfxNamePos inp (skipWS inp (pfxSkip inp pos))).2),
      (parsePfxNamePos inp (skipWS inp (pfxSkip inp pos))).2)
  else
    match parseIRIPos inp (skipWS inp (parsePfxNamePos inp (skipWS inp (pfxSkip inp pos))).2) with
    | (Except.error e, p3) => (Except.error e, p3)
    | (Except.ok iri, p3) =>
      (Except.ok ((dropSuffixColon (parsePfxNamePos inp (skipWS inp (pfxSkip inp pos))).1, iri)
          :: prefixes), dotOpt inp p3)

theorem parsePfxPos_ok_gt {inp : List Char} {prefixes pfx2 : List (String × String)}
    {pos p' : Nat} (h : parsePfxPos inp prefixes pos = (Except.ok pfx2, p')) : pos < p' := by
  have a1 := pfxSkip_gt inp pos
  have a2 := skipWS_ge_of inp (pfxSkip inp pos)
  have a3 := parsePfxNamePos_ge inp (skipWS inp (pfxSkip inp pos))
  have a4 := skipWS_ge_of inp (parsePfxNamePos inp (skipWS inp (pfxSkip inp pos))).2
  rw [parsePfxPos] at h
  split at h
  next hname => exact absurd h (by simp)
  next hname =>
    split at h
    next e p3 heq => exact absurd h (by simp)
    next iri p3 heq =>
      have a5 := (parseIRIPos_ok_gt heq).1
      have a6 := dotOpt_ge inp p3
      have a7 := (Prod.mk.injEq _ _ _ _ ▸ h).2
      omega

/-- parseBase: the declaration keyword, the IRI, and an optional dot. -/
def parseBasePos (inp : List Char) (pos : Nat) : Except String String × Nat :=
  match parseIRIPos inp (skipWS inp (baseSkip inp pos)) with
  | (Except.error e, p2) => (Except.error e, p2)
  | (Except.ok iri, p2) => (Except.ok iri, dotOpt inp p2)

theorem parseBasePos_ok_gt {inp : List Char} {pos : Nat} {b : String} {p' : Nat}
    (h : parseBasePos inp pos = (Except.ok b, p')) : pos < p' := by
  have a1 := baseSkip_gt inp pos
  have a2 := skipWS_ge_of inp (baseSkip inp pos)
  rw [parseBasePos] at h
  split at h
  next e p2 heq => exact absurd h (by simp)
  next iri p2 heq =>
    have a3 := (parseIRIPos_ok_gt heq).1
    have a4 := dotOpt_ge inp p2
    have a5 := (Prod.mk.injEq _ _ _ _ ▸ h).2
    omega

/-- The Parse main loop: prefix and base declarations are fatal on error;
a failed triple statement is skipped to the next dot. -/
def parseLoop (inp : List Char) (prefixes : List (String × String)) (base : String)
    (acc : List Triple) (pos : Nat) : Except String (List Triple) :=
  if h : skipWS inp pos < inp.length then
    if hpfx : (lookingAt inp (skipWS inp pos) "@prefix" ||
        lookingAtCI inp (skipWS inp pos) "PREFIX") then
      match hp : parsePfxPos inp prefixes (skipWS inp pos) with
      | (Except.error e, _) => Except.error e
      | (Except.ok prefixes2, p2) => parseLoop inp prefixes2 base acc p2
    else if hbase : (lookingAt inp (skipWS inp pos) "@base" ||
        lookingAtCI inp (skipWS inp pos) "BASE") then
      match hb : parseBasePos inp (skipWS inp pos) with
      | (Except.error e, _) => Except.error e
      | (Except.ok base2, p2) => parseLoop inp prefixes base2 acc p2
    else
      match ht : parseTriplesPos inp prefixes base (skipWS inp pos) with
      | (Except.ok ts, p2) => parseLoop inp prefixes base (acc ++ ts) p2
      | (Except.error e, p2) => parseLoop inp prefixes base acc (skipToNextPos inp p2)
  else Except.ok acc
termination_by inp.length - pos
decreasing_by
  · have a1 := skipWS_ge_of inp pos
    have a2 := parsePfxPos_ok_gt hp
    omega
  · have a1 := skipWS_ge_of inp pos
    have a2 := parseBasePos_ok_gt hb
    omega
  · have a1 := skipWS_ge_of inp pos
    have a2 := parseTriplesPos_ok_gt ht
    omega
  · have a1 := skipWS_ge_of inp pos
    have a2 := parseTriplesPos_ge inp prefixes base (skipWS inp pos)
    rw [ht] at a2
    simp only at a2
    exact skipToNextPos_progress inp (by omega) (by omega)

/-- `strings.TrimPrefix` of the byte-order mark. -/
def stripBOM (l : List Char) : List Char :=
  if l.headD ' ' = '\uFEFF' then l.tail else l

/-- `strings.ReplaceAll` of CRLF by LF (non-overlapping, left to right). -/
def replaceCRLF : List Char → List Char
  | [] => []
  | [c] => [c]
  | c :: d :: rest =>
    if c = '\r' ∧ d = '\n' then '\n' :: replaceCRLF rest
    else c :: replaceCRLF (d :: rest)

/-- TurtleParser.Parse: preprocess, then run the statement loop from the
start with no prefixes and no base. -/
def Parse (content : String) : Except String (List Triple) :=
  parseLoop (replaceCRLF (stripBOM content.data)) [] "" [] 0

/-- Reasoner.LoadTurtle: parse, then add every triple to the store. -/
def LoadTurtle (ts : TripleStore) (content : String) : Except String TripleStore :=
  match Parse content with
  | Except.error e => Except.error ("failed to parse Turtle: " ++ e)
  | Except.ok triples => Except.ok (loadTriples ts triples)

/-! ForwardReasonWithDetails and its counting identity. -/

/-- `strings.HasPrefix`. -/
def hasPfxStr (s p : String) : Bool :=
  decide (p.data <+: s.data)

/-- `strings.HasSuffix`. -/
def hasSfxStr (s p : String) : Bool :=
  decide (p.data <:+ s.data)

/-- `strings.Contains`. -/
def containsStr (s p : String) : Bool :=
  decide (p.data <:+: s.data)

/-- formatTerm formats a term for output (README TripleStore source). -/
def formatTerm (term : String) : String :=
  if hasPfxStr term "http://" || hasPfxStr term "https://" then "<" ++ term ++ ">"
  else if hasPfxStr term "<" && hasSfxStr term ">" then term
  else if hasPfxStr term "\"" then term
  else if containsStr term ":" && !hasPfxStr term "_:" then term
  else term

/-- Triple.String renders the triple in N-Triples format. -/
def Triple.String (t : Triple) : String :=
  formatTerm t.Subject ++ " " ++ formatTerm t.Predicate ++ " " ++ formatTerm t.Object ++ " ."

/-- Sorted insertion, the building block of the model of `sort.Strings`. -/
def insertSorted (s : String) : List String → List String
  | [] => [s]
  | x :: xs => if s ≤ x then s :: x :: xs else x :: insertSorted s xs

/-- `sort.Strings`: ascending lexicographic sort. -/
def sortStrings (l : List String) : List String :=
  l.foldr insertSorted []

/-- GetAllTriples: all stored triples rendered and sorted. -/
def GetAllTriples (ts : TripleStore) : List String :=
  sortStrings (ts.All.map Triple.String)

/-- ReasoningResult carries the detailed outcome of ForwardReasonWithDetails. -/
structure ReasoningResult where
  OriginalTriples : List String
  InferredTriples : List String
  AllTriples : List String
  OriginalCount : Nat
  InferredCount : Nat
  TotalCount : Nat
deriving Repr, DecidableEq

/-- ForwardReasonWithDetails: load TBox then ABox (skipping empty inputs),
record the pre-reasoning size, saturate, and package the counts. -/
def ForwardReasonWithDetails (abox tbox : String) : Except String ReasoningResult :=
  match (if tbox = "" then Except.ok NewTripleStore else LoadTurtle NewTripleStore tbox) with
  | Except.error e => Except.error ("failed to load TBox: " ++ e)
  | Except.ok s1 =>
    match (if abox = "" then Except.ok s1 else LoadTurtle s1 abox) with
    | Except.error e => Except.error ("failed to load ABox: " ++ e)
    | Except.ok s2 =>
      Except.ok
        { OriginalTriples := GetAllTriples s2
          InferredTriples := (GetAllTriples (RunForwardReasoning s2).1).filter
            (fun t => !((GetAllTriples s2).contains t))
          AllTriples := GetAllTriples (RunForwardReasoning s2).1
          OriginalCount := s2.Size
          InferredCount := (RunForwardReasoning s2).2
          TotalCount := (GetAllTriples (RunForwardReasoning s2).1).length }

theorem length_insertSorted (s : String) (l : List String) :
    (insertSorted s l).length = l.length + 1 := by
  induction l with
  | nil => rfl
  | cons x xs ih =>
    rw [insertSorted]
    split
    · simp
    · simp [ih]

theorem length_sortStrings (l : List String) : (sortStrings l).length = l.length := by
  rw [sortStrings]
  induction l with
  | nil => rfl
  | cons x xs ih => simp [List.foldr_cons, length_insertSorted, ih]

theorem length_GetAllTriples (ts : TripleStore) :
    (GetAllTriples ts).length = ts.tripleList.length := by
  rw [GetAllTriples, length_sortStrings, List.length_map]
  rfl

set_option maxHeartbeats 4000000 in
/-- Claim C10: whenever ForwardReasonWithDetails succeeds, the reported
counts satisfy OriginalCount + InferredCount = TotalCount: the store grows
by exactly one triple for each inference the driver counts as new. -/
theorem forwardReasonWithDetails_counts (abox tbox : String) (r : ReasoningResult)
    (h : ForwardReasonWithDetails abox tbox = Except.ok r) :
    r.OriginalCount + r.InferredCount = r.TotalCount := by
  rw [ForwardReasonWithDetails] at h
  split at h
  next e heq => exact absurd h (by simp)
  next s1 heq =>
    split at h
    next e heq2 => exact absurd h (by simp)
    next s2 heq2 =>
      have hr := Except.ok.inj h
      rw [← hr]
      have h2 := loop_size (fuelBound s2) s2
      rw [TripleStore.Size, TripleStore.Size] at h2
      have h3 := length_GetAllTriples (RunForwardReasoning s2).1
      rw [runForwardReasoning_def] at h3
      simp only [runForwardReasoning_def, TripleStore.Size]
      omega

set_option maxHeartbeats 4000000 in
/-- Witness: on empty inputs the loads are skipped, the saturation of the
empty store infers nothing, and the counts are 0 + 0 = 0. -/
theorem forwardReasonWithDetails_counts_witness :
    ForwardReasonWithDetails "" "" = Except.ok ⟨[], [], [], 0, 0, 0⟩ ∧
    (0 : Nat) + 0 = 0 :=
  ⟨rfl, forwardReasonWithDetails_counts "" "" ⟨[], [], [], 0, 0, 0⟩ rfl⟩

/-! Positional evaluation helpers for the parser. -/

theorem getD_append_left {α : Type} (l l' : List α) (d : α) :
    ∀ i, i < l.length → (l ++ l').getD i d = l.getD i d := by
  induction l with
  | nil => intro i h; simp at h
  | cons a t ih =>
    intro i h
    cases i with
    | zero => rfl
    | succ j =>
      simp only [List.cons_append, List.getD_cons_succ]
      exact ih j (by simpa using h)

theorem take_append_left {α : Type} (l l' : List α) :
    ∀ n, n ≤ l.length → (l ++ l').take n = l.take n := by
  induction l with
  | nil =>
    intro n h
    simp at h
    simp [h]
  | cons a t ih =>
    intro n h
    cases n with
    | zero => rfl
    | succ m =>
      simp only [List.cons_append, List.take_succ_cons]
      rw [ih m (by simpa using h)]

theorem drop_append_left {α : Type} (l l' : List α) :
    ∀ n, n ≤ l.length → (l ++ l').drop n = l.drop n ++ l' := by
  induction l with
  | nil =>
    intro n h
    simp at h
    simp [h]
  | cons a t ih =>
    intro n h
    cases n with
    | zero => rfl
    | succ m =>
      simp only [List.cons_append, List.drop_succ_cons]
      exact ih m (by simpa using h)

theorem getD_mem_drop (inp : List Char) (d : Char) :
    ∀ pos, pos < inp.length → inp.getD pos d ∈ inp.drop pos := by
  induction inp with
  | nil => intro pos h; simp at h
  | cons a t ih =>
    intro pos h
    cases pos with
    | zero => simp
    | succ j =>
      simp only [List.getD_cons_succ, List.drop_succ_cons]
      exact ih j (by simpa using h)

theorem findChar_not_mem (inp : List Char) (c : Char) :
    ∀ (n pos : Nat), inp.length - pos ≤ n → c ∉ inp.drop pos →
      findChar inp c pos = inp.length := by
  intro n
  induction n with
  | zero =>
    intro pos hn hm
    rw [findChar, dif_neg (by omega)]
  | succ m ih =>
    intro pos hn hm
    rw [findChar]
    by_cases h : pos < inp.length
    · rw [dif_pos h]
      have hne : inp.getD pos ' ' ≠ c := fun hEq => hm (hEq ▸ getD_mem_drop inp ' ' pos h)
      rw [if_neg hne]
      have hsub : inp.drop (pos + 1) ⊆ inp.drop pos := by
        rw [← List.drop_drop 1 pos inp]
        exact List.drop_subset _ _
      exact ih (pos + 1) (by omega) (fun hmem => hm (hsub hmem))
    · rw [dif_neg h]

theorem findChar_not_mem_of (inp : List Char) (c : Char) (pos : Nat)
    (hm : c ∉ inp.drop pos) : findChar inp c pos = inp.length :=
  findChar_not_mem inp c (inp.length - pos) pos (le_refl _) hm

theorem stripBOM_of {l : List Char} (h : l.headD ' ' ≠ '\uFEFF') : stripBOM l = l := by
  rw [stripBOM, if_neg h]

theorem replaceCRLF_of_not_cr : ∀ (l : List Char), '\r' ∉ l → replaceCRLF l = l
  | [], _ => rfl
  | [c], _ => rfl
  | c :: d :: rest, h => by
    rw [replaceCRLF, if_neg (fun hcd => h (by rw [hcd.1]; exact List.mem_cons_self _ _))]
    rw [replaceCRLF_of_not_cr (d :: rest) (fun hm => h (List.mem_cons_of_mem _ hm))]

/-! Unfolding lemmas for the four branches of the Parse main loop. -/

theorem parseLoop_eof {inp : List Char} {prefixes : List (String × String)} {base : String}
    {acc : List Triple} {pos : Nat} (h : inp.length ≤ skipWS inp pos) :
    parseLoop inp prefixes base acc pos = Except.ok acc := by
  rw [parseLoop, dif_neg (by omega)]

theorem parseLoop_pfx_err {inp : List Char} {prefixes : List (String × String)} {base : String}
    {acc : List Triple} {pos : Nat} {e : String} {p2 : Nat}
    (h : skipWS inp pos < inp.length)
    (hpfx : (lookingAt inp (skipWS inp pos) "@prefix" ||
      lookingAtCI inp (skipWS inp pos) "PREFIX") = true)
    (hp : parsePfxPos inp prefixes (skipWS inp pos) = (Except.error e, p2)) :
    parseLoop inp prefixes base acc pos = Except.error e := by
  rw [parseLoop, dif_pos h, dif_pos hpfx]
  split
  next e2 p' heq =>
    rw [hp] at heq
    have h1 := (Prod.mk.injEq _ _ _ _ ▸ heq).1
    rw [← Except.error.inj h1]
  next pfx2 p' heq =>
    rw [hp] at heq
    exact absurd heq (by simp)

theorem parseLoop_triples_ok {inp : List Char} {prefixes : List (String × String)} {base : String}
    {acc : List Triple} {pos : Nat} {ts2 : List Triple} {p2 : Nat}
    (h : skipWS inp pos < inp.length)
    (h1 : (lookingAt inp (skipWS inp pos) "@prefix" ||
      lookingAtCI inp (skipWS inp pos) "PREFIX") = false)
    (h2 : (lookingAt inp (skipWS inp pos) "@base" ||
      lookingAtCI inp (skipWS inp pos) "BASE") = false)
    (h3 : parseTriplesPos inp prefixes base (skipWS inp pos) = (Except.ok ts2, p2)) :
    parseLoop inp prefixes base acc pos = parseLoop inp prefixes base (acc ++ ts2) p2 := by
  rw [parseLoop, dif_pos h, dif_neg (by simp [h1]), dif_neg (by simp [h2])]
  split
  next ts' p' heq =>
    rw [h3] at heq
    have hp := Prod.mk.injEq _ _ _ _ ▸ heq
    rw [← Except.ok.inj hp.1, ← hp.2]
  next e p' heq =>
    rw [h3] at heq
    exact absurd heq (by simp)

theorem parseLoop_triples_err {inp : List Char} {prefixes : List (String × String)} {base : String}
    {acc : List Triple} {pos : Nat} {e : String} {p2 : Nat}
    (h : skipWS inp pos < inp.length)
    (h1 : (lookingAt inp (skipWS inp pos) "@prefix" ||
      lookingAtCI inp (skipWS inp pos) "PREFIX") = false)
    (h2 : (lookingAt inp (skipWS inp pos) "@base" ||
      lookingAtCI inp (skipWS inp pos) "BASE") = false)
    (h3 : parseTriplesPos inp prefixes base (skipWS inp pos) = (Except.error e, p2)) :
    parseLoop inp prefixes base acc pos =
      parseLoop inp prefixes base acc (skipToNextPos inp p2) := by
  rw [parseLoop, dif_pos h, dif_neg (by simp [h1]), dif_neg (by simp [h2])]
  split
  next ts' p' heq =>
    rw [h3] at heq
    exact absurd heq (by simp)
  next e2 p' heq =>
    rw [h3] at heq
    have hp := Prod.mk.injEq _ _ _ _ ▸ heq
    rw [← hp.2]

/-- On an input that opens a prefix declaration whose IRI never closes, the
parser reaches parseIRI inside parsePrefix and the error aborts Parse. -/
theorem parsePfxUnterminated (tail : List Char) (hgt : '>' ∉ tail) :
    parseLoop ("@prefix p: <".data ++ tail) [] "" [] 0 = Except.error "unterminated IRI" := by
  have hdata : "@prefix p: <".data = ['@','p','r','e','f','i','x',' ','p',':',' ','<'] := rfl
  have h12 : ("@prefix p: <".data).length = 12 := rfl
  set inp := "@prefix p: <".data ++ tail with hinp
  have hlen : inp.length = 12 + tail.length := by
    rw [hinp, List.length_append, h12]
  have hg : ∀ i, i < 12 →
      inp.getD i ' ' = (['@','p','r','e','f','i','x',' ','p',':',' ','<'] : List Char).getD i ' ' := by
    intro i hi
    rw [hinp, getD_append_left _ _ _ i (by rw [h12]; exact hi), hdata]
  have s0 : skipWS inp 0 = 0 := by
    rw [skipWS, dif_pos (by omega), dif_neg (by rw [hg 0 (by omega)]; decide),
      dif_neg (by rw [hg 0 (by omega)]; decide)]
  have la : lookingAt inp 0 "@prefix" = true := by
    rw [lookingAt, List.drop_zero, hinp,
      take_append_left _ _ _ (by rw [h12]; decide)]
    decide
  have hps : pfxSkip inp 0 = 7 := by
    rw [pfxSkip, if_pos la]
  have s7 : skipWS inp 7 = 8 := by
    rw [skipWS, dif_pos (by omega), dif_pos (by rw [hg 7 (by omega)]; decide)]
    rw [skipWS, dif_pos (by omega), dif_neg (by rw [hg (7+1) (by omega)]; decide),
      dif_neg (by rw [hg (7+1) (by omega)]; decide)]
  have hpn : parsePfxNamePos inp 8 = ("p:", 10) := by
    rw [parsePfxNamePos]
    rw [parsePfxNameAux, dif_pos (by omega), dif_neg (by rw [hg 8 (by omega)]; decide),
      dif_neg (by rw [hg 8 (by omega)]; decide)]
    rw [parsePfxNameAux, dif_pos (by omega), dif_pos (by rw [hg (8+1) (by omega)]; decide)]
    refine Prod.ext ?_ rfl
    rw [sliceStr, hinp, drop_append_left _ _ _ (by rw [h12]; omega), hdata]
    rw [show (['@','p','r','e','f','i','x',' ','p',':',' ','<'] : List Char).drop 8 =
      ['p',':',' ','<'] from rfl]
    rw [take_append_left _ _ _ (by decide)]
    decide
  have s10 : skipWS inp 10 = 11 := by
    rw [skipWS, dif_pos (by omega), dif_pos (by rw [hg 10 (by omega)]; decide)]
    rw [skipWS, dif_pos (by omega), dif_neg (by rw [hg (10+1) (by omega)]; decide),
      dif_neg (by rw [hg (10+1) (by omega)]; decide)]
  have s11 : skipWS inp 11 = 11 := by
    rw [skipWS, dif_pos (by omega), dif_neg (by rw [hg 11 (by omega)]; decide),
      dif_neg (by rw [hg 11 (by omega)]; decide)]
  have hfc : findChar inp '>' (11 + 1) = inp.length := by
    refine findChar_not_mem_of inp '>' (11 + 1) ?_
    rw [hinp, drop_append_left _ _ _ (by rw [h12]; try omega), hdata]
    rw [show (['@','p','r','e','f','i','x',' ','p',':',' ','<'] : List Char).drop (11 + 1) =
      [] from rfl]
    simpa using hgt
  have hiri : parseIRIPos inp 11 = (Except.error "unterminated IRI", inp.length) := by
    simp only [parseIRIPos]
    rw [s11]
    rw [dif_pos (⟨by omega, by rw [hg 11 (by omega)]; decide⟩ :
      11 < inp.length ∧ inp.getD 11 ' ' = '<')]
    rw [hfc, dif_pos (le_refl inp.length)]
  have hpfxpos : parsePfxPos inp [] 0 = (Except.error "unterminated IRI", inp.length) := by
    rw [parsePfxPos, hps, s7, hpn]
    rw [dif_neg (by decide : ¬ (("p:", 10) : String × Nat).1 = "")]
    simp only
    rw [s10, hiri]
  exact parseLoop_pfx_err (by rw [s0]; omega) (by rw [s0, la]; rfl) (by rw [s0]; exact hpfxpos)

/-- On a bare statement opening an IRI that never closes, the parse error is
caught: the parser skips to the next dot (here: end of input) and Parse
succeeds with no triples. -/
theorem parseLtUnterminated (tail : List Char) (hgt : '>' ∉ tail) :
    parseLoop ('<' :: tail) [] "" [] 0 = Except.ok [] := by
  set inp := '<' :: tail with hinp
  have hlen : inp.length = 1 + tail.length := by
    rw [hinp, List.length_cons]
    omega
  have g0 : inp.getD 0 ' ' = '<' := by rw [hinp]; rfl
  have s0 : skipWS inp 0 = 0 := by
    rw [skipWS, dif_pos (by omega), dif_neg (by rw [g0]; decide),
      dif_neg (by rw [g0]; decide)]
  have hk1 : lookingAt inp 0 "@prefix" = false := by
    rw [lookingAt, List.drop_zero, hinp,
      show "@prefix".data = ['@','p','r','e','f','i','x'] from rfl,
      show ((['@','p','r','e','f','i','x'] : List Char)).length = 7 from rfl,
      List.take_succ_cons]
    simp only [decide_eq_false_iff_not]
    intro hEq
    exact absurd (List.cons.injEq _ _ _ _ ▸ hEq).1 (by decide)
  have hk2 : lookingAtCI inp 0 "PREFIX" = false := by
    rw [lookingAtCI, List.drop_zero, hinp,
      show "PREFIX".data = ['P','R','E','F','I','X'] from rfl,
      show ((['P','R','E','F','I','X'] : List Char)).length = 6 from rfl,
      List.take_succ_cons, List.map_cons, List.map_cons]
    simp only [decide_eq_false_iff_not]
    intro hEq
    exact absurd (List.cons.injEq _ _ _ _ ▸ hEq).1 (by decide)
  have hk3 : lookingAt inp 0 "@base" = false := by
    rw [lookingAt, List.drop_zero, hinp,
      show "@base".data = ['@','b','a','s','e'] from rfl,
      show ((['@','b','a','s','e'] : List Char)).length = 5 from rfl,
      List.take_succ_cons]
    simp only [decide_eq_false_iff_not]
    intro hEq
    exact absurd (List.cons.injEq _ _ _ _ ▸ hEq).1 (by decide)
  have hk4 : lookingAtCI inp 0 "BASE" = false := by
    rw [lookingAtCI, List.drop_zero, hinp,
      show "BASE".data = ['B','A','S','E'] from rfl,
      show ((['B','A','S','E'] : List Char)).length = 4 from rfl,
      List.take_succ_cons, List.map_cons, List.map_cons]
    simp only [decide_eq_false_iff_not]
    intro hEq
    exact absurd (List.cons.injEq _ _ _ _ ▸ hEq).1 (by decide)
  have hfc : findChar inp '>' (0 + 1) = inp.length := by
    refine findChar_not_mem_of inp '>' (0 + 1) ?_
    rw [hinp, show ('<' :: tail).drop (0 + 1) = tail from rfl]
    exact hgt
  have hiri0 : parseIRIPos inp 0 = (Except.error "unterminated IRI", inp.length) := by
    simp only [parseIRIPos]
    rw [s0]
    rw [dif_pos (⟨by omega, g0⟩ : 0 < inp.length ∧ inp.getD 0 ' ' = '<')]
    rw [hfc, dif_pos (le_refl inp.length)]
  have hsub : parseSubjectPos inp [] "" 0 = (Except.error "unterminated IRI", inp.length) := by
    rw [parseSubjectPos, s0, dif_pos (by omega), dif_pos g0, hiri0]
  have htp : parseTriplesPos inp [] "" 0 = (Except.error "unterminated IRI", inp.length) := by
    rw [parseTriplesPos, hsub]
  have hskipnext : skipToNextPos inp inp.length = inp.length := by
    rw [skipToNextPos, findChar_eof (le_refl _), if_neg (lt_irrefl _)]
  rw [parseLoop_triples_err (by rw [s0]; omega) (by rw [s0, hk1, hk2]; rfl)
    (by rw [s0, hk3, hk4]; rfl) (by rw [s0]; exact htp)]
  rw [hskipnext]
  exact parseLoop_eof (by rw [skipWS_eof (le_refl _)])

/-- Claim C6 (amended): an unterminated IRI is a fatal error exactly when it
occurs inside a prefix (or base) declaration, where parsePrefix propagates
the parseIRI failure and Parse aborts; inside a triple statement the same
failure is caught by Parse, which skips to the next dot and succeeds, so
LoadTurtle does not fail on such input. -/
theorem loadTurtle_unterminated_iri (tail : List Char) (hgt : '>' ∉ tail)
    (hcr : '\r' ∉ tail) :
    (∀ ts : TripleStore, LoadTurtle ts (String.mk ("@prefix p: <".data ++ tail)) =
      Except.error ("failed to parse Turtle: " ++ "unterminated IRI")) ∧
    (∀ ts : TripleStore, LoadTurtle ts (String.mk ('<' :: tail)) = Except.ok ts) := by
  have hparse1 : Parse (String.mk ("@prefix p: <".data ++ tail)) =
      Except.error "unterminated IRI" := by
    show parseLoop (replaceCRLF (stripBOM ("@prefix p: <".data ++ tail))) [] "" [] 0 = _
    rw [stripBOM_of (by rw [show ("@prefix p: <".data ++ tail).headD ' ' = '@' from rfl]; decide)]
    rw [replaceCRLF_of_not_cr _ (fun hm => by
      rcases List.mem_append.mp hm with hL | hR
      · exact absurd hL (by decide)
      · exact hcr hR)]
    exact parsePfxUnterminated tail hgt
  have hparse2 : Parse (String.mk ('<' :: tail)) = Except.ok [] := by
    show parseLoop (replaceCRLF (stripBOM ('<' :: tail))) [] "" [] 0 = _
    rw [stripBOM_of (by rw [show ('<' :: tail).headD ' ' = '<' from rfl]; decide)]
    rw [replaceCRLF_of_not_cr _ (fun hm => by
      rcases List.mem_cons.mp hm with hL | hR
      · exact absurd hL (by decide)
      · exact hcr hR)]
    exact parseLtUnterminated tail hgt
  constructor
  · intro ts
    rw [LoadTurtle, hparse1]
  · intro ts
    rw [LoadTurtle, hparse2]
    rfl

/-- Witness for the amended claim at the concrete IRI body `http://a`. -/
theorem loadTurtle_unterminated_iri_witness :
    '>' ∉ "http://a".data ∧ '\r' ∉ "http://a".data ∧
    ((∀ ts : TripleStore, LoadTurtle ts (String.mk ("@prefix p: <".data ++ "http://a".data)) =
        Except.error ("failed to parse Turtle: " ++ "unterminated IRI")) ∧
     (∀ ts : TripleStore, LoadTurtle ts (String.mk ('<' :: "http://a".data)) = Except.ok ts)) :=
  ⟨by decide, by decide, loadTurtle_unterminated_iri _ (by decide) (by decide)⟩

/-- Counterexample to claim C6 as stated: this input contains `<` and no
closing `>`, yet LoadTurtle succeeds (with no triples loaded). -/
theorem loadTurtle_unterminated_iri_counterexample :
    '<' ∈ ('<' :: "http://a".data) ∧ '>' ∉ ('<' :: "http://a".data) ∧
    LoadTurtle NewTripleStore (String.mk ('<' :: "http://a".data)) =
      Except.ok NewTripleStore := by
  refine ⟨by decide, by decide, ?_⟩
  have hp : Parse (String.mk ('<' :: "http://a".data)) = Except.ok [] := by
    show parseLoop (replaceCRLF (stripBOM ('<' :: "http://a".data))) [] "" [] 0 = _
    rw [show replaceCRLF (stripBOM ('<' :: "http://a".data)) = '<' :: "http://a".data from
      by decide]
    exact parseLtUnterminated _ (by decide)
  rw [LoadTurtle, hp]
  rfl

/-- A successfully parsed prefix declaration binds the prefix and the loop
continues at the position after it. -/
theorem parseLoop_pfx_ok {inp : List Char} {prefixes : List (String × String)} {base : String}
    {acc : List Triple} {pos : Nat} {prefixes2 : List (String × String)} {p2 : Nat}
    (h : skipWS inp pos < inp.length)
    (hpfx : (lookingAt inp (skipWS inp pos) "@prefix" ||
      lookingAtCI inp (skipWS inp pos) "PREFIX") = true)
    (hp : parsePfxPos inp prefixes (skipWS inp pos) = (Except.ok prefixes2, p2)) :
    parseLoop inp prefixes base acc pos = parseLoop inp prefixes2 base acc p2 := by
  rw [parseLoop, dif_pos h, dif_pos hpfx]
  split
  next e2 p' heq =>
    rw [hp] at heq
    exact absurd heq (by simp)
  next pfx2 p' heq =>
    rw [hp] at heq
    have hpair := Prod.mk.injEq _ _ _ _ ▸ heq
    rw [← Except.ok.inj hpair.1, ← hpair.2]

/-- The error `e` comes out of a declaration at position `p` of the input:
the parser is looking at a prefix (or base) declaration keyword there, and
parsing that declaration yields exactly `e`. -/
def DeclErrorAt (inp : List Char) (e : String) (p : Nat)
    (prefixes2 : List (String × String)) : Prop :=
  ((lookingAt inp (skipWS inp p) "@prefix" = true ∨
      lookingAtCI inp (skipWS inp p) "PREFIX" = true) ∧
    (parsePfxPos inp prefixes2 (skipWS inp p)).1 = Except.error e) ∨
  ((lookingAt inp (skipWS inp p) "@base" = true ∨
      lookingAtCI inp (skipWS inp p) "BASE" = true) ∧
    (parseBasePos inp (skipWS inp p)).1 = Except.error e)

/-- Every error of the Parse loop, on every input and from every state,
originates in a prefix or base declaration: the triple-statement branch
never produces an error (it skips to the next dot and continues), so an
error run must pass through parsePrefix or parseBase at a position where
the corresponding keyword is present. -/
theorem parseLoop_error_from_decl (inp : List Char) (e : String) :
    ∀ (n : Nat) (prefixes : List (String × String)) (base : String) (acc : List Triple)
      (pos : Nat), inp.length - pos ≤ n →
      parseLoop inp prefixes base acc pos = Except.error e →
      ∃ (p : Nat) (prefixes2 : List (String × String)), DeclErrorAt inp e p prefixes2 := by
  intro n
  induction n with
  | zero =>
    intro prefixes base acc pos hn herr
    have hws := skipWS_ge_of inp pos
    rw [parseLoop_eof (by omega)] at herr
    exact absurd herr (by simp)
  | succ m ih =>
    intro prefixes base acc pos hn herr
    have hws := skipWS_ge_of inp pos
    by_cases h : skipWS inp pos < inp.length
    · rw [parseLoop, dif_pos h] at herr
      by_cases hpfx : (lookingAt inp (skipWS inp pos) "@prefix" ||
          lookingAtCI inp (skipWS inp pos) "PREFIX") = true
      · rw [dif_pos hpfx] at herr
        split at herr
        next e2 p' heq =>
          refine ⟨pos, prefixes, Or.inl ⟨by simpa using hpfx, ?_⟩⟩
          have he2 := Except.error.inj herr
          rw [heq, he2]
        next prefixes2 p2 heq =>
          have hgt := parsePfxPos_ok_gt heq
          exact ih prefixes2 base acc p2 (by omega) herr
      · rw [dif_neg hpfx] at herr
        by_cases hbase : (lookingAt inp (skipWS inp pos) "@base" ||
            lookingAtCI inp (skipWS inp pos) "BASE") = true
        · rw [dif_pos hbase] at herr
          split at herr
          next e2 p' heq =>
            refine ⟨pos, prefixes, Or.inr ⟨by simpa using hbase, ?_⟩⟩
            have he2 := Except.error.inj herr
            rw [heq, he2]
          next base2 p2 heq =>
            have hgt := parseBasePos_ok_gt heq
            exact ih prefixes base2 acc p2 (by omega) herr
        · rw [dif_neg hbase] at herr
          split at herr
          next ts2 p2 heq =>
            have hgt := parseTriplesPos_ok_gt heq
            exact ih prefixes base (acc ++ ts2) p2 (by omega) herr
          next e2 p2 heq =>
            have hge := parseTriplesPos_ge inp prefixes base (skipWS inp pos)
            rw [heq] at hge
            simp only at hge
            have hprog := skipToNextPos_progress inp (show pos < inp.length by omega)
              (show pos ≤ p2 by omega)
            exact ih prefixes base acc (skipToNextPos inp p2) (by omega) herr
    · rw [parseLoop_eof (by omega)] at herr
      exact absurd herr (by simp)

set_option maxHeartbeats 10000000 in
set_option maxRecDepth 10000 in
/-- A document with a prefix declaration, a malformed statement (`x;` has
no colon, so parsePrefixedName fails) and a well-formed statement using the
declared prefix: the declaration is processed, the malformed statement is
skipped up to the following dot, and the valid statement still contributes
its (prefix-resolved) triple. -/
theorem parseDeclSkipConcrete :
    Parse "@prefix ex: <http://e/> . x; . ex:a ex:b ex:c ." =
      Except.ok [⟨"http://e/a", "http://e/b", "http://e/c"⟩] := by
  show parseLoop
    (replaceCRLF (stripBOM "@prefix ex: <http://e/> . x; . ex:a ex:b ex:c .".data)) [] "" [] 0 = _
  rw [show replaceCRLF (stripBOM "@prefix ex: <http://e/> . x; . ex:a ex:b ex:c .".data) =
    "@prefix ex: <http://e/> . x; . ex:a ex:b ex:c .".data from by decide]
  have w0 : skipWS "@prefix ex: <http://e/> . x; . ex:a ex:b ex:c .".data 0 = 0 := by
    simp +decide [skipWS]
  have w7 : skipWS "@prefix ex: <http://e/> . x; . ex:a ex:b ex:c .".data 7 = 8 := by
    simp +decide [skipWS]
  have w11 : skipWS "@prefix ex: <http://e/> . x; . ex:a ex:b ex:c .".data 11 = 12 := by
    simp +decide [skipWS]
  have w25 : skipWS "@prefix ex: <http://e/> . x; . ex:a ex:b ex:c .".data 25 = 26 := by
    simp +decide [skipWS]
  have w30 : skipWS "@prefix ex: <http://e/> . x; . ex:a ex:b ex:c .".data 30 = 31 := by
    simp +decide [skipWS]
  have w35 : skipWS "@prefix ex: <http://e/> . x; . ex:a ex:b ex:c .".data 35 = 36 := by
    simp +decide [skipWS]
  have w40 : skipWS "@prefix ex: <http://e/> . x; . ex:a ex:b ex:c .".data 40 = 41 := by
    simp +decide [skipWS]
  have w46 : skipWS "@prefix ex: <http://e/> . x; . ex:a ex:b ex:c .".data 46 = 46 := by
    simp +decide [skipWS]
  have hps : pfxSkip "@prefix ex: <http://e/> . x; . ex:a ex:b ex:c .".data 0 = 7 := by
    decide
  have hpn8 : parsePfxNamePos "@prefix ex: <http://e/> . x; . ex:a ex:b ex:c .".data 8 =
      ("ex:", 11) := by
    simp +decide [parsePfxNamePos, parsePfxNameAux, sliceStr]
  have hi12 : parseIRIPos "@prefix ex: <http://e/> . x; . ex:a ex:b ex:c .".data 12 =
      (Except.ok "http://e/", 23) := by
    simp +decide [parseIRIPos, skipWS, findChar, sliceStr]
  have hdot : dotOpt "@prefix ex: <http://e/> . x; . ex:a ex:b ex:c .".data 23 = 25 := by
    simp +decide [dotOpt, skipWS]
  have hpp : parsePfxPos "@prefix ex: <http://e/> . x; . ex:a ex:b ex:c .".data [] 0 =
      (Except.ok [("ex", "http://e/")], 25) := by
    rw [parsePfxPos, hps, w7, hpn8]
    rw [dif_neg (by decide : ¬ (("ex:", 11) : String × Nat).1 = "")]
    simp only
    rw [w11, hi12]
    simp only
    rw [hdot]
    rfl
  have htr1 : parseTriplesPos "@prefix ex: <http://e/> . x; . ex:a ex:b ex:c .".data
      [("ex", "http://e/")] "" 26 =
      (Except.error "expected : in prefixed name at position 27", 27) := by
    simp +decide [parseTriplesPos, parseSubjectPos, parsePfxedNamePos, scanPfxPart,
      scanNameChars, skipWS, lookingAt, sliceStr, lookupPfx]
  have sn : skipToNextPos "@prefix ex: <http://e/> . x; . ex:a ex:b ex:c .".data 27 = 30 := by
    simp +decide [skipToNextPos, findChar]
  have hsub : parseSubjectPos "@prefix ex: <http://e/> . x; . ex:a ex:b ex:c .".data
      [("ex", "http://e/")] "" 31 = (Except.ok "http://e/a", 35) := by
    simp +decide [parseSubjectPos, parsePfxedNamePos, scanPfxPart, scanNameChars, skipWS,
      lookingAt, sliceStr, lookupPfx]
  have hprd : parsePredicatePos "@prefix ex: <http://e/> . x; . ex:a ex:b ex:c .".data
      [("ex", "http://e/")] "" 36 = (Except.ok "http://e/b", 40) := by
    simp +decide [parsePredicatePos, parsePfxedNamePos, scanPfxPart, scanNameChars, skipWS,
      sliceStr, lookupPfx, isNameChar]
  have hobj : parseObjectPos "@prefix ex: <http://e/> . x; . ex:a ex:b ex:c .".data
      [("ex", "http://e/")] "" 41 = (Except.ok "http://e/c", 45) := by
    simp +decide [parseObjectPos, parsePfxedNamePos, scanPfxPart, scanNameChars, skipWS,
      lookingAt, sliceStr, lookupPfx]
  have hol : parseObjListPos "@prefix ex: <http://e/> . x; . ex:a ex:b ex:c .".data
      [("ex", "http://e/")] "" "http://e/a" "http://e/b" 40 [] =
      (Except.ok [⟨"http://e/a", "http://e/b", "http://e/c"⟩], 46) := by
    rw [parseObjListPos, w40, hobj]
    simp +decide [skipWS]
  have hpo : parsePOListPos "@prefix ex: <http://e/> . x; . ex:a ex:b ex:c .".data
      [("ex", "http://e/")] "" "http://e/a" 35 [] =
      (Except.ok [⟨"http://e/a", "http://e/b", "http://e/c"⟩], 47) := by
    rw [parsePOListPos, w35, dif_neg (by decide), dif_neg (by decide), hprd]
    simp only
    rw [hol]
    simp only
    rw [w46, dif_neg (by decide), dif_neg (by decide), dif_pos (by decide)]
  have htr2 : parseTriplesPos "@prefix ex: <http://e/> . x; . ex:a ex:b ex:c .".data
      [("ex", "http://e/")] "" 31 =
      (Except.ok [⟨"http://e/a", "http://e/b", "http://e/c"⟩], 47) := by
    simp +decide [parseTriplesPos, hsub, hpo]
  rw [parseLoop_pfx_ok (by rw [w0]; decide) (by rw [w0]; decide) (by rw [w0]; exact hpp)]
  rw [parseLoop_triples_err (by rw [w25]; decide) (by rw [w25]; decide) (by rw [w25]; decide)
    (by rw [w25]; exact htr1)]
  rw [sn]
  rw [parseLoop_triples_ok (by rw [w30]; decide) (by rw [w30]; decide) (by rw [w30]; decide)
    (by rw [w30]; exact htr2)]
  rw [parseLoop_eof (by rw [skipWS_eof (by decide)]; decide)]
  rfl

set_option maxHeartbeats 4000000 in
/-- Claim C9: LoadTurtle returns an error only when a prefix or base
declaration is malformed: every LoadTurtle error is, verbatim, the error of
parsePrefix or parseBase at a reached position of the preprocessed input
where the declaration keyword is present (first conjunct, unconditional);
such failures do occur (second conjunct, an unterminated IRI inside
`@prefix`); and a malformed triple statement never makes LoadTurtle fail —
in a document with a declaration, a malformed statement and a valid one,
the parser skips the malformed statement to the next dot and the valid
statement's triple is still returned and loaded (last conjuncts). -/
theorem loadTurtle_error_only_from_declarations :
    (∀ (content : String) (ts : TripleStore) (msg : String),
      LoadTurtle ts content = Except.error msg →
      ∃ (e : String) (p : Nat) (prefixes2 : List (String × String)),
        msg = "failed to parse Turtle: " ++ e ∧
        DeclErrorAt (replaceCRLF (stripBOM content.data)) e p prefixes2) ∧
    LoadTurtle NewTripleStore "@prefix p: <" =
      Except.error ("failed to parse Turtle: " ++ "unterminated IRI") ∧
    Parse "@prefix ex: <http://e/> . x; . ex:a ex:b ex:c ." =
      Except.ok [⟨"http://e/a", "http://e/b", "http://e/c"⟩] ∧
    (∀ ts : TripleStore, LoadTurtle ts "@prefix ex: <http://e/> . x; . ex:a ex:b ex:c ." =
      Except.ok (loadTriples ts [⟨"http://e/a", "http://e/b", "http://e/c"⟩])) := by
  have hperr : Parse "@prefix p: <" = Except.error "unterminated IRI" := by
    show parseLoop (replaceCRLF (stripBOM "@prefix p: <".data)) [] "" [] 0 = _
    rw [show replaceCRLF (stripBOM "@prefix p: <".data) = "@prefix p: <".data from by decide]
    have h := parsePfxUnterminated [] (by decide)
    rw [List.append_nil] at h
    exact h
  refine ⟨?_, ?_, parseDeclSkipConcrete, fun ts => ?_⟩
  · intro content ts msg herr
    rw [LoadTurtle] at herr
    split at herr
    next e0 heq =>
      have hmsg := Except.error.inj herr
      have heq2 : parseLoop (replaceCRLF (stripBOM content.data)) [] "" [] 0 =
          Except.error e0 := heq
      obtain ⟨p, prefixes2, hcase⟩ :=
        parseLoop_error_from_decl (replaceCRLF (stripBOM content.data)) e0
          ((replaceCRLF (stripBOM content.data)).length) [] "" [] 0 (by omega) heq2
      exact ⟨e0, p, prefixes2, hmsg.symm, hcase⟩
    next triples heq => exact absurd herr (by simp)
  · rw [LoadTurtle, hperr]
  · rw [LoadTurtle, parseDeclSkipConcrete]

end GoReasoner

